import Mathlib

/-!
# Thrill reduce pre-stage: fingerprint exchange of `ReducePreStage::FlushAll`

A shallow embedding of `thrill/core/reduce_pre_stage.hpp`:

* `WriteEncodedHashes`, `ReadEncodedHashesToVector` and the protocol part of
  `FlushAll` are translated from the source, with the cursor `j` into
  `hashes_` represented by the not yet consumed suffix `hashes_[j..]`;
* `core::DynamicBitset` (the Golomb-Rice bit codec), `common::CalculateLocalRange`,
  the `CatStream` and `AllReduce` are not part of the sources at hand and are
  modelled from the specification;
* the emitter and `Insert`, `FlushPartition` and `CloseAll` of the stage are
  translated from the source, over writers and a reduce table modelled from
  the specification;
* the serializers for `int` and for `(string, int)` pairs of
  `c7a/data/serializer.hpp` are translated from the source, with blobs as lists
  of bytes and `int` as the integers from `INT_MIN` to `INT_MAX`.

`size_t` values are natural numbers; the places where the width of the machine
type matters (`AllReduce`, the conversions through `double`) are explicit.
-/

namespace Thrill

/-! ## The bit codec -/

/-- Fixed-width field: the `w` low bits of `r`, least significant bit first. -/
def toBits : Nat → Nat → List Bool
  | 0, _ => []
  | w + 1, r => (r % 2 == 1) :: toBits w (r / 2)

/-- Value of a fixed-width field written by `toBits`. -/
def ofBits : List Bool → Nat
  | [] => 0
  | x :: xs => (if x then 1 else 0) + 2 * ofBits xs

/-- Reads a unary number (ones closed by a zero); gives the number and the
bits after the closing zero, or nothing if the closing zero is missing. -/
def readUnary : List Bool → Option (Nat × List Bool)
  | [] => none
  | false :: rest => some (0, rest)
  | true :: rest =>
    match readUnary rest with
    | none => none
    | some (q, rest') => some (q + 1, rest')

/-- Modelled from the spec: `core::DynamicBitset<size_t>` (header
`thrill/core/dynamic_bitset.hpp`, not among the sources), the BitCodec of
section 4.1: a bit-addressable buffer with a declared bit capacity, the code
parameter `b`, the bits written so far and the read/write cursor. -/
structure DynamicBitset where
  capacity : Nat
  b : Nat
  bits : List Bool
  pos : Nat
deriving DecidableEq

namespace DynamicBitset

/-- Modelled from the spec: constructor `DynamicBitset(n, false, b)`, an empty
buffer with a declared capacity of `n` bits. -/
def create (n b : Nat) : DynamicBitset :=
  { capacity := n, b := b, bits := [], pos := 0 }

/-- Modelled from the spec: constructor `DynamicBitset(raw_data, data_size, b)`
over `data_size` received bytes. -/
def ofData (raw_data : List Bool) (data_size b : Nat) : DynamicBitset :=
  { capacity := 8 * data_size, b := b, bits := raw_data, pos := 0 }

/-- Modelled from the spec: `Seek(position)` repositions the read/write
cursor. -/
def seek (s : DynamicBitset) (position : Nat) : DynamicBitset :=
  { s with pos := position }

/-- The code word of one delta: quotient `d >> b` in unary (ones, then a
closing zero), then the remainder `d & ((1 << b) - 1)` as a `b`-bit field. -/
def codeword (b d : Nat) : List Bool :=
  List.replicate (d >>> b) true ++ false :: toBits b (d &&& ((1 <<< b) - 1))

/-- Modelled from the spec: `Encode(delta)` writes the code word at the cursor
and advances the cursor; it fails (capacity error, `none`) if the declared bit
capacity would be exceeded. -/
def golomb_in (s : DynamicBitset) (value : Nat) : Option DynamicBitset :=
  let code := codeword s.b value
  if s.pos + code.length ≤ s.capacity then
    some { s with
      bits := s.bits.take s.pos ++ code ++ s.bits.drop (s.pos + code.length),
      pos := s.pos + code.length }
  else none

/-- Modelled from the spec: `Decode()` reads the unary quotient and the
`b`-bit remainder at the cursor, reconstructs `(q << b) | r` and advances the
cursor; `none` if the buffer ends inside the code word. -/
def golomb_out (s : DynamicBitset) : Option (Nat × DynamicBitset) :=
  match readUnary (s.bits.drop s.pos) with
  | none => none
  | some (q, rest) =>
    if rest.length < s.b then none
    else some ((q <<< s.b) ||| ofBits (rest.take s.b),
               { s with pos := s.pos + (q + 1 + s.b) })

/-- Modelled from the spec: `ByteSize()`, the size of the smallest
byte-aligned buffer holding all bits written so far. -/
def byte_size (s : DynamicBitset) : Nat := (s.bits.length + 7) / 8

/-- Modelled from the spec: `GetGolombData()`, the buffer as whole bytes: the
bits written so far, byte-padded at the end with zero bits. -/
def GetGolombData (s : DynamicBitset) : List Bool :=
  s.bits ++ List.replicate (8 * s.byte_size - s.bits.length) false

end DynamicBitset

/-! ## Ranges -/

/-- The type `common::Range`: the half-open interval `[begin, end)`. -/
structure Range where
  begin : Nat
  end_ : Nat
deriving DecidableEq

/-- Modelled from the spec: `common::CalculateLocalRange(global_size, p, i)`
(header `thrill/common/math.hpp`, not among the sources): the `i`-th of `p`
contiguous ranges of a proportional partition of `[0, global_size)`, from
`ceil(i * global_size / p)` to `ceil((i + 1) * global_size / p)`, cut off at
`global_size`. -/
def CalculateLocalRange (global_size p i : Nat) : Range :=
  { begin := (i * global_size + p - 1) / p,
    end_ := min (((i + 1) * global_size + p - 1) / p) global_size }

/-! ## Wire blocks and streams -/

/-- One wire block `[size_t byte_length][size_t element_count][payload]`, as
written by `Put(byte_size)`, `Put(num_elements)`, `Append(data, byte_size)`. -/
structure Block where
  byte_length : Nat
  element_count : Nat
  payload : List Bool
deriving DecidableEq

/-- The three writes that close a block (lines 221-224 and 316-320): the
cursor is reset, then byte size, element count and the data are written. -/
def Block.ofCode (golomb_code : DynamicBitset) (num_elements : Nat) : Block :=
  let golomb_code := golomb_code.seek 0
  { byte_length := golomb_code.byte_size,
    element_count := num_elements,
    payload := golomb_code.GetGolombData }

/-! ## `WriteEncodedHashes` -/

/-- The `for` loop of lines 209-217 for one destination. The first argument is
`range_i.end`, the list is `hashes_[j..]`; the result is the suffix left for
the next destination, `num_elements` and the code. (`hashes_` is sorted when
`FlushAll` calls this, so `hashes_[j] - delta` does not wrap.) -/
def WriteEncodedHashes.loop (range_end : Nat) :
    List Nat → Nat → Nat → DynamicBitset → Option (List Nat × Nat × DynamicBitset)
  | [], _, num_elements, golomb_code => some ([], num_elements, golomb_code)
  | h :: rest, delta, num_elements, golomb_code =>
    if h < range_end then
      if h ≠ delta then
        match golomb_code.golomb_in (h - delta) with
        | none => none
        | some golomb_code' =>
          WriteEncodedHashes.loop range_end rest h (num_elements + 1) golomb_code'
      else WriteEncodedHashes.loop range_end rest delta num_elements golomb_code
    else some (h :: rest, num_elements, golomb_code)

/-- The special case of lines 204-208: a leading fingerprint 0 is encoded as
delta 0. -/
def WriteEncodedHashes.zero (golomb_code : DynamicBitset) :
    List Nat → Option (List Nat × Nat × DynamicBitset)
  | 0 :: rest =>
    match golomb_code.golomb_in 0 with
    | none => none
    | some golomb_code' => some (rest, 1, golomb_code')
  | rest => some (rest, 0, golomb_code)

/-- The body of the loop over the destinations (lines 193-224) for one
destination with range `range_i`: the block written to `writers[i]` and the
suffix of `hashes_` left for the next destination. -/
def WriteEncodedHashes.dest (range_i : Range) (b space_bound : Nat)
    (rest : List Nat) : Option (Block × List Nat) :=
  let golomb_code := (DynamicBitset.create space_bound b).seek 0
  match WriteEncodedHashes.zero golomb_code rest with
  | none => none
  | some (rest, num_elements, golomb_code) =>
    match WriteEncodedHashes.loop range_i.end_ rest 0 num_elements golomb_code with
    | none => none
    | some (rest, num_elements, golomb_code) =>
      some (Block.ofCode golomb_code num_elements, rest)

/-- The loop `for (i = 0; i < num_workers; ++i)`: `n` destinations from `i`
on. -/
def WriteEncodedHashes.dests (num_workers b max_hash space_bound : Nat) :
    Nat → Nat → List Nat → Option (List Block)
  | 0, _, _ => some []
  | n + 1, i, rest =>
    match WriteEncodedHashes.dest (CalculateLocalRange max_hash num_workers i)
        b space_bound rest with
    | none => none
    | some (block, rest') =>
      match WriteEncodedHashes.dests num_workers b max_hash space_bound n (i + 1) rest' with
      | none => none
      | some blocks => some (block :: blocks)

/-- `ReducePreStage::WriteEncodedHashes` on a worker whose (projected, sorted)
fingerprints are `hashes_`: the blocks written to `writers[0..num_workers)`,
or `none` if the codec reports a capacity error. -/
def WriteEncodedHashes (hashes_ : List Nat) (num_workers b max_hash space_bound : Nat) :
    Option (List Block) :=
  WriteEncodedHashes.dests num_workers b max_hash space_bound num_workers 0 hashes_

/-! ## `ReadEncodedHashesToVector` -/

/-- The loop of lines 246-251: `num_elements` values are decoded, each added
to the running value `last`, and pushed onto `target_vec`. -/
def ReadEncodedHashesToVector.loop :
    Nat → DynamicBitset → Nat → List Nat → Option (List Nat)
  | 0, _, _, target_vec => some target_vec
  | n + 1, golomb_code, last, target_vec =>
    match golomb_code.golomb_out with
    | none => none
    | some (d, golomb_code') =>
      let new_elem := d + last
      ReadEncodedHashesToVector.loop n golomb_code' new_elem (target_vec ++ [new_elem])

/-- `ReducePreStage::ReadEncodedHashesToVector`: the blocks of the stream are
read one after the other and their values appended to `target_vec`. -/
def ReadEncodedHashesToVector : List Block → List Nat → Nat → Option (List Nat)
  | [], target_vec, _ => some target_vec
  | block :: stream, target_vec, b =>
    let golomb_code := (DynamicBitset.ofData block.payload block.byte_length b).seek 0
    match ReadEncodedHashesToVector.loop block.element_count golomb_code 0 target_vec with
    | none => none
    | some target_vec' => ReadEncodedHashesToVector stream target_vec' b

/-! ## `FlushAll`: parameter negotiation -/

/-- Number of halvings that bring `n` below 2, with `fuel` steps at most. -/
def ilog2.go : Nat → Nat → Nat
  | 0, _ => 0
  | fuel + 1, n => if n < 2 then 0 else 1 + ilog2.go fuel (n / 2)

/-- Binary logarithm of a positive integer, rounded down (exact on powers of
two). -/
def ilog2 (n : Nat) : Nat := ilog2.go n n

/-- Conversion of an unsigned integer to `double` and the rounding of a
`double` product whose exact value is the integer `n`: values below `2^53` are
exact, larger ones are rounded to 53 significant bits, to nearest, ties to
even. The result is an integer. -/
def toDouble (n : Nat) : Nat :=
  if n < 2 ^ 53 then n
  else
    let e := ilog2 n - 52
    let q := n / 2 ^ e
    let r := n % 2 ^ e
    if 2 * r < 2 ^ e then q * 2 ^ e
    else if 2 * r = 2 ^ e ∧ q % 2 = 0 then q * 2 ^ e
    else (q + 1) * 2 ^ e

/-- Conversion of a `double` with the integral value `d` to `size_t`: a value
below `2^64` is kept. A value of `2^64` or more is outside `size_t`; the
conversion is then undefined in C++, and the code as built for x86-64 yields
0. -/
def toSizeT (d : Nat) : Nat := if d < 2 ^ 64 then d else 0

/-- The constant `double fpr_parameter = 8` of line 261. -/
def fpr_parameter : Nat := 8

/-- The code parameter of line 262, `(size_t)(std::log(2) * fpr_parameter)`:
`ln 2 * 8 = 5.545...`, truncated. -/
def FlushAll.b : Nat := 5

/-- The space bound of line 263,
`upper_bound_uniques * (2 + std::log2(fpr_parameter))`, a `double` product
(`std::log2(8.0)` is exactly `3.0`) converted back to `size_t`
(`toSizeT`). -/
def FlushAll.upper_space_bound (upper_bound_uniques : Nat) : Nat :=
  toSizeT (toDouble (toDouble upper_bound_uniques * (2 + ilog2 fpr_parameter)))

/-- The fingerprint range of line 265, `upper_bound_uniques * fpr_parameter`,
a `double` product converted back to `size_t` (`toSizeT`). -/
def FlushAll.max_hash (upper_bound_uniques : Nat) : Nat :=
  toSizeT (toDouble (toDouble upper_bound_uniques * fpr_parameter))

/-- The state of a `ReducePreStage` the protocol works on: the recorded key
hashes and the two counters (lines 368, 386, 387). -/
structure ReducePreStage where
  hashes_ : List Nat
  unique_elements_ : Nat
  total_elements_ : Nat
deriving DecidableEq

/-- The parameters a worker derives in lines 259-265 from the all-reduced
count; the worker's own state takes no part in it. -/
def FlushAll.negotiate (_self : ReducePreStage) (upper_bound_uniques : Nat) :
    Nat × Nat × Nat :=
  (FlushAll.b, FlushAll.max_hash upper_bound_uniques,
    FlushAll.upper_space_bound upper_bound_uniques)

/-- Modelled from the spec: `net.AllReduce`, the sum of one `size_t` per
worker, the same on all workers. -/
def AllReduce (values : List Nat) : Nat := values.sum % 2 ^ 64

/-! ## `FlushAll`: projection -/

/-- The loop of lines 267-269, `hashes_[i] = hashes_[i] % max_hash`; a
remainder by zero has no value. -/
def FlushAll.modLoop (max_hash : Nat) : List Nat → Option (List Nat)
  | [] => some []
  | h :: rest =>
    if max_hash = 0 then none
    else
      match FlushAll.modLoop max_hash rest with
      | none => none
      | some rest' => some (h % max_hash :: rest')

/-- The call `std::sort(v.begin(), v.end())` on a vector of `size_t`. -/
def sort (v : List Nat) : List Nat := List.insertionSort (fun x y => x ≤ y) v

/-- The projection step, lines 265-271: every hash is reduced modulo
`max_hash` and the result is sorted. -/
def FlushAll.project (hashes_ : List Nat) (max_hash : Nat) : Option (List Nat) :=
  match FlushAll.modLoop max_hash hashes_ with
  | none => none
  | some hashes_' => some (sort hashes_')

/-! ## `FlushAll`: duplicate detection -/

/-- The special case of lines 292-296 for a duplicated 0. -/
def FlushAll.dupZero (duplicate_code : DynamicBitset) :
    List Nat → Option (Nat × DynamicBitset)
  | 0 :: 0 :: _ =>
    match duplicate_code.golomb_in 0 with
    | none => none
    | some duplicate_code' => some (1, duplicate_code')
  | _ => some (0, duplicate_code)

/-- The loop of lines 297-303 over the neighbours `hashes_dups[j]`,
`hashes_dups[j+1]`; the list is `hashes_dups[j..]`. (`hashes_dups` is sorted,
so `hashes_dups[j] - delta` does not wrap.) -/
def FlushAll.dupLoop :
    List Nat → Nat → Nat → DynamicBitset → Option (Nat × DynamicBitset)
  | x :: y :: rest, delta, num_elements, duplicate_code =>
    if x = y ∧ x ≠ delta then
      match duplicate_code.golomb_in (x - delta) with
      | none => none
      | some duplicate_code' =>
        FlushAll.dupLoop (y :: rest) x (num_elements + 1) duplicate_code'
    else FlushAll.dupLoop (y :: rest) delta num_elements duplicate_code
  | _, _, num_elements, duplicate_code => some (num_elements, duplicate_code)

/-- The duplicate scan of lines 283-306 over the sorted `hashes_dups`, and
the block that lines 316-320 write from its result. -/
def FlushAll.duplicates (hashes_dups : List Nat) (b upper_space_bound : Nat) :
    Option Block :=
  let duplicate_code := (DynamicBitset.create upper_space_bound b).seek 0
  match FlushAll.dupZero duplicate_code hashes_dups with
  | none => none
  | some (num_elements, duplicate_code) =>
    match FlushAll.dupLoop hashes_dups 0 num_elements duplicate_code with
    | none => none
    | some (num_elements, duplicate_code) =>
      some (Block.ofCode duplicate_code num_elements)

/-! ## `FlushAll`: the two rounds on a cluster -/

/-- All results of a list of fallible steps, or `none` if one of them
failed. -/
def allSome {α : Type} : List (Option α) → Option (List α)
  | [] => some []
  | none :: _ => none
  | some a :: rest =>
    match allSome rest with
    | none => none
    | some as => some (a :: as)

/-- Modelled from the spec: the merged reader `GetCatReader` of worker `i` on
an all-to-all stream: the blocks written to destination `i`, in the order of
the sending workers. `sent[w]` lists the blocks worker `w` wrote to its
writers `0, 1, ...`. -/
def CatStream.reader (sent : List (List Block)) (i : Nat) : List Block :=
  sent.filterMap (fun blocks => blocks[i]?)

/-- Lines 265-275 on one worker: projection, sort and `WriteEncodedHashes`. -/
def FlushAll.round1 (self : ReducePreStage) (num_workers upper_bound_uniques : Nat) :
    Option (List Block) :=
  match FlushAll.project self.hashes_ (FlushAll.max_hash upper_bound_uniques) with
  | none => none
  | some hashes_ =>
    WriteEncodedHashes hashes_ num_workers FlushAll.b
      (FlushAll.max_hash upper_bound_uniques)
      (FlushAll.upper_space_bound upper_bound_uniques)

/-- Lines 277-306 on one worker: the received blocks are decoded into
`hashes_dups`, sorted and scanned for duplicates. -/
def FlushAll.detect (golomb_data_stream : List Block) (upper_bound_uniques : Nat) :
    Option Block :=
  match ReadEncodedHashesToVector golomb_data_stream [] FlushAll.b with
  | none => none
  | some hashes_dups =>
    FlushAll.duplicates (sort hashes_dups) FlushAll.b
      (FlushAll.upper_space_bound upper_bound_uniques)

/-- Lines 311-321 on one worker: the duplicate block is written to every
writer of the duplicates stream. -/
def FlushAll.round2 (num_workers : Nat) (duplicate_block : Block) : List Block :=
  List.replicate num_workers duplicate_block

/-- The protocol part of `FlushAll` (lines 259-327) run by all workers of a
cluster: the vector `duplicates` each worker ends with, or `none` if a step
failed on some worker. -/
def FlushAll (cluster : List ReducePreStage) : Option (List (List Nat)) :=
  let num_workers := cluster.length
  let upper_bound_uniques := AllReduce (cluster.map (fun w => w.unique_elements_))
  match allSome (cluster.map
      (fun w => FlushAll.round1 w num_workers upper_bound_uniques)) with
  | none => none
  | some golomb_data_stream =>
    match allSome ((List.range num_workers).map (fun i =>
        FlushAll.detect (CatStream.reader golomb_data_stream i) upper_bound_uniques)) with
    | none => none
    | some duplicate_blocks =>
      let duplicates_stream := duplicate_blocks.map (FlushAll.round2 num_workers)
      allSome ((List.range num_workers).map (fun i =>
        ReadEncodedHashesToVector (CatStream.reader duplicates_stream i) [] FlushAll.b))

/-! ## Writers and the emitter -/

/-- What one `Put` of the emitter hands to a writer: the key/value pair
(`VolatileKey`) or the value alone (`RobustKey`). -/
inductive Record (Key Value : Type) where
  | pair (p : Key × Value)
  | value (v : Value)
deriving DecidableEq

/-- Modelled from the spec: `data::DynBlockWriter` (header
`thrill/data/block_writer.hpp`, not among the sources), the ordered writer of
one partition of section 6 with `Put`, `Flush` and `Close`: the records put
so far, how many of them a flush has forced to the transport, and whether the
writer is closed. -/
structure DynBlockWriter (Key Value : Type) where
  items : List (Record Key Value)
  flushed : Nat
  closed : Bool
deriving DecidableEq

/-- Modelled from the spec: `Put` appends one record; putting into a closed
writer is an error (`none`). -/
def DynBlockWriter.Put {Key Value : Type} (writer : DynBlockWriter Key Value)
    (record : Record Key Value) : Option (DynBlockWriter Key Value) :=
  if writer.closed then none else some { writer with items := writer.items ++ [record] }

/-- Modelled from the spec: `Flush` forces the buffered records to the
transport. -/
def DynBlockWriter.Flush {Key Value : Type} (writer : DynBlockWriter Key Value) :
    DynBlockWriter Key Value :=
  { writer with flushed := writer.items.length }

/-- Modelled from the spec: `Close` flushes and closes the writer. -/
def DynBlockWriter.Close {Key Value : Type} (writer : DynBlockWriter Key Value) :
    DynBlockWriter Key Value :=
  { writer with flushed := writer.items.length, closed := true }

/-- The two specializations of `ReducePreStageEmitterSwitch::Put` (lines
46-62): `writer.Put(p.second)` for `VolatileKey = false`, `writer.Put(p)` for
`VolatileKey = true`. -/
def ReducePreStageEmitterSwitch.Put {Key Value : Type} (VolatileKey : Bool)
    (p : Key × Value) (writer : DynBlockWriter Key Value) :
    Option (DynBlockWriter Key Value) :=
  match VolatileKey with
  | false => writer.Put (Record.value p.2)
  | true => writer.Put (Record.pair p)

/-- The class `ReducePreStageEmitter` (lines 67-106): the template parameter
`VolatileKey`, the writers, one per partition, and the emitter stats. The
counters are `size_t`; they count calls one by one and are taken as unbounded
naturals. -/
structure ReducePreStageEmitter (Key Value : Type) where
  VolatileKey : Bool
  writer_ : List (DynBlockWriter Key Value)
  stats_ : List Nat
deriving DecidableEq

/-- Result of an operation that can fail half way: the state it ends with, or
the state at the point of the error. -/
inductive Outcome (State : Type) where
  | ok (state : State)
  | error (state : State)
deriving DecidableEq

/-- The statement `stats_[partition_id]++`. -/
def increment : Nat → List Nat → List Nat
  | _, [] => []
  | 0, count :: rest => (count + 1) :: rest
  | i + 1, count :: rest => count :: increment i rest

namespace ReducePreStageEmitter

/-- The constructor (lines 73-75): the stats start at 0, one per writer. -/
def create {Key Value : Type} (VolatileKey : Bool) (writer : List (DynBlockWriter Key Value)) :
    ReducePreStageEmitter Key Value :=
  { VolatileKey := VolatileKey, writer_ := writer, stats_ := List.replicate writer.length 0 }

/-- `ReducePreStageEmitter::Emit` (lines 79-84): the assertion on
`partition_id`, the increment of the stats, then the `Put`. -/
def Emit {Key Value : Type} (self : ReducePreStageEmitter Key Value) (partition_id : Nat)
    (p : Key × Value) : Outcome (ReducePreStageEmitter Key Value) :=
  match self.writer_[partition_id]? with
  | none => Outcome.error self
  | some writer =>
    let counted := { self with stats_ := increment partition_id self.stats_ }
    match ReducePreStageEmitterSwitch.Put self.VolatileKey p writer with
    | none => Outcome.error counted
    | some writer' =>
      Outcome.ok { counted with writer_ := counted.writer_.set partition_id writer' }

/-- `ReducePreStageEmitter::Flush` (lines 86-89). -/
def Flush {Key Value : Type} (self : ReducePreStageEmitter Key Value) (partition_id : Nat) :
    Option (ReducePreStageEmitter Key Value) :=
  match self.writer_[partition_id]? with
  | none => none
  | some writer => some { self with writer_ := self.writer_.set partition_id writer.Flush }

/-- `ReducePreStageEmitter::CloseAll` (lines 91-98): every writer is
closed. -/
def CloseAll {Key Value : Type} (self : ReducePreStageEmitter Key Value) :
    ReducePreStageEmitter Key Value :=
  { self with writer_ := self.writer_.map (fun e => e.Close) }

/-- A sequence of `Emit` calls, stopped by the first error. -/
def emitAll {Key Value : Type} (partition_id : Nat) :
    List (Key × Value) → ReducePreStageEmitter Key Value →
      Option (ReducePreStageEmitter Key Value)
  | [], self => some self
  | p :: rest, self =>
    match self.Emit partition_id p with
    | Outcome.ok self' => emitAll partition_id rest self'
    | Outcome.error _ => none

end ReducePreStageEmitter

/-! ## The reduce table -/

/-- The functions a table is constructed with: key extractor, reduce function
and index function. -/
structure ReduceFunctions (Key Value : Type) where
  key_extractor : Value → Key
  reduce_function : Value → Value → Value
  index_function : Key → Nat

/-- Modelled from the spec: the reduce table of section 4.2 (the headers
`thrill/core/reduce_*_hash_table.hpp` and `c7a/core/reduce_post_probing_table.hpp`
are not among the sources), as a bucketed table: the working-set bound in
items (none before `Initialize`), for every partition its live items in slot
order, at most one per key, and its spill file. -/
structure ReduceTable (Key Value : Type) where
  limit_items : Option Nat
  items : List (List (Key × Value))
  partition_files : List (List (Key × Value))
deriving DecidableEq

/-- Modelled from the spec: inserts into or merges with the slots of one
partition: an item with the same key is combined through the reduce function
(answer `false`), a new key takes a new slot (answer `true`). -/
def insertItem {Key Value : Type} [DecidableEq Key] (reduce_function : Value → Value → Value)
    (kv : Key × Value) : List (Key × Value) → Bool × List (Key × Value)
  | [] => (true, [kv])
  | item :: rest =>
    if item.1 = kv.1 then (false, (item.1, reduce_function item.2 kv.2) :: rest)
    else ((insertItem reduce_function kv rest).1,
      item :: (insertItem reduce_function kv rest).2)

/-- Modelled from the spec: the partition a spill selects, the (first)
largest one. -/
def largestPartition {Item : Type} : List (List Item) → Nat
  | [] => 0
  | slots :: rest =>
    if slots.length < (rest.getD (largestPartition rest) []).length then
      largestPartition rest + 1
    else 0

namespace ReduceTable

/-- Modelled from the spec: a table of `num_partitions` empty partitions. -/
def create {Key Value : Type} (num_partitions : Nat) : ReduceTable Key Value :=
  { limit_items := none,
    items := List.replicate num_partitions [],
    partition_files := List.replicate num_partitions [] }

/-- Modelled from the spec: `Initialize(memory_limit)` sets the working-set
bound. -/
def Initialize {Key Value : Type} (self : ReduceTable Key Value) (limit : Nat) :
    ReduceTable Key Value :=
  { self with limit_items := some limit }

/-- Modelled from the spec: the number of partitions. -/
def num_partitions {Key Value : Type} (self : ReduceTable Key Value) : Nat :=
  self.items.length

/-- Modelled from the spec: `NumItems()`, the live count across partitions. -/
def NumItems {Key Value : Type} (self : ReduceTable Key Value) : Nat :=
  (self.items.map List.length).sum

/-- Modelled from the spec: a spill writes the current contents of a
partition to its spill file and leaves its slots free. -/
def SpillPartition {Key Value : Type} (self : ReduceTable Key Value) (partition_id : Nat) :
    ReduceTable Key Value :=
  { self with
    items := self.items.set partition_id [],
    partition_files := self.partition_files.set partition_id
      (self.partition_files.getD partition_id [] ++ self.items.getD partition_id []) }

/-- Modelled from the spec: `Insert(pair) → bool` inserts or merges and
answers whether the key is new; crossing the working-set bound spills a
partition. -/
def Insert {Key Value : Type} [DecidableEq Key] (fn : ReduceFunctions Key Value)
    (self : ReduceTable Key Value) (kv : Key × Value) : Bool × ReduceTable Key Value :=
  let partition_id := fn.index_function kv.1 % self.items.length
  let inserted := insertItem fn.reduce_function kv (self.items.getD partition_id [])
  let table := { self with items := self.items.set partition_id inserted.2 }
  match table.limit_items with
  | none => (inserted.1, table)
  | some limit =>
    if limit < table.NumItems then
      (inserted.1, table.SpillPartition (largestPartition table.items))
    else (inserted.1, table)

/-- Modelled from the spec: `FlushPartition(id, consume)` yields all
in-memory items of the partition plus, if `consume`, all previously spilled
items read back from storage (its file is consumed); afterwards the partition
has no live item. The yielded items are handed to the emitter by the
caller. -/
def FlushPartition {Key Value : Type} (self : ReduceTable Key Value) (partition_id : Nat)
    (consume : Bool) : List (Key × Value) × ReduceTable Key Value :=
  match consume with
  | true =>
    (self.items.getD partition_id [] ++ self.partition_files.getD partition_id [],
      { self with
        items := self.items.set partition_id [],
        partition_files := self.partition_files.set partition_id [] })
  | false =>
    (self.items.getD partition_id [],
      { self with items := self.items.set partition_id [] })

/-- Modelled from the spec: whether the spill file of the partition holds
records. -/
def has_spilled_data_on_partition {Key Value : Type} (self : ReduceTable Key Value)
    (partition_id : Nat) : Bool :=
  !(self.partition_files.getD partition_id []).isEmpty

/-- Modelled from the spec: `partition_files()[id].GetReader(true)` read to
the end: all records of the spill file, which the consuming read empties. -/
def readFile {Key Value : Type} (self : ReduceTable Key Value) (partition_id : Nat) :
    List (Key × Value) × ReduceTable Key Value :=
  (self.partition_files.getD partition_id [],
    { self with partition_files := self.partition_files.set partition_id [] })

end ReduceTable

/-! ## `ReducePreStage`: insertion and partition flush -/

/-- The body of `Insert` (lines 166-170 and 174-178) on the counters, given
the answer of `table_.Insert` and the hash of the key. -/
def ReducePreStage.record (self : ReducePreStage) (inserted : Bool) (key_hash : Nat) :
    ReducePreStage :=
  match inserted with
  | true =>
    { hashes_ := self.hashes_ ++ [key_hash],
      unique_elements_ := self.unique_elements_ + 1,
      total_elements_ := self.total_elements_ + 1 }
  | false => { self with total_elements_ := self.total_elements_ + 1 }

/-- A `ReducePreStage` with all its members (lines 368-387): the emitter, the
table, and the hashes and counters. -/
structure PreStage (Key Value : Type) where
  emit_ : ReducePreStageEmitter Key Value
  table_ : ReduceTable Key Value
  counters : ReducePreStage
deriving DecidableEq

/-- An argument of one of the two overloads of `Insert`: a value (line 165)
or a key/value pair (line 173). -/
inductive Inserted (Key Value : Type) where
  | value (p : Value)
  | pair (kv : Key × Value)

namespace PreStage

/-- The constructor (lines 135-152); `num_partitions == emit.size()` is
asserted. -/
def create {Key Value : Type} (VolatileKey : Bool) (num_partitions : Nat)
    (emit : List (DynBlockWriter Key Value)) : Option (PreStage Key Value) :=
  if num_partitions = emit.length then
    some { emit_ := ReducePreStageEmitter.create VolatileKey emit,
           table_ := ReduceTable.create num_partitions,
           counters := { hashes_ := [], unique_elements_ := 0, total_elements_ := 0 } }
  else none

/-- `Initialize` (lines 159-161). -/
def Initialize {Key Value : Type} (self : PreStage Key Value) (limit_memory : Nat) :
    PreStage Key Value :=
  { self with table_ := self.table_.Initialize limit_memory }

/-- `Insert(const Value& p)` (lines 165-171); `hash` is `std::hash<Key>`. -/
def Insert {Key Value : Type} [DecidableEq Key] (fn : ReduceFunctions Key Value)
    (hash : Key → Nat) (self : PreStage Key Value) (p : Value) : PreStage Key Value :=
  { self with
    table_ := (self.table_.Insert fn (fn.key_extractor p, p)).2,
    counters := self.counters.record (self.table_.Insert fn (fn.key_extractor p, p)).1
      (hash (fn.key_extractor p)) }

/-- `Insert(const KeyValuePair& kv)` (lines 173-179). -/
def InsertPair {Key Value : Type} [DecidableEq Key] (fn : ReduceFunctions Key Value)
    (hash : Key → Nat) (self : PreStage Key Value) (kv : Key × Value) : PreStage Key Value :=
  { self with
    table_ := (self.table_.Insert fn kv).2,
    counters := self.counters.record (self.table_.Insert fn kv).1 (hash kv.1) }

/-- One call of `Insert`, of either overload. -/
def insert {Key Value : Type} [DecidableEq Key] (fn : ReduceFunctions Key Value)
    (hash : Key → Nat) (self : PreStage Key Value) : Inserted Key Value → PreStage Key Value
  | Inserted.value p => self.Insert fn hash p
  | Inserted.pair kv => self.InsertPair fn hash kv

/-- `FlushPartition` (lines 339-354): the table flushes the partition to the
emitter; if the partition has spilled data, its file is read with a consuming
reader and every record emitted; then the writer of the partition is
flushed. -/
def FlushPartition {Key Value : Type} (self : PreStage Key Value) (partition_id : Nat)
    (consume : Bool) : Option (PreStage Key Value) :=
  let flushed := self.table_.FlushPartition partition_id consume
  match ReducePreStageEmitter.emitAll partition_id flushed.1 self.emit_ with
  | none => none
  | some emit1 =>
    let read :=
      if flushed.2.has_spilled_data_on_partition partition_id then
        flushed.2.readFile partition_id
      else ([], flushed.2)
    match ReducePreStageEmitter.emitAll partition_id read.1 emit1 with
    | none => none
    | some emit2 =>
      match emit2.Flush partition_id with
      | none => none
      | some emit3 => some { self with emit_ := emit3, table_ := read.2 }

/-- The loop of lines 333-335, `n` partitions from `id` on. -/
def flushLoop {Key Value : Type} : Nat → Nat → PreStage Key Value → Option (PreStage Key Value)
  | 0, _, self => some self
  | n + 1, id, self =>
    match self.FlushPartition id true with
    | none => none
    | some self' => flushLoop n (id + 1) self'

/-- The end of `FlushAll` (lines 333-335): every partition is flushed. -/
def flushPartitions {Key Value : Type} (self : PreStage Key Value) :
    Option (PreStage Key Value) :=
  flushLoop self.table_.num_partitions 0 self

/-- `CloseAll` (lines 357-360): the emitter closes all writers and the table
is disposed of. -/
def CloseAll {Key Value : Type} (self : PreStage Key Value) : PreStage Key Value :=
  { self with
    emit_ := self.emit_.CloseAll,
    table_ := ReduceTable.create self.table_.num_partitions }

end PreStage

/-- `FlushAll` on a whole cluster, lines 257-336: the two protocol rounds,
after which every worker holds its projected, sorted hashes and its duplicate
list, and then flushes all its partitions. -/
def FlushAll.complete {Key Value : Type} (cluster : List (PreStage Key Value)) :
    Option (List (PreStage Key Value × List Nat)) :=
  match FlushAll (cluster.map (fun w => w.counters)) with
  | none => none
  | some duplicates =>
    allSome ((cluster.zip duplicates).map (fun wd =>
      match PreStage.flushPartitions
        { wd.1 with counters := { wd.1.counters with
            hashes_ := sort (wd.1.counters.hashes_.map (fun h => h %
              FlushAll.max_hash
                (AllReduce (cluster.map (fun w => w.counters.unique_elements_))))) } } with
      | none => none
      | some w => some (w, wd.2)))

/-! ## The table with emitter functions of the tests -/

/-- Modelled from the spec: the table of the tests
(`c7a::core::ReducePostProbingTable`, not among the sources): a reduce table
and a list of emitters; an emitter is what it has received so far. -/
structure ReducePostProbingTable (Key Value : Type) where
  table : ReduceTable Key Value
  emitters : List (List (Key × Value))
deriving DecidableEq

namespace ReducePostProbingTable

/-- Modelled from the spec: a table constructed over `num_emitters` emitters
that have received nothing yet. -/
def create {Key Value : Type} (num_partitions num_emitters : Nat) :
    ReducePostProbingTable Key Value :=
  { table := ReduceTable.create num_partitions,
    emitters := List.replicate num_emitters [] }

/-- Modelled from the spec: `Insert` inserts into or merges with the
table. -/
def Insert {Key Value : Type} [DecidableEq Key] (fn : ReduceFunctions Key Value)
    (self : ReducePostProbingTable Key Value) (kv : Key × Value) :
    ReducePostProbingTable Key Value :=
  { self with table := (self.table.Insert fn kv).2 }

/-- Modelled from the spec: `NumItems()`. -/
def NumItems {Key Value : Type} (self : ReducePostProbingTable Key Value) : Nat :=
  self.table.NumItems

/-- Modelled from the spec: one item is handed to every registered
emitter. -/
def emit {Key Value : Type} (emitters : List (List (Key × Value))) (item : Key × Value) :
    List (List (Key × Value)) :=
  emitters.map (fun received => received ++ [item])

/-- Modelled from the spec: the loop of `Flush` over the partitions, `n`
partitions from `id` on: what a partition yields is emitted item by item. -/
def flushLoop {Key Value : Type} :
    Nat → Nat → ReducePostProbingTable Key Value → ReducePostProbingTable Key Value
  | 0, _, self => self
  | n + 1, id, self =>
    flushLoop n (id + 1)
      { table := (self.table.FlushPartition id true).2,
        emitters := (self.table.FlushPartition id true).1.foldl emit self.emitters }

/-- Modelled from the spec: `Flush()` flushes every partition, consuming. -/
def Flush {Key Value : Type} (self : ReducePostProbingTable Key Value) :
    ReducePostProbingTable Key Value :=
  flushLoop self.table.num_partitions 0 self

end ReducePostProbingTable

/-! ## Auxiliary definitions for the proofs -/

/-- The bits of a list of deltas: their code words one after the other. -/
def encodeAll (b : Nat) : List Nat → List Bool
  | [] => []
  | d :: ds => DynamicBitset.codeword b d ++ encodeAll b ds

/-- The deltas of a list of values: every value minus the one before it, the
first minus `prev`. -/
def deltasFrom : Nat → List Nat → List Nat
  | _, [] => []
  | prev, v :: vs => (v - prev) :: deltasFrom v vs

/-- Number of bits of the code of the values `vs`, delta-encoded from 0 with
parameter `b`: for every delta `d`, `(d >> b) + 1` unary bits and `b`
remainder bits. -/
def blockBits (b : Nat) (vs : List Nat) : Nat :=
  ((deltasFrom 0 vs).map (fun d => (d >>> b) + 1 + b)).sum

/-- The block that holds the values `vs`, delta-encoded from 0. -/
def Block.encode (b : Nat) (vs : List Nat) : Block :=
  { byte_length := ((encodeAll b (deltasFrom 0 vs)).length + 7) / 8,
    element_count := vs.length,
    payload := encodeAll b (deltasFrom 0 vs) ++
      List.replicate (8 * (((encodeAll b (deltasFrom 0 vs)).length + 7) / 8)
        - (encodeAll b (deltasFrom 0 vs)).length) false }

/-- The running sums the decoder forms from a list of deltas. -/
def runningSums : Nat → List Nat → List Nat
  | _, [] => []
  | last, d :: ds => (d + last) :: runningSums (d + last) ds

/-- A code under construction: written in one pass, the cursor stands behind
the bits written so far. -/
def DynamicBitset.writing (capacity b : Nat) (bits : List Bool) : DynamicBitset :=
  { capacity := capacity, b := b, bits := bits, pos := bits.length }

/-- The values for which the loop of lines 209-217 calls `golomb_in`. -/
def WriteEncodedHashes.loopVals (range_end : Nat) : List Nat → Nat → List Nat
  | [], _ => []
  | h :: rest, delta =>
    if h < range_end then
      if h ≠ delta then h :: WriteEncodedHashes.loopVals range_end rest h
      else WriteEncodedHashes.loopVals range_end rest delta
    else []

/-- The values encoded for one destination: a leading 0 (lines 204-208), then
the values of the loop. -/
def WriteEncodedHashes.destVals (range_end : Nat) : List Nat → List Nat
  | 0 :: rest => 0 :: WriteEncodedHashes.loopVals range_end rest 0
  | rest => WriteEncodedHashes.loopVals range_end rest 0

/-- The fingerprints one destination leaves for the next. -/
def WriteEncodedHashes.destRest (range_end : Nat) : List Nat → List Nat
  | 0 :: rest => rest.dropWhile (fun x => decide (x < range_end))
  | rest => rest.dropWhile (fun x => decide (x < range_end))

/-- The distinct fingerprints of `hashes_` that lie in the range `r`, in the
order of `hashes_`. -/
def distinctIn (r : Range) (hashes_ : List Nat) : List Nat :=
  (hashes_.filter (fun x => decide (r.begin ≤ x ∧ x < r.end_))).dedup

/-- The values for which the loop of lines 297-303 calls `golomb_in`. -/
def FlushAll.dupVals : List Nat → Nat → List Nat
  | x :: y :: rest, delta =>
    if x = y ∧ x ≠ delta then x :: FlushAll.dupVals (y :: rest) x
    else FlushAll.dupVals (y :: rest) delta
  | _, _ => []

/-- The values the duplicate scan encodes: a duplicated 0 (lines 292-296),
then the values of the loop. -/
def FlushAll.dupAll : List Nat → List Nat
  | 0 :: 0 :: rest => 0 :: FlushAll.dupVals (0 :: 0 :: rest) 0
  | l => FlushAll.dupVals l 0

/-- The values that occur at least twice in `l`, each once, in the order of
`l`. -/
def repeated (l : List Nat) : List Nat :=
  (l.filter (fun x => decide (2 ≤ l.count x))).dedup

/-- The sorted fingerprints of a worker after the projection step. -/
def projected (max_hash : Nat) (self : ReducePreStage) : List Nat :=
  sort (self.hashes_.map (fun h => h % max_hash))

/-- The sorted list `hashes_dups` of the owner of range `i` after round 1:
what every worker sent for range `i`, merged. -/
def merged (cluster : List ReducePreStage) (i : Nat) : List Nat :=
  sort ((cluster.map (fun w =>
    distinctIn
      (CalculateLocalRange
        (FlushAll.max_hash (AllReduce (cluster.map (fun w => w.unique_elements_))))
        cluster.length i)
      (projected
        (FlushAll.max_hash (AllReduce (cluster.map (fun w => w.unique_elements_)))) w))).flatten)

/-- The duplicates of all range owners, in the order of the owners. -/
def clusterDuplicates (cluster : List ReducePreStage) : List Nat :=
  ((List.range cluster.length).map (fun i => repeated (merged cluster i))).flatten

/-- A sequence of `Emit` calls with their partition ids, stopped by the
first error. -/
def ReducePreStageEmitter.emitSequence {Key Value : Type} :
    List (Nat × (Key × Value)) → ReducePreStageEmitter Key Value →
      Option (ReducePreStageEmitter Key Value)
  | [], self => some self
  | call :: rest, self =>
    match self.Emit call.1 call.2 with
    | Outcome.ok self' => ReducePreStageEmitter.emitSequence rest self'
    | Outcome.error _ => none

/-- The record that the emitter switch hands to the writer: the value alone
for a non-volatile key, the whole pair otherwise. -/
def recordOf {Key Value : Type} (VolatileKey : Bool) (p : Key × Value) : Record Key Value :=
  match VolatileKey with
  | false => Record.value p.2
  | true => Record.pair p

/-- The stage as `FlushAll` leaves it after the two protocol rounds: its
hashes projected into `[0, max_hash)` and sorted. -/
def PreStage.projected {Key Value : Type} (self : PreStage Key Value)
    (upper_bound_uniques : Nat) : PreStage Key Value :=
  { self with counters := { self.counters with
      hashes_ := sort (self.counters.hashes_.map (fun h => h %
        FlushAll.max_hash upper_bound_uniques)) } }

/-- The distinct elements of a list, each once, in order of first
occurrence. -/
def firstOccurrences {α : Type} [DecidableEq α] : List α → List α
  | [] => []
  | a :: l => a :: (firstOccurrences l).filter (fun b => decide (b ≠ a))

/-- The values inserted under key `k`, in order of insertion. -/
def valuesOf {Key Value : Type} [DecidableEq Key] (k : Key) (kvs : List (Key × Value)) :
    List Value :=
  (kvs.filter (fun kv => decide (kv.1 = k))).map Prod.snd

/-- The reduce-function fold of all values inserted under key `k`: none if
there is no such value. -/
def reduced {Key Value : Type} [DecidableEq Key] (reduce_function : Value → Value → Value)
    (k : Key) (kvs : List (Key × Value)) : Option Value :=
  match valuesOf k kvs with
  | [] => none
  | v :: vs => some (vs.foldl reduce_function v)

/-- The key/value pair that a call of `Insert` hands to the table (lines 167
and 175). -/
def Inserted.toPair {Key Value : Type} (fn : ReduceFunctions Key Value) :
    Inserted Key Value → Key × Value
  | Inserted.value p => (fn.key_extractor p, p)
  | Inserted.pair kv => kv

/-- The table after the insert or merge of `Insert`, before the working-set
bound is looked at. -/
def ReduceTable.insertLive {Key Value : Type} [DecidableEq Key] (fn : ReduceFunctions Key Value)
    (self : ReduceTable Key Value) (kv : Key × Value) : ReduceTable Key Value :=
  { self with
    items := self.items.set (fn.index_function kv.1 % self.items.length)
      (insertItem fn.reduce_function kv
        (self.items.getD (fn.index_function kv.1 % self.items.length) [])).2 }

/-- Whether `Insert` of `kv` crosses the working-set bound, and so spills a
partition. -/
def ReduceTable.spills {Key Value : Type} [DecidableEq Key] (fn : ReduceFunctions Key Value)
    (self : ReduceTable Key Value) (kv : Key × Value) : Bool :=
  match self.limit_items with
  | none => false
  | some limit => decide (limit < (self.insertLive fn kv).NumItems)

/-- A sequence of `Insert` calls on the table. -/
def ReduceTable.insertAll {Key Value : Type} [DecidableEq Key] (fn : ReduceFunctions Key Value)
    (self : ReduceTable Key Value) (kvs : List (Key × Value)) : ReduceTable Key Value :=
  kvs.foldl (fun table kv => (table.Insert fn kv).2) self

/-- No `Insert` of the sequence spills a partition. -/
def ReduceTable.noSpill {Key Value : Type} [DecidableEq Key] (fn : ReduceFunctions Key Value) :
    ReduceTable Key Value → List (Key × Value) → Bool
  | _, [] => true
  | self, kv :: rest =>
    !(self.spills fn kv) && ReduceTable.noSpill fn (self.Insert fn kv).2 rest

/-- What a table without spilled data holds after the inserts `done`: in
partition `i` exactly one item for every inserted key whose index is `i`, with
the fold of its values; and as many items as distinct keys. -/
def TableInv {Key Value : Type} [DecidableEq Key] (fn : ReduceFunctions Key Value) (n : Nat)
    (table : ReduceTable Key Value) (done : List (Key × Value)) : Prop :=
  table.items.length = n ∧
  (∀ i k, i < n → (table.items.getD i []).filter (fun item => decide (item.1 = k))
    = if fn.index_function k % n = i then
        ((reduced fn.reduce_function k done).map (fun v => (k, v))).toList
      else []) ∧
  table.NumItems = (firstOccurrences (done.map Prod.fst)).length

/-- What `Flush` hands to every emitter: for every partition in ascending
order its live items followed by its spilled items. -/
def ReduceTable.yield {Key Value : Type} (self : ReduceTable Key Value) :
    List (Key × Value) :=
  ((List.range self.items.length).map (fun p =>
    self.items.getD p [] ++ self.partition_files.getD p [])).flatten

/-- A sequence of `Insert` calls seen from the counters: for every call the
answer of the table and the hash of the key. -/
def ReducePreStage.recordAll (answers : List (Bool × Nat)) (self : ReducePreStage) :
    ReducePreStage :=
  answers.foldl (fun counters answer => counters.record answer.1 answer.2) self

/-- The values for which `WriteEncodedHashes` calls `golomb_in`, destination
by destination (`n` destinations from `i` on), and the suffix `hashes_[j..]`
that the cursor `j` leaves after the last of them. -/
def WriteEncodedHashes.encoded (num_workers max_hash : Nat) :
    Nat → Nat → List Nat → List (List Nat) × List Nat
  | 0, _, rest => ([], rest)
  | n + 1, i, rest =>
    (WriteEncodedHashes.destVals (CalculateLocalRange max_hash num_workers i).end_ rest ::
      (WriteEncodedHashes.encoded num_workers max_hash n (i + 1)
        (WriteEncodedHashes.destRest
          (CalculateLocalRange max_hash num_workers i).end_ rest)).1,
     (WriteEncodedHashes.encoded num_workers max_hash n (i + 1)
        (WriteEncodedHashes.destRest
          (CalculateLocalRange max_hash num_workers i).end_ rest)).2)

/-- The number of deltas that `golomb_out` can decode one after the other,
from the cursor on, with `fuel` steps at most. -/
def DynamicBitset.decodable : Nat → DynamicBitset → Nat
  | 0, _ => 0
  | fuel + 1, s =>
    match s.golomb_out with
    | none => 0
    | some (_, s') => 1 + DynamicBitset.decodable fuel s'

/-- The number of deltas decodable from the `byte_length` payload bytes of a
block (every code word has at least one bit, so one step per payload bit is
enough). -/
def Block.decodable (b : Nat) (block : Block) : Nat :=
  DynamicBitset.decodable (block.payload.length + 1)
    ((DynamicBitset.ofData block.payload block.byte_length b).seek 0)

/-- The loop of lines 246-251 with the target vector as it stands when the
loop ends: `push_back` is done value by value, so a decode error leaves in
`target_vec` the values decoded before it. -/
def ReadEncodedHashesToVector.loopState :
    Nat → DynamicBitset → Nat → List Nat → Outcome (List Nat)
  | 0, _, _, target_vec => Outcome.ok target_vec
  | n + 1, golomb_code, last, target_vec =>
    match golomb_code.golomb_out with
    | none => Outcome.error target_vec
    | some (d, golomb_code') =>
      ReadEncodedHashesToVector.loopState n golomb_code' (d + last) (target_vec ++ [d + last])

/-- `ReadEncodedHashesToVector` with the target vector as it stands at the
end of the stream or at the decode error. -/
def ReadEncodedHashesToVector.state : List Block → List Nat → Nat → Outcome (List Nat)
  | [], target_vec, _ => Outcome.ok target_vec
  | block :: stream, target_vec, b =>
    match ReadEncodedHashesToVector.loopState block.element_count
        ((DynamicBitset.ofData block.payload block.byte_length b).seek 0) 0 target_vec with
    | Outcome.error target_vec' => Outcome.error target_vec'
    | Outcome.ok target_vec' => ReadEncodedHashesToVector.state stream target_vec' b

/-! ## The serializers of `c7a/data/serializer.hpp` -/

/-- The type `Blob` (line 25), a `std::string`: a sequence of `char`, each one
byte. -/
abbrev Blob := List (Fin 256)

/-- The value `sizeof(int)`: an `int` has 32 bits, in two's complement. -/
def sizeof_int : Nat := 4

/-- The smallest `int`. -/
def INT_MIN : Int := -2147483648

/-- The largest `int`. -/
def INT_MAX : Int := 2147483647

/-- The object representation of an unsigned value in `w` bytes, least
significant byte first. -/
def objectBytes : Nat → Nat → Blob
  | 0, _ => []
  | w + 1, n => ⟨n % 256, Nat.mod_lt n (by decide)⟩ :: objectBytes w (n / 256)

/-- The unsigned value of an object representation. -/
def objectValue : Blob → Nat
  | [] => 0
  | c :: cs => c.val + 256 * objectValue cs

/-- The bytes `memcpy(result, &i, sizeof(int))` copies out of the `int` `i`. -/
def memcpy_from_int (i : Int) : Blob :=
  objectBytes sizeof_int (i % 2 ^ 32).toNat

/-- The `int` that `memcpy(&i, bytes, sizeof(int))` leaves in `i`. -/
def memcpy_to_int (bytes : Blob) : Int :=
  if objectValue bytes < 2 ^ 31 then (objectValue bytes : Int)
  else (objectValue bytes : Int) - 2 ^ 32

/-- How `Deserialize` of a `(string, int)` pair can fail: `memcpy` reads past
the end of the character array of the string, or the substring constructor
throws `std::out_of_range`. -/
inductive DeserializeError where
  | read_past_end
  | out_of_range
deriving DecidableEq

/-- `serializers::Impl<std::pair<std::string, int>>::Serialize` (lines 72-78):
`len` is a `size_t`; the bytes of the `int` are copied to the front of
`result`, the characters of the string behind them, and the first `len`
characters of `result` are the blob. -/
def serializers.Impl_string_int.Serialize (x : Blob × Int) : Blob :=
  let len := (sizeof_int + x.1.length) % 2 ^ 64
  let result := memcpy_from_int x.2 ++ x.1
  result.take len

/-- `serializers::Impl<std::pair<std::string, int>>::Deserialize` (lines
80-86): `str_len` is a `size_t` difference; `memcpy` reads `sizeof(int)`
characters of `x.c_str()`, an array of `x.size()` characters and the closing
zero; `std::string s(x, sizeof(int), str_len)` throws `std::out_of_range` if
`sizeof(int) > x.size()` and otherwise takes at most `str_len` characters from
position `sizeof(int)` on. -/
def serializers.Impl_string_int.Deserialize (x : Blob) :
    Except DeserializeError (Blob × Int) :=
  let str_len := (x.length + 2 ^ 64 - sizeof_int) % 2 ^ 64
  if x.length + 1 < sizeof_int then Except.error DeserializeError.read_past_end
  else
    let i := memcpy_to_int ((x ++ [0]).take sizeof_int)
    if x.length < sizeof_int then Except.error DeserializeError.out_of_range
    else Except.ok ((x.drop sizeof_int).take str_len, i)

/-- The character of a decimal digit. -/
def digitChar (d : Nat) : Fin 256 := ⟨48 + d % 10, by omega⟩

/-- The decimal digits of `n`, most significant first, with `fuel` digits at
most. -/
def decimal : Nat → Nat → Blob
  | 0, _ => []
  | fuel + 1, n =>
    if n < 10 then [digitChar n] else decimal fuel (n / 10) ++ [digitChar (n % 10)]

/-- The library function `std::to_string(int)`: the decimal digits, after a
minus sign for a negative value. -/
def to_string (x : Int) : Blob :=
  if x < 0 then 45 :: decimal (x.natAbs + 1) x.natAbs
  else decimal (x.natAbs + 1) x.natAbs

/-- The library function `isspace` in the "C" locale. -/
def isspace (c : Fin 256) : Bool := c.val = 32 || (9 ≤ c.val && c.val ≤ 13)

/-- The library function `isdigit`. -/
def isdigit (c : Fin 256) : Bool := 48 ≤ c.val && c.val ≤ 57

/-- How `std::stoi` can fail. -/
inductive StoiError where
  | invalid_argument
  | out_of_range
deriving DecidableEq

/-- The library function `std::stoi(str)` (base 10): leading white space is
skipped, an optional sign is taken, then the longest run of digits is
converted; no digit gives `std::invalid_argument`, a value outside `int` gives
`std::out_of_range`; what follows the digits is ignored. -/
def stoi (str : Blob) : Except StoiError Int :=
  let s := str.dropWhile isspace
  let negative := decide (s.head? = some 45)
  let s := if s.head? = some 45 ∨ s.head? = some 43 then s.tail else s
  let digits := s.takeWhile isdigit
  if digits = [] then Except.error StoiError.invalid_argument
  else
    let magnitude : Nat := digits.foldl (fun acc c => 10 * acc + (c.val - 48)) 0
    let value : Int := if negative then -(magnitude : Int) else (magnitude : Int)
    if value < INT_MIN ∨ INT_MAX < value then Except.error StoiError.out_of_range
    else Except.ok value

/-- `serializers::Impl<int>::Serialize` (lines 48-50). -/
def serializers.Impl_int.Serialize (x : Int) : Blob := to_string x

/-- `serializers::Impl<int>::Deserialize` (lines 52-54). -/
def serializers.Impl_int.Deserialize (x : Blob) : Except StoiError Int := stoi x

/-- `Serialize<std::pair<std::string, int>>` (lines 138-141). -/
def Serialize_string_int (x : Blob × Int) : Blob :=
  serializers.Impl_string_int.Serialize x

/-- `Deserialize<std::pair<std::string, int>>` (lines 144-147). -/
def Deserialize_string_int (x : Blob) : Except DeserializeError (Blob × Int) :=
  serializers.Impl_string_int.Deserialize x

/-- `Serialize<int>` (lines 138-141). -/
def Serialize_int (x : Int) : Blob := serializers.Impl_int.Serialize x

/-- `Deserialize<int>` (lines 144-147). -/
def Deserialize_int (x : Blob) : Except StoiError Int := serializers.Impl_int.Deserialize x

/-! ## Lemmas -/

/-! ## The code of a list of deltas -/

theorem toBits_length (w r : Nat) : (toBits w r).length = w := by
  induction w generalizing r with
  | zero => rfl
  | succ w ih => simp [toBits, ih]

theorem ofBits_toBits (w r : Nat) : ofBits (toBits w r) = r % 2 ^ w := by
  induction w generalizing r with
  | zero => simp [toBits, ofBits, Nat.mod_one]
  | succ w ih =>
    simp only [toBits, ofBits, ih, Nat.pow_succ', Nat.mod_mul]
    rcases Nat.mod_two_eq_zero_or_one r with h | h <;> simp [h]

theorem readUnary_replicate (q : Nat) (rest : List Bool) :
    readUnary (List.replicate q true ++ false :: rest) = some (q, rest) := by
  induction q with
  | zero => simp [readUnary]
  | succ q ih => simp [List.replicate_succ, readUnary, ih]

theorem codeword_length (b d : Nat) :
    (DynamicBitset.codeword b d).length = (d >>> b) + 1 + b := by
  simp [DynamicBitset.codeword, toBits_length]
  omega

theorem quot_rem_rebuild (b d : Nat) :
    ((d >>> b) <<< b) ||| (d &&& ((1 <<< b) - 1)) % 2 ^ b = d := by
  rw [Nat.one_shiftLeft, Nat.and_pow_two_sub_one_eq_mod, Nat.mod_mod,
    Nat.shiftRight_eq_div_pow, Nat.shiftLeft_eq, Nat.mul_comm,
    ← Nat.mul_add_lt_is_or (Nat.mod_lt _ (Nat.two_pow_pos b)), Nat.div_add_mod]

theorem encodeAll_length (b : Nat) (vs : List Nat) :
    (encodeAll b (deltasFrom 0 vs)).length = blockBits b vs := by
  unfold blockBits
  generalize 0 = prev
  induction vs generalizing prev with
  | nil => rfl
  | cons v vs ih => simp [deltasFrom, encodeAll, codeword_length, ih]

/-- Decoding at a cursor that stands before a code word gives the encoded
delta and moves the cursor behind the code word. -/
theorem golomb_out_codeword (s : DynamicBitset) (d : Nat) (tail : List Bool)
    (h : s.bits.drop s.pos = DynamicBitset.codeword s.b d ++ tail) :
    s.golomb_out = some (d, { s with pos := s.pos + ((d >>> s.b) + 1 + s.b) }) := by
  unfold DynamicBitset.golomb_out
  rw [h]
  unfold DynamicBitset.codeword
  rw [List.append_assoc, List.cons_append, readUnary_replicate]
  have hlen : ¬ (toBits s.b (d &&& ((1 <<< s.b) - 1)) ++ tail).length < s.b := by
    simp [toBits_length]
  have htake : (toBits s.b (d &&& ((1 <<< s.b) - 1)) ++ tail).take s.b
      = toBits s.b (d &&& ((1 <<< s.b) - 1)) := by
    rw [List.take_append_of_le_length (by simp [toBits_length])]
    exact List.take_of_length_le (by simp [toBits_length])
  simp only [hlen, if_false, htake, ofBits_toBits, quot_rem_rebuild]

theorem drop_after_codeword (s : DynamicBitset) (d : Nat) (tail : List Bool)
    (h : s.bits.drop s.pos = DynamicBitset.codeword s.b d ++ tail) :
    s.bits.drop (s.pos + ((d >>> s.b) + 1 + s.b)) = tail := by
  rw [← List.drop_drop, h, ← codeword_length]
  simp

/-! ## Decoding a block -/

theorem runningSums_deltasFrom (vs : List Nat) (last : Nat)
    (h : List.Sorted (fun x y => x ≤ y) (last :: vs)) :
    runningSums last (deltasFrom last vs) = vs := by
  induction vs generalizing last with
  | nil => rfl
  | cons v vs ih =>
    have h1 : last ≤ v := (List.sorted_cons.1 h).1 v (List.mem_cons_self _ _)
    have h2 : List.Sorted (fun x y => x ≤ y) (v :: vs) := (List.sorted_cons.1 h).2
    simp only [deltasFrom, runningSums]
    rw [Nat.sub_add_cancel h1, ih v h2]

theorem read_loop_eq (ds : List Nat) (g : DynamicBitset) (last : Nat)
    (target_vec : List Nat) (tail : List Bool)
    (h : g.bits.drop g.pos = encodeAll g.b ds ++ tail) :
    ReadEncodedHashesToVector.loop ds.length g last target_vec
      = some (target_vec ++ runningSums last ds) := by
  induction ds generalizing g last target_vec with
  | nil => simp [ReadEncodedHashesToVector.loop, runningSums]
  | cons d ds ih =>
    have h' : g.bits.drop g.pos
        = DynamicBitset.codeword g.b d ++ (encodeAll g.b ds ++ tail) := by
      rw [h, encodeAll, List.append_assoc]
    simp only [List.length_cons, ReadEncodedHashesToVector.loop,
      golomb_out_codeword g d _ h']
    rw [ih]
    · simp [runningSums]
    · exact drop_after_codeword g d _ h'

theorem deltasFrom_length (prev : Nat) (vs : List Nat) :
    (deltasFrom prev vs).length = vs.length := by
  induction vs generalizing prev with
  | nil => rfl
  | cons v vs ih => simp [deltasFrom, ih]

/-- Reading the block of an ascending list of values appends exactly these
values. -/
theorem read_encode_cons (b : Nat) (vs : List Nat) (stream : List Block)
    (target_vec : List Nat) (h : List.Sorted (fun x y => x ≤ y) vs) :
    ReadEncodedHashesToVector (Block.encode b vs :: stream) target_vec b
      = ReadEncodedHashesToVector stream (target_vec ++ vs) b := by
  have hs : List.Sorted (fun x y => x ≤ y) (0 :: vs) :=
    List.sorted_cons.2 ⟨fun _ _ => Nat.zero_le _, h⟩
  have hl := read_loop_eq (deltasFrom 0 vs)
    ((DynamicBitset.ofData (Block.encode b vs).payload
      (Block.encode b vs).byte_length b).seek 0) 0 target_vec
    (List.replicate (8 * (((encodeAll b (deltasFrom 0 vs)).length + 7) / 8)
        - (encodeAll b (deltasFrom 0 vs)).length) false)
    (by simp [DynamicBitset.ofData, DynamicBitset.seek, Block.encode])
  rw [deltasFrom_length, runningSums_deltasFrom vs 0 hs] at hl
  rw [ReadEncodedHashesToVector]
  have he : (Block.encode b vs).element_count = vs.length := rfl
  rw [he, hl]

/-! ## Encoding one destination -/

theorem create_seek (n b : Nat) :
    (DynamicBitset.create n b).seek 0 = DynamicBitset.writing n b [] := rfl

theorem golomb_in_writing (capacity b : Nat) (bits : List Bool) (d : Nat) :
    (DynamicBitset.writing capacity b bits).golomb_in d =
      if bits.length + (DynamicBitset.codeword b d).length ≤ capacity then
        some (DynamicBitset.writing capacity b (bits ++ DynamicBitset.codeword b d))
      else none := by
  have hd : List.drop (bits.length + (DynamicBitset.codeword b d).length) bits = [] :=
    List.drop_eq_nil_of_le (Nat.le_add_right _ _)
  simp [DynamicBitset.golomb_in, DynamicBitset.writing, hd]

theorem ofCode_writing (capacity b : Nat) (vs : List Nat) :
    Block.ofCode (DynamicBitset.writing capacity b (encodeAll b (deltasFrom 0 vs)))
      vs.length = Block.encode b vs := rfl

theorem loop_eq (e : Nat) (l : List Nat) (delta n capacity b : Nat) (bits : List Bool)
    (hb : bits.length ≤ capacity) :
    WriteEncodedHashes.loop e l delta n (DynamicBitset.writing capacity b bits) =
      if bits.length
          + (encodeAll b (deltasFrom delta (WriteEncodedHashes.loopVals e l delta))).length
          ≤ capacity then
        some (l.dropWhile (fun x => decide (x < e)),
          n + (WriteEncodedHashes.loopVals e l delta).length,
          DynamicBitset.writing capacity b
            (bits ++ encodeAll b (deltasFrom delta (WriteEncodedHashes.loopVals e l delta))))
      else none := by
  induction l generalizing delta n bits with
  | nil =>
    simp [WriteEncodedHashes.loop, WriteEncodedHashes.loopVals, deltasFrom, encodeAll, hb]
  | cons h rest ih =>
    by_cases h1 : h < e
    · by_cases h2 : h = delta
      · simp only [WriteEncodedHashes.loop, WriteEncodedHashes.loopVals, h1, h2, if_true,
          ne_eq, not_true_eq_false, if_false, ih _ _ _ hb, List.dropWhile_cons, decide_True]
        subst h2
        simp [h1]
      · simp only [WriteEncodedHashes.loop, WriteEncodedHashes.loopVals, h1, h2, if_true,
          ne_eq, not_false_eq_true, golomb_in_writing, List.dropWhile_cons, decide_True,
          deltasFrom, encodeAll, List.length_cons, List.length_append]
        by_cases h3 : bits.length + (DynamicBitset.codeword b (h - delta)).length ≤ capacity
        · have h5 : (bits ++ DynamicBitset.codeword b (h - delta)).length ≤ capacity := by
            simpa using h3
          simp only [h3, if_true, ih h (n + 1) _ h5, List.length_append,
            List.append_assoc, Nat.add_assoc, Nat.add_comm 1]
        · have h4 : ¬ (bits.length + ((DynamicBitset.codeword b (h - delta)).length
              + (encodeAll b (deltasFrom h (WriteEncodedHashes.loopVals e rest h))).length)
              ≤ capacity) := by omega
          simp [h3, h4]
    · simp [WriteEncodedHashes.loop, WriteEncodedHashes.loopVals, h1, deltasFrom, encodeAll, hb]

theorem dest_eq (range_i : Range) (b space_bound : Nat) (rest : List Nat) :
    WriteEncodedHashes.dest range_i b space_bound rest =
      if blockBits b (WriteEncodedHashes.destVals range_i.end_ rest) ≤ space_bound then
        some (Block.encode b (WriteEncodedHashes.destVals range_i.end_ rest),
          WriteEncodedHashes.destRest range_i.end_ rest)
      else none := by
  unfold WriteEncodedHashes.dest
  rw [create_seek, ← encodeAll_length]
  rcases rest with _ | ⟨h, t⟩
  · simp [WriteEncodedHashes.zero, WriteEncodedHashes.destVals, WriteEncodedHashes.destRest,
      loop_eq, WriteEncodedHashes.loopVals, deltasFrom, encodeAll]
    exact (ofCode_writing space_bound b []).symm ▸ rfl
  · rcases h with _ | h
    · simp only [WriteEncodedHashes.zero, WriteEncodedHashes.destVals,
        WriteEncodedHashes.destRest, golomb_in_writing, List.length_nil, Nat.zero_add,
        List.nil_append, deltasFrom, encodeAll, Nat.sub_self, List.length_append]
      by_cases h3 : (DynamicBitset.codeword b 0).length ≤ space_bound
      · simp only [h3, if_true, loop_eq _ _ _ _ _ _ _ h3]
        by_cases h4 : (DynamicBitset.codeword b 0).length
            + (encodeAll b (deltasFrom 0 (WriteEncodedHashes.loopVals range_i.end_ t 0))).length
            ≤ space_bound
        · simp only [h4, if_true]
          rw [Nat.add_comm 1, ← List.length_cons 0,
            ← ofCode_writing space_bound b]
          simp [deltasFrom, encodeAll]
        · simp [h4]
      · have h4 : ¬ ((DynamicBitset.codeword b 0).length
            + (encodeAll b (deltasFrom 0 (WriteEncodedHashes.loopVals range_i.end_ t 0))).length
            ≤ space_bound) := by omega
        simp [h3, h4]
    · simp only [WriteEncodedHashes.zero, WriteEncodedHashes.destVals,
        WriteEncodedHashes.destRest,
        loop_eq range_i.end_ ((h + 1) :: t) 0 0 space_bound b [] (Nat.zero_le _),
        List.length_nil, Nat.zero_add, List.nil_append]
      by_cases h4 : (encodeAll b (deltasFrom 0
          (WriteEncodedHashes.loopVals range_i.end_ ((h + 1) :: t) 0))).length ≤ space_bound
      · simp only [h4, if_true]
        rw [ofCode_writing]
      · simp [h4]

/-! ## What one destination encodes, for a sorted list -/

theorem loopVals_mem (e : Nat) (l : List Nat) (delta : Nat)
    (hs : List.Sorted (fun x y => x ≤ y) l) (hd : ∀ x ∈ l, delta ≤ x) (x : Nat) :
    x ∈ WriteEncodedHashes.loopVals e l delta ↔ x ∈ l ∧ x < e ∧ x ≠ delta := by
  induction l generalizing delta with
  | nil => simp [WriteEncodedHashes.loopVals]
  | cons h t ih =>
    have hle : ∀ y ∈ t, h ≤ y := (List.sorted_cons.1 hs).1
    have hst : List.Sorted (fun x y => x ≤ y) t := (List.sorted_cons.1 hs).2
    have hdh : delta ≤ h := hd h (List.mem_cons_self _ _)
    by_cases h1 : h < e
    · by_cases h2 : h = delta
      · subst h2
        simp only [WriteEncodedHashes.loopVals, h1, if_true, ne_eq, not_true_eq_false,
          if_false, ih h hst hle, List.mem_cons]
        constructor
        · rintro ⟨a, b, c⟩
          exact ⟨Or.inr a, b, c⟩
        · rintro ⟨a | a, b, c⟩
          · exact absurd a c
          · exact ⟨a, b, c⟩
      · simp only [WriteEncodedHashes.loopVals, h1, h2, if_true, ne_eq, not_false_eq_true,
          List.mem_cons, ih h hst hle]
        constructor
        · rintro (a | ⟨a, b, c⟩)
          · subst a
            exact ⟨Or.inl rfl, h1, h2⟩
          · have := hle x a
            exact ⟨Or.inr a, b, by omega⟩
        · rintro ⟨a | a, b, c⟩
          · exact Or.inl a
          · by_cases hx : x = h
            · exact Or.inl hx
            · exact Or.inr ⟨a, b, hx⟩
    · simp only [WriteEncodedHashes.loopVals, h1, if_false, List.not_mem_nil, false_iff,
        List.mem_cons, not_and]
      rintro (a | a) b
      · omega
      · have := hle x a
        omega

theorem loopVals_sorted (e : Nat) (l : List Nat) (delta : Nat)
    (hs : List.Sorted (fun x y => x ≤ y) l) (hd : ∀ x ∈ l, delta ≤ x) :
    List.Sorted (fun x y => x < y) (WriteEncodedHashes.loopVals e l delta) := by
  induction l generalizing delta with
  | nil => simp [WriteEncodedHashes.loopVals]
  | cons h t ih =>
    have hle : ∀ y ∈ t, h ≤ y := (List.sorted_cons.1 hs).1
    have hst : List.Sorted (fun x y => x ≤ y) t := (List.sorted_cons.1 hs).2
    by_cases h1 : h < e
    · by_cases h2 : h = delta
      · subst h2
        simpa [WriteEncodedHashes.loopVals, h1] using ih h hst hle
      · simp only [WriteEncodedHashes.loopVals, h1, h2, if_true, ne_eq, not_false_eq_true]
        refine List.sorted_cons.2 ⟨fun y hy => ?_, ih h hst hle⟩
        have hy' := (loopVals_mem e t h hst hle y).1 hy
        have := hle y hy'.1
        omega
    · simp [WriteEncodedHashes.loopVals, h1]

theorem destVals_mem (e : Nat) (l : List Nat) (hs : List.Sorted (fun x y => x ≤ y) l)
    (h0 : 0 ∈ l → 0 < e) (x : Nat) :
    x ∈ WriteEncodedHashes.destVals e l ↔ x ∈ l ∧ x < e := by
  rcases l with _ | ⟨h, t⟩
  · simp [WriteEncodedHashes.destVals, WriteEncodedHashes.loopVals]
  · have hle : ∀ y ∈ t, h ≤ y := (List.sorted_cons.1 hs).1
    have hst : List.Sorted (fun x y => x ≤ y) t := (List.sorted_cons.1 hs).2
    rcases h with _ | h
    · have he : 0 < e := h0 (List.mem_cons_self _ _)
      simp only [WriteEncodedHashes.destVals, List.mem_cons,
        loopVals_mem e t 0 hst (fun _ _ => Nat.zero_le _)]
      constructor
      · rintro (a | ⟨a, b, _⟩)
        · subst a
          exact ⟨Or.inl rfl, he⟩
        · exact ⟨Or.inr a, b⟩
      · rintro ⟨a | a, b⟩
        · exact Or.inl a
        · by_cases hx : x = 0
          · exact Or.inl hx
          · exact Or.inr ⟨a, b, hx⟩
    · simp only [WriteEncodedHashes.destVals,
        loopVals_mem e ((h + 1) :: t) 0 hs (fun _ _ => Nat.zero_le _)]
      constructor
      · rintro ⟨a, b, _⟩
        exact ⟨a, b⟩
      · rintro ⟨a, b⟩
        refine ⟨a, b, ?_⟩
        rcases List.mem_cons.1 a with a | a
        · omega
        · have := hle x a
          omega

theorem destVals_sorted (e : Nat) (l : List Nat) (hs : List.Sorted (fun x y => x ≤ y) l) :
    List.Sorted (fun x y => x < y) (WriteEncodedHashes.destVals e l) := by
  rcases l with _ | ⟨h, t⟩
  · simp [WriteEncodedHashes.destVals, WriteEncodedHashes.loopVals]
  · have hst : List.Sorted (fun x y => x ≤ y) t := (List.sorted_cons.1 hs).2
    rcases h with _ | h
    · simp only [WriteEncodedHashes.destVals]
      refine List.sorted_cons.2 ⟨fun y hy => ?_,
        loopVals_sorted e t 0 hst (fun _ _ => Nat.zero_le _)⟩
      have := (loopVals_mem e t 0 hst (fun _ _ => Nat.zero_le _) y).1 hy
      omega
    · exact loopVals_sorted e _ 0 hs (fun _ _ => Nat.zero_le _)

theorem dropWhile_lt_eq_filter (e : Nat) (l : List Nat)
    (hs : List.Sorted (fun x y => x ≤ y) l) :
    l.dropWhile (fun x => decide (x < e)) = l.filter (fun x => decide (e ≤ x)) := by
  induction l with
  | nil => rfl
  | cons h t ih =>
    have hle : ∀ y ∈ t, h ≤ y := (List.sorted_cons.1 hs).1
    have hst : List.Sorted (fun x y => x ≤ y) t := (List.sorted_cons.1 hs).2
    by_cases h1 : h < e
    · have h2 : ¬ e ≤ h := by omega
      simp [List.dropWhile_cons, List.filter_cons, h1, h2, ih hst]
    · have h2 : e ≤ h := by omega
      have h3 : t.filter (fun x => decide (e ≤ x)) = t :=
        List.filter_eq_self.2 (fun y hy => by
          have := hle y hy
          simp
          omega)
      simp [List.dropWhile_cons, List.filter_cons, h1, h2, h3]

theorem destRest_eq (e : Nat) (l : List Nat) (hs : List.Sorted (fun x y => x ≤ y) l)
    (h0 : 0 ∈ l → 0 < e) :
    WriteEncodedHashes.destRest e l = l.filter (fun x => decide (e ≤ x)) := by
  rw [← dropWhile_lt_eq_filter e l hs]
  rcases l with _ | ⟨h, t⟩
  · rfl
  · rcases h with _ | h
    · have he : 0 < e := h0 (List.mem_cons_self _ _)
      simp [WriteEncodedHashes.destRest, List.dropWhile_cons, he]
    · rfl

/-- Two strictly ascending lists with the same members are equal. -/
theorem sorted_lt_ext (l₁ l₂ : List Nat) (h₁ : List.Sorted (fun x y => x < y) l₁)
    (h₂ : List.Sorted (fun x y => x < y) l₂) (h : ∀ x, x ∈ l₁ ↔ x ∈ l₂) : l₁ = l₂ :=
  List.eq_of_perm_of_sorted
    ((List.perm_ext_iff_of_nodup h₁.nodup h₂.nodup).2 h) h₁ h₂

theorem distinctIn_sorted (r : Range) (l : List Nat)
    (hs : List.Sorted (fun x y => x ≤ y) l) :
    List.Sorted (fun x y => x < y) (distinctIn r l) :=
  List.Sorted.lt_of_le
    (List.Pairwise.sublist (List.dedup_sublist _) (List.Sorted.filter _ hs))
    (List.nodup_dedup _)

theorem mem_distinctIn (r : Range) (l : List Nat) (x : Nat) :
    x ∈ distinctIn r l ↔ x ∈ l ∧ r.begin ≤ x ∧ x < r.end_ := by
  simp [distinctIn]

/-! ## The ranges -/

theorem range_begin_zero (n p : Nat) : (CalculateLocalRange n p 0).begin = 0 := by
  simp only [CalculateLocalRange, Nat.zero_mul, Nat.zero_add]
  rcases p with _ | p
  · simp
  · exact Nat.div_eq_of_lt (by omega)

theorem ceil_le (n p i : Nat) (hp : 0 < p) (hi : i ≤ p) : (i * n + p - 1) / p ≤ n := by
  have h1 : i * n ≤ p * n := Nat.mul_le_mul_right n hi
  have h2 : (i * n + p - 1) / p < n + 1 := by
    rw [Nat.div_lt_iff_lt_mul hp]
    have : (n + 1) * p = p * n + p := by ring
    omega
  omega

theorem range_end_eq_begin (n p i : Nat) (hi : i < p) :
    (CalculateLocalRange n p i).end_ = (CalculateLocalRange n p (i + 1)).begin := by
  simp only [CalculateLocalRange]
  exact Nat.min_eq_left (ceil_le n p (i + 1) (by omega) hi)

theorem range_begin_mono (n p i j : Nat) (hij : i ≤ j) :
    (CalculateLocalRange n p i).begin ≤ (CalculateLocalRange n p j).begin := by
  simp only [CalculateLocalRange]
  apply Nat.div_le_div_right
  have : i * n ≤ j * n := Nat.mul_le_mul_right n hij
  omega

theorem range_begin_le_end (n p i : Nat) (hi : i < p) :
    (CalculateLocalRange n p i).begin ≤ (CalculateLocalRange n p i).end_ := by
  rw [range_end_eq_begin n p i hi]
  exact range_begin_mono n p i (i + 1) (Nat.le_succ i)

theorem range_end_pos (n p i : Nat) (hn : 0 < n) (hp : 0 < p) :
    0 < (CalculateLocalRange n p i).end_ := by
  simp only [CalculateLocalRange]
  refine Nat.lt_min.2 ⟨?_, hn⟩
  apply Nat.div_pos _ hp
  have : 1 ≤ (i + 1) * n := Nat.mul_pos (Nat.succ_pos i) hn
  omega

theorem range_begin_last (n p : Nat) (hp : 0 < p) :
    (CalculateLocalRange n p p).begin = n := by
  simp only [CalculateLocalRange]
  have h1 : (p * n + p - 1) / p < n + 1 := by
    rw [Nat.div_lt_iff_lt_mul hp]
    have : (n + 1) * p = p * n + p := by ring
    omega
  have h2 : n ≤ (p * n + p - 1) / p := by
    rw [Nat.le_div_iff_mul_le hp]
    have : n * p = p * n := Nat.mul_comm n p
    omega
  omega

/-! ## `WriteEncodedHashes` on a sorted list -/

theorem destVals_filter (n p b' i : Nat) (l : List Nat)
    (hs : List.Sorted (fun x y => x ≤ y) l) (hlt : ∀ x ∈ l, x < n) (hp : 0 < p)
    (hb : b' = (CalculateLocalRange n p i).begin) :
    WriteEncodedHashes.destVals (CalculateLocalRange n p i).end_
        (l.filter (fun x => decide (b' ≤ x)))
      = distinctIn (CalculateLocalRange n p i) l := by
  subst hb
  apply sorted_lt_ext
  · exact destVals_sorted _ _ (List.Sorted.filter _ hs)
  · exact distinctIn_sorted _ _ hs
  · intro x
    rw [destVals_mem _ _ (List.Sorted.filter _ hs), mem_distinctIn]
    · simp [List.mem_filter, and_assoc]
    · intro h0
      exact range_end_pos n p i (hlt 0 (List.mem_filter.1 h0).1) hp

theorem destRest_filter (n p i : Nat) (l : List Nat)
    (hs : List.Sorted (fun x y => x ≤ y) l) (hlt : ∀ x ∈ l, x < n) (hi : i < p) :
    WriteEncodedHashes.destRest (CalculateLocalRange n p i).end_
        (l.filter (fun x => decide ((CalculateLocalRange n p i).begin ≤ x)))
      = l.filter (fun x => decide ((CalculateLocalRange n p (i + 1)).begin ≤ x)) := by
  rw [destRest_eq _ _ (List.Sorted.filter _ hs), List.filter_filter,
    ← range_end_eq_begin n p i hi]
  · apply List.filter_congr
    intro x _
    have := range_begin_le_end n p i hi
    by_cases hx : (CalculateLocalRange n p i).end_ ≤ x
    · have : (CalculateLocalRange n p i).begin ≤ x := by omega
      simp [hx, this]
    · simp [hx]
  · intro h0
    exact range_end_pos n p i (hlt 0 (List.mem_filter.1 h0).1) (by omega)

theorem dests_eq (l : List Nat) (p b n cap : Nat)
    (hs : List.Sorted (fun x y => x ≤ y) l) (hlt : ∀ x ∈ l, x < n) (k i : Nat)
    (hik : i + k ≤ p) :
    WriteEncodedHashes.dests p b n cap k i
        (l.filter (fun x => decide ((CalculateLocalRange n p i).begin ≤ x))) =
      if ∀ vs ∈ (List.range' i k).map (fun j => distinctIn (CalculateLocalRange n p j) l),
          blockBits b vs ≤ cap then
        some ((List.range' i k).map
          (fun j => Block.encode b (distinctIn (CalculateLocalRange n p j) l)))
      else none := by
  induction k generalizing i with
  | zero => simp [WriteEncodedHashes.dests]
  | succ k ih =>
    have hi : i < p := by omega
    simp only [WriteEncodedHashes.dests, dest_eq,
      destVals_filter n p _ i l hs hlt (by omega) rfl, destRest_filter n p i l hs hlt hi,
      List.range'_succ, List.map_cons, List.forall_mem_cons]
    by_cases h1 : blockBits b (distinctIn (CalculateLocalRange n p i) l) ≤ cap
    · simp only [h1, if_true, true_and, ih (i + 1) (by omega)]
      by_cases h2 : ∀ vs ∈ (List.range' (i + 1) k).map
          (fun j => distinctIn (CalculateLocalRange n p j) l), blockBits b vs ≤ cap
      · rw [if_pos h2, if_pos h2]
      · rw [if_neg h2, if_neg h2]
    · simp [h1]

/-- `WriteEncodedHashes` on a sorted list of fingerprints below `max_hash`:
destination `i` gets the block of the distinct fingerprints in range `i`,
unless one of these blocks exceeds the capacity. -/
theorem WriteEncodedHashes_eq (hashes_ : List Nat) (num_workers b max_hash space_bound : Nat)
    (hs : List.Sorted (fun x y => x ≤ y) hashes_) (hlt : ∀ x ∈ hashes_, x < max_hash) :
    WriteEncodedHashes hashes_ num_workers b max_hash space_bound =
      if ∀ vs ∈ (List.range num_workers).map
            (fun i => distinctIn (CalculateLocalRange max_hash num_workers i) hashes_),
          blockBits b vs ≤ space_bound then
        some ((List.range num_workers).map (fun i =>
          Block.encode b (distinctIn (CalculateLocalRange max_hash num_workers i) hashes_)))
      else none := by
  have h := dests_eq hashes_ num_workers b max_hash space_bound hs hlt num_workers 0
    (by omega)
  rw [range_begin_zero] at h
  simp only [Nat.zero_le, decide_True, List.filter_true] at h
  rw [List.range_eq_range']
  exact h

/-! ## The duplicate scan -/

theorem dupLoop_eq (l : List Nat) (delta n capacity b : Nat) (bits : List Bool)
    (hb : bits.length ≤ capacity) :
    FlushAll.dupLoop l delta n (DynamicBitset.writing capacity b bits) =
      if bits.length + (encodeAll b (deltasFrom delta (FlushAll.dupVals l delta))).length
          ≤ capacity then
        some (n + (FlushAll.dupVals l delta).length,
          DynamicBitset.writing capacity b
            (bits ++ encodeAll b (deltasFrom delta (FlushAll.dupVals l delta))))
      else none := by
  induction l generalizing delta n bits with
  | nil => simp [FlushAll.dupLoop, FlushAll.dupVals, deltasFrom, encodeAll, hb]
  | cons x t ih =>
    rcases t with _ | ⟨y, rest⟩
    · simp [FlushAll.dupLoop, FlushAll.dupVals, deltasFrom, encodeAll, hb]
    · rw [FlushAll.dupLoop, FlushAll.dupVals]
      by_cases h1 : x = y ∧ x ≠ delta
      · rw [if_pos h1, if_pos h1, golomb_in_writing]
        by_cases h3 : bits.length + (DynamicBitset.codeword b (x - delta)).length ≤ capacity
        · have h5 : (bits ++ DynamicBitset.codeword b (x - delta)).length ≤ capacity := by
            simpa using h3
          rw [if_pos h3]
          simp only [ih x (n + 1) _ h5, deltasFrom, encodeAll, List.length_cons,
            List.length_append, List.append_assoc, Nat.add_assoc, Nat.add_comm 1]
        · have h4 : ¬ (bits.length + ((DynamicBitset.codeword b (x - delta)).length
              + (encodeAll b (deltasFrom x (FlushAll.dupVals (y :: rest) x))).length)
              ≤ capacity) := by omega
          rw [if_neg h3]
          simp only [deltasFrom, encodeAll, List.length_append, h4, if_false]
      · rw [if_neg h1, if_neg h1]
        exact ih delta n bits hb

theorem duplicates_eq (l : List Nat) (b space_bound : Nat) :
    FlushAll.duplicates l b space_bound =
      if blockBits b (FlushAll.dupAll l) ≤ space_bound then
        some (Block.encode b (FlushAll.dupAll l))
      else none := by
  unfold FlushAll.duplicates
  rw [create_seek, ← encodeAll_length]
  by_cases hz : ∃ rest, l = 0 :: 0 :: rest
  · obtain ⟨rest, rfl⟩ := hz
    simp only [FlushAll.dupZero, FlushAll.dupAll, golomb_in_writing, List.length_nil,
      Nat.zero_add, List.nil_append, deltasFrom, encodeAll, Nat.sub_self, List.length_append]
    by_cases h3 : (DynamicBitset.codeword b 0).length ≤ space_bound
    · simp only [h3, if_true, dupLoop_eq _ _ _ _ _ _ h3]
      by_cases h4 : (DynamicBitset.codeword b 0).length
          + (encodeAll b (deltasFrom 0 (FlushAll.dupVals (0 :: 0 :: rest) 0))).length
          ≤ space_bound
      · simp only [h4, if_true]
        rw [Nat.add_comm 1, ← List.length_cons 0, ← ofCode_writing space_bound b]
        simp [deltasFrom, encodeAll]
      · simp [h4]
    · have h4 : ¬ ((DynamicBitset.codeword b 0).length
          + (encodeAll b (deltasFrom 0 (FlushAll.dupVals (0 :: 0 :: rest) 0))).length
          ≤ space_bound) := by omega
      simp [h3, h4]
  · have hz1 : FlushAll.dupZero (DynamicBitset.writing space_bound b []) l
        = some (0, DynamicBitset.writing space_bound b []) := by
      unfold FlushAll.dupZero
      split
      · exact absurd ⟨_, rfl⟩ hz
      · rfl
    have hz2 : FlushAll.dupAll l = FlushAll.dupVals l 0 := by
      unfold FlushAll.dupAll
      split
      · exact absurd ⟨_, rfl⟩ hz
      · rfl
    simp only [hz1, hz2, dupLoop_eq l 0 0 space_bound b [] (Nat.zero_le _),
      List.length_nil, Nat.zero_add, List.nil_append]
    by_cases h4 : (encodeAll b (deltasFrom 0 (FlushAll.dupVals l 0))).length ≤ space_bound
    · simp only [h4, if_true]
      rw [ofCode_writing]
    · simp [h4]

theorem count_le_one_of_lt (x : Nat) (l : List Nat) (h : ∀ y ∈ l, x < y) :
    l.count x = 0 :=
  List.count_eq_zero.2 (fun hx => Nat.lt_irrefl x (h x hx))

theorem dupVals_mem (l : List Nat) (delta : Nat)
    (hs : List.Sorted (fun x y => x ≤ y) l) (hd : ∀ x ∈ l, delta ≤ x) (z : Nat) :
    z ∈ FlushAll.dupVals l delta ↔ 2 ≤ l.count z ∧ z ≠ delta := by
  induction l generalizing delta with
  | nil => simp [FlushAll.dupVals]
  | cons x t ih =>
    rcases t with _ | ⟨y, rest⟩
    · simp only [FlushAll.dupVals, List.not_mem_nil, false_iff, not_and]
      intro h
      have : List.count z [x] ≤ 1 := by
        simpa using (List.count_le_length z [x])
      omega
    · have hle : ∀ w ∈ y :: rest, x ≤ w := (List.sorted_cons.1 hs).1
      have hst : List.Sorted (fun x y => x ≤ y) (y :: rest) := (List.sorted_cons.1 hs).2
      have hdx : delta ≤ x := hd x (List.mem_cons_self _ _)
      have hdt : ∀ w ∈ y :: rest, delta ≤ w := fun w hw => hd w (List.mem_cons_of_mem _ hw)
      rw [FlushAll.dupVals]
      by_cases h1 : x = y ∧ x ≠ delta
      · rw [if_pos h1, List.mem_cons, ih x hst hle]
        obtain ⟨hxy, hxd⟩ := h1
        constructor
        · rintro (a | ⟨a, b⟩)
          · subst a
            subst hxy
            refine ⟨?_, hxd⟩
            simp [List.count_cons]
          · refine ⟨le_trans a (List.count_le_count_cons _ _ _), ?_⟩
            have hz : z ∈ y :: rest := List.count_pos_iff.1 (by omega)
            have := hle z hz
            omega
        · rintro ⟨a, _⟩
          by_cases hzx : z = x
          · exact Or.inl hzx
          · refine Or.inr ⟨?_, hzx⟩
            rw [List.count_cons_of_ne hzx] at a
            exact a
      · rw [if_neg h1, ih delta hst hdt]
        constructor
        · rintro ⟨a, b⟩
          exact ⟨le_trans a (List.count_le_count_cons _ _ _), b⟩
        · rintro ⟨a, b⟩
          refine ⟨?_, b⟩
          by_cases hzx : z = x
          · subst hzx
            by_cases hxy : z = y
            · exact absurd ⟨hxy, b⟩ h1
            · exfalso
              have hlt : ∀ w ∈ y :: rest, z < w := by
                intro w hw
                have h1' := hle w hw
                have h2' : y ≤ w := by
                  rcases List.mem_cons.1 hw with e | e
                  · omega
                  · exact (List.sorted_cons.1 hst).1 w e
                have h3' := hle y (List.mem_cons_self _ _)
                omega
              have hc := count_le_one_of_lt z (y :: rest) hlt
              rw [List.count_cons_self, hc] at a
              omega
          · rw [List.count_cons_of_ne hzx] at a
            exact a

theorem dupVals_sorted (l : List Nat) (delta : Nat)
    (hs : List.Sorted (fun x y => x ≤ y) l) (hd : ∀ x ∈ l, delta ≤ x) :
    List.Sorted (fun x y => x < y) (FlushAll.dupVals l delta) := by
  induction l generalizing delta with
  | nil => simp [FlushAll.dupVals]
  | cons x t ih =>
    rcases t with _ | ⟨y, rest⟩
    · simp [FlushAll.dupVals]
    · have hle : ∀ w ∈ y :: rest, x ≤ w := (List.sorted_cons.1 hs).1
      have hst : List.Sorted (fun x y => x ≤ y) (y :: rest) := (List.sorted_cons.1 hs).2
      have hdt : ∀ w ∈ y :: rest, delta ≤ w := fun w hw => hd w (List.mem_cons_of_mem _ hw)
      rw [FlushAll.dupVals]
      by_cases h1 : x = y ∧ x ≠ delta
      · rw [if_pos h1]
        refine List.sorted_cons.2 ⟨fun w hw => ?_, ih x hst hle⟩
        have hw' := (dupVals_mem (y :: rest) x hst hle w).1 hw
        have hz : w ∈ y :: rest := List.count_pos_iff.1 (by omega)
        have := hle w hz
        omega
      · rw [if_neg h1]
        exact ih delta hst hdt

theorem dupAll_mem (l : List Nat) (hs : List.Sorted (fun x y => x ≤ y) l) (z : Nat) :
    z ∈ FlushAll.dupAll l ↔ 2 ≤ l.count z := by
  by_cases hz : ∃ rest, l = 0 :: 0 :: rest
  · obtain ⟨rest, rfl⟩ := hz
    simp only [FlushAll.dupAll, List.mem_cons,
      dupVals_mem _ 0 hs (fun _ _ => Nat.zero_le _)]
    constructor
    · rintro (a | ⟨a, _⟩)
      · subst a
        simp [List.count_cons]
      · exact a
    · intro a
      by_cases h0 : z = 0
      · exact Or.inl h0
      · exact Or.inr ⟨a, h0⟩
  · have hz2 : FlushAll.dupAll l = FlushAll.dupVals l 0 := by
      unfold FlushAll.dupAll
      split
      · exact absurd ⟨_, rfl⟩ hz
      · rfl
    rw [hz2, dupVals_mem _ 0 hs (fun _ _ => Nat.zero_le _)]
    constructor
    · rintro ⟨a, _⟩
      exact a
    · intro a
      refine ⟨a, ?_⟩
      rintro rfl
      apply hz
      rcases l with _ | ⟨x, t⟩
      · simp at a
      · have hle : ∀ w ∈ t, x ≤ w := (List.sorted_cons.1 hs).1
        have hst : List.Sorted (fun x y => x ≤ y) t := (List.sorted_cons.1 hs).2
        rcases x with _ | x
        · rcases t with _ | ⟨y, rest⟩
          · simp at a
          · rcases y with _ | y
            · exact ⟨rest, rfl⟩
            · exfalso
              have hc := count_le_one_of_lt 0 ((y + 1) :: rest) (by
                intro w hw
                rcases List.mem_cons.1 hw with e | e
                · omega
                · have := (List.sorted_cons.1 hst).1 w e
                  omega)
              rw [List.count_cons_self, hc] at a
              omega
        · exfalso
          have hc := count_le_one_of_lt 0 t (by
            intro w hw
            have := hle w hw
            omega)
          rw [List.count_cons_of_ne (by omega), hc] at a
          omega

theorem dupAll_sorted (l : List Nat) (hs : List.Sorted (fun x y => x ≤ y) l) :
    List.Sorted (fun x y => x < y) (FlushAll.dupAll l) := by
  by_cases hz : ∃ rest, l = 0 :: 0 :: rest
  · obtain ⟨rest, rfl⟩ := hz
    simp only [FlushAll.dupAll]
    refine List.sorted_cons.2 ⟨fun w hw => ?_,
      dupVals_sorted _ 0 hs (fun _ _ => Nat.zero_le _)⟩
    have := (dupVals_mem _ 0 hs (fun _ _ => Nat.zero_le _) w).1 hw
    omega
  · have hz2 : FlushAll.dupAll l = FlushAll.dupVals l 0 := by
      unfold FlushAll.dupAll
      split
      · exact absurd ⟨_, rfl⟩ hz
      · rfl
    rw [hz2]
    exact dupVals_sorted _ 0 hs (fun _ _ => Nat.zero_le _)

theorem repeated_sorted (l : List Nat) (hs : List.Sorted (fun x y => x ≤ y) l) :
    List.Sorted (fun x y => x < y) (repeated l) :=
  List.Sorted.lt_of_le
    (List.Pairwise.sublist (List.dedup_sublist _) (List.Sorted.filter _ hs))
    (List.nodup_dedup _)

theorem mem_repeated (l : List Nat) (x : Nat) : x ∈ repeated l ↔ 2 ≤ l.count x := by
  simp only [repeated, List.mem_dedup, List.mem_filter, decide_eq_true_eq]
  constructor
  · exact fun h => h.2
  · exact fun h => ⟨List.count_pos_iff.1 (by omega), h⟩

theorem dupAll_eq_repeated (l : List Nat) (hs : List.Sorted (fun x y => x ≤ y) l) :
    FlushAll.dupAll l = repeated l :=
  sorted_lt_ext _ _ (dupAll_sorted l hs) (repeated_sorted l hs)
    (fun x => by rw [dupAll_mem l hs, mem_repeated])

/-- The duplicate scan on a sorted list: the block of the values that occur
at least twice, unless it exceeds the capacity. -/
theorem duplicates_sorted_eq (l : List Nat) (b space_bound : Nat)
    (hs : List.Sorted (fun x y => x ≤ y) l) :
    FlushAll.duplicates l b space_bound =
      if blockBits b (repeated l) ≤ space_bound then some (Block.encode b (repeated l))
      else none := by
  rw [duplicates_eq, dupAll_eq_repeated l hs]

/-! ## Claims -/

theorem destVals_of_ascending (e : Nat) (vs : List Nat)
    (hasc : List.Sorted (fun x y => x < y) vs) (hfit : ∀ v ∈ vs, v < e) :
    WriteEncodedHashes.destVals e vs = vs := by
  have hs : List.Sorted (fun x y => x ≤ y) vs := List.Sorted.le_of_lt hasc
  refine sorted_lt_ext _ _ (destVals_sorted e vs hs) hasc (fun x => ?_)
  rw [destVals_mem e vs hs (fun h0 => hfit 0 h0)]
  exact ⟨fun h => h.1, fun h => ⟨h, hfit x h⟩⟩

theorem destRest_of_below (e : Nat) (vs : List Nat)
    (hs : List.Sorted (fun x y => x ≤ y) vs) (hfit : ∀ v ∈ vs, v < e) :
    WriteEncodedHashes.destRest e vs = [] := by
  rw [destRest_eq e vs hs (fun h0 => hfit 0 h0)]
  refine List.filter_eq_nil_iff.2 (fun x hx => ?_)
  have := hfit x hx
  simp
  omega

/-- C1 (codec round trip): for every code parameter `b` (every `b ≥ 1` in
particular) and every strictly ascending list `vs` of fingerprints below the
end of a destination's range, the body of `WriteEncodedHashes` for that
destination, given a buffer that holds the `blockBits b vs` bits of the code,
encodes `vs` (the code words of the first value itself, then of the
differences) into one block with `element_count = vs.length` and consumes the
whole list, and `ReadEncodedHashesToVector` decodes from that block exactly
`vs`. -/
theorem C1_encode_decode_roundtrip (b space_bound : Nat) (range_i : Range) (vs : List Nat)
    (hasc : List.Sorted (fun x y => x < y) vs)
    (hfit : ∀ v ∈ vs, v < range_i.end_)
    (hcap : blockBits b vs ≤ space_bound) :
    ∃ block, WriteEncodedHashes.dest range_i b space_bound vs = some (block, []) ∧
      block = Block.encode b vs ∧
      block.element_count = vs.length ∧
      ReadEncodedHashesToVector [block] [] b = some vs := by
  have hs : List.Sorted (fun x y => x ≤ y) vs := List.Sorted.le_of_lt hasc
  refine ⟨Block.encode b vs, ?_, rfl, rfl, ?_⟩
  · rw [dest_eq, destVals_of_ascending _ vs hasc hfit, destRest_of_below _ vs hs hfit,
      if_pos hcap]
  · rw [read_encode_cons b vs [] [] hs]
    rfl

/-- Witness of C1: the fingerprints 0, 3, 7, 9 in the range `[0, 16)` with
`b = 5` and a buffer of 100 bits. -/
theorem C1_encode_decode_roundtrip_witness :
    ∃ block, WriteEncodedHashes.dest ⟨0, 16⟩ 5 100 [0, 3, 7, 9] = some (block, []) ∧
      block = Block.encode 5 [0, 3, 7, 9] ∧
      block.element_count = [0, 3, 7, 9].length ∧
      ReadEncodedHashesToVector [block] [] 5 = some [0, 3, 7, 9] :=
  C1_encode_decode_roundtrip 5 100 ⟨0, 16⟩ [0, 3, 7, 9] (by decide) (by decide) (by decide)

theorem read_encode_single (b : Nat) (vs target_vec : List Nat)
    (h : List.Sorted (fun x y => x ≤ y) vs) :
    ReadEncodedHashesToVector [Block.encode b vs] target_vec b = some (target_vec ++ vs) := by
  rw [read_encode_cons b vs [] target_vec h]
  rfl

theorem WriteEncodedHashes_of_fits (hashes_ : List Nat)
    (num_workers b max_hash space_bound : Nat)
    (hs : List.Sorted (fun x y => x ≤ y) hashes_) (hlt : ∀ x ∈ hashes_, x < max_hash)
    (hcap : ∀ i < num_workers,
      blockBits b (distinctIn (CalculateLocalRange max_hash num_workers i) hashes_)
        ≤ space_bound) :
    WriteEncodedHashes hashes_ num_workers b max_hash space_bound =
      some ((List.range num_workers).map (fun i =>
        Block.encode b (distinctIn (CalculateLocalRange max_hash num_workers i) hashes_))) := by
  rw [WriteEncodedHashes_eq hashes_ num_workers b max_hash space_bound hs hlt, if_pos]
  intro vs hvs
  obtain ⟨i, hi, rfl⟩ := List.mem_map.1 hvs
  exact hcap i (List.mem_range.1 hi)

/-- C4 as stated fails: a worker whose sorted fingerprints are 3, 3 (two keys
that collide) sends to destination 0, whose range `[0, 16)` holds both, a
block that decodes to the single value 3 with `element_count = 1`: the
repeated fingerprint is not retained. -/
theorem C4_counterexample :
    ∃ block, WriteEncodedHashes [3, 3] 1 5 16 100 = some [block] ∧
      ReadEncodedHashesToVector [block] [] 5 = some [3] ∧
      block.element_count = 1 ∧
      [3, 3].filter (fun x => decide ((CalculateLocalRange 16 1 0).begin ≤ x
        ∧ x < (CalculateLocalRange 16 1 0).end_)) = [3, 3] :=
  ⟨Block.encode 5 [3], by decide, by decide, by decide, by decide⟩

/-- C4 (amended): for every sorted list of local fingerprints below
`max_hash` and buffers that hold every block, `WriteEncodedHashes` writes one
block per destination, and the block for destination `i` decodes to exactly
the distinct local fingerprints that fall in range `i` (ascending, a
fingerprint repeated by colliding keys once), its `element_count` being the
number of these distinct fingerprints. -/
theorem C4_block_holds_distinct_in_range (hashes_ : List Nat)
    (num_workers b max_hash space_bound : Nat)
    (hs : List.Sorted (fun x y => x ≤ y) hashes_) (hlt : ∀ x ∈ hashes_, x < max_hash)
    (hcap : ∀ i < num_workers,
      blockBits b (distinctIn (CalculateLocalRange max_hash num_workers i) hashes_)
        ≤ space_bound) :
    ∃ blocks, WriteEncodedHashes hashes_ num_workers b max_hash space_bound = some blocks ∧
      blocks.length = num_workers ∧
      ∀ i < num_workers, ∃ block decoded, blocks[i]? = some block ∧
        ReadEncodedHashesToVector [block] [] b = some decoded ∧
        decoded = distinctIn (CalculateLocalRange max_hash num_workers i) hashes_ ∧
        List.Sorted (fun x y => x < y) decoded ∧
        (∀ x, x ∈ decoded ↔ x ∈ hashes_ ∧
          (CalculateLocalRange max_hash num_workers i).begin ≤ x ∧
          x < (CalculateLocalRange max_hash num_workers i).end_) ∧
        block.element_count = decoded.length := by
  refine ⟨_, WriteEncodedHashes_of_fits hashes_ num_workers b max_hash space_bound hs hlt hcap,
    by simp, fun i hi => ?_⟩
  refine ⟨Block.encode b (distinctIn (CalculateLocalRange max_hash num_workers i) hashes_),
    distinctIn (CalculateLocalRange max_hash num_workers i) hashes_, ?_, ?_, rfl,
    distinctIn_sorted _ _ hs, mem_distinctIn _ _, rfl⟩
  · simp [hi]
  · rw [read_encode_single b _ [] (List.Sorted.le_of_lt (distinctIn_sorted _ _ hs))]
    rfl

/-- Witness of C4: the fingerprints 0, 0, 3, 3, 7, 9, 15 sent to two
destinations with `b = 5`, `max_hash = 16` and buffers of 100 bits. -/
theorem C4_block_holds_distinct_in_range_witness :
    ∃ blocks, WriteEncodedHashes [0, 0, 3, 3, 7, 9, 15] 2 5 16 100 = some blocks ∧
      blocks.length = 2 ∧
      ∀ i < 2, ∃ block decoded, blocks[i]? = some block ∧
        ReadEncodedHashesToVector [block] [] 5 = some decoded ∧
        decoded = distinctIn (CalculateLocalRange 16 2 i) [0, 0, 3, 3, 7, 9, 15] ∧
        List.Sorted (fun x y => x < y) decoded ∧
        (∀ x, x ∈ decoded ↔ x ∈ [0, 0, 3, 3, 7, 9, 15] ∧
          (CalculateLocalRange 16 2 i).begin ≤ x ∧
          x < (CalculateLocalRange 16 2 i).end_) ∧
        block.element_count = decoded.length :=
  C4_block_holds_distinct_in_range [0, 0, 3, 3, 7, 9, 15] 2 5 16 100
    (by decide) (by decide) (by decide)

theorem range_cover (n p x : Nat) (k : Nat) (hk : k ≤ p)
    (hlt : x < (CalculateLocalRange n p k).begin) :
    ∃ i < k, (CalculateLocalRange n p i).begin ≤ x ∧ x < (CalculateLocalRange n p i).end_ := by
  induction k with
  | zero =>
    rw [range_begin_zero] at hlt
    omega
  | succ k ih =>
    by_cases hb : (CalculateLocalRange n p k).begin ≤ x
    · refine ⟨k, by omega, hb, ?_⟩
      rw [range_end_eq_begin n p k (by omega)]
      exact hlt
    · obtain ⟨i, hi, h⟩ := ih (by omega) (by omega)
      exact ⟨i, by omega, h⟩

theorem range_end_le (n p i : Nat) : (CalculateLocalRange n p i).end_ ≤ n := by
  simp only [CalculateLocalRange]
  exact Nat.min_le_right _ _

theorem range_mem_iff (n p x : Nat) (hp : 0 < p) :
    x < n ↔ ∃ i < p,
      (CalculateLocalRange n p i).begin ≤ x ∧ x < (CalculateLocalRange n p i).end_ := by
  constructor
  · intro hx
    exact range_cover n p x p (Nat.le_refl p) (by rw [range_begin_last n p hp]; exact hx)
  · rintro ⟨i, _, _, h⟩
    exact lt_of_lt_of_le h (range_end_le n p i)

theorem range_disjoint (n p i j x : Nat) (hij : i < j) (hj : j < p)
    (hi : x < (CalculateLocalRange n p i).end_) :
    ¬ (CalculateLocalRange n p j).begin ≤ x := by
  rw [range_end_eq_begin n p i (by omega)] at hi
  have := range_begin_mono n p (i + 1) j hij
  omega

/-- C8 (range partition): for every `max_hash` and every `num_workers ≥ 1`
the ranges of `CalculateLocalRange(max_hash, num_workers, i)`,
`i < num_workers`, start at 0, end at `max_hash`, are contiguous (the end of
range `i` is the start of range `i + 1`), are pairwise disjoint, and a value
is below `max_hash` exactly if it lies in one of them. -/
theorem C8_ranges_partition (max_hash num_workers : Nat) (hp : 1 ≤ num_workers) :
    (CalculateLocalRange max_hash num_workers 0).begin = 0 ∧
    (CalculateLocalRange max_hash num_workers (num_workers - 1)).end_ = max_hash ∧
    (∀ i, i + 1 < num_workers →
      (CalculateLocalRange max_hash num_workers i).end_
        = (CalculateLocalRange max_hash num_workers (i + 1)).begin) ∧
    (∀ i, i < num_workers →
      (CalculateLocalRange max_hash num_workers i).begin
        ≤ (CalculateLocalRange max_hash num_workers i).end_) ∧
    (∀ i j x, i < j → j < num_workers →
      ¬ (((CalculateLocalRange max_hash num_workers i).begin ≤ x ∧
            x < (CalculateLocalRange max_hash num_workers i).end_) ∧
          ((CalculateLocalRange max_hash num_workers j).begin ≤ x ∧
            x < (CalculateLocalRange max_hash num_workers j).end_))) ∧
    (∀ x, x < max_hash ↔ ∃ i < num_workers,
      (CalculateLocalRange max_hash num_workers i).begin ≤ x ∧
        x < (CalculateLocalRange max_hash num_workers i).end_) := by
  refine ⟨range_begin_zero _ _, ?_, ?_, ?_, ?_, ?_⟩
  · rw [range_end_eq_begin max_hash num_workers (num_workers - 1) (by omega)]
    have h : num_workers - 1 + 1 = num_workers := by omega
    rw [h]
    exact range_begin_last max_hash num_workers hp
  · intro i hi
    exact range_end_eq_begin max_hash num_workers i (by omega)
  · intro i hi
    exact range_begin_le_end max_hash num_workers i hi
  · rintro i j x hij hj ⟨⟨_, h1⟩, ⟨h2, _⟩⟩
    exact range_disjoint max_hash num_workers i j x hij hj h1 h2
  · intro x
    exact range_mem_iff max_hash num_workers x hp

/-- Witness of C8: the fingerprint space `[0, 10)` split over 4 workers into
`[0, 3)`, `[3, 5)`, `[5, 8)`, `[8, 10)`. -/
theorem C8_ranges_partition_witness :
    (List.range 4).map (fun i => CalculateLocalRange 10 4 i)
        = [⟨0, 3⟩, ⟨3, 5⟩, ⟨5, 8⟩, ⟨8, 10⟩] ∧
      ((CalculateLocalRange 10 4 0).begin = 0 ∧
      (CalculateLocalRange 10 4 (4 - 1)).end_ = 10 ∧
      (∀ i, i + 1 < 4 →
        (CalculateLocalRange 10 4 i).end_ = (CalculateLocalRange 10 4 (i + 1)).begin) ∧
      (∀ i, i < 4 → (CalculateLocalRange 10 4 i).begin ≤ (CalculateLocalRange 10 4 i).end_) ∧
      (∀ i j x, i < j → j < 4 →
        ¬ (((CalculateLocalRange 10 4 i).begin ≤ x ∧ x < (CalculateLocalRange 10 4 i).end_) ∧
            ((CalculateLocalRange 10 4 j).begin ≤ x ∧
              x < (CalculateLocalRange 10 4 j).end_))) ∧
      (∀ x, x < 10 ↔ ∃ i < 4,
        (CalculateLocalRange 10 4 i).begin ≤ x ∧ x < (CalculateLocalRange 10 4 i).end_)) :=
  ⟨by decide, C8_ranges_partition 10 4 (by decide)⟩

theorem sorted_lt_head_zero (l : List Nat) (hs : List.Sorted (fun x y => x < y) l)
    (h0 : 0 ∈ l) : ∃ rest, l = 0 :: rest ∧ ∀ x ∈ rest, 0 < x := by
  rcases l with _ | ⟨a, rest⟩
  · simp at h0
  · have hle : ∀ y ∈ rest, a < y := (List.sorted_cons.1 hs).1
    have ha : a = 0 := by
      rcases List.mem_cons.1 h0 with e | e
      · exact e.symm
      · have := hle 0 e
        omega
    subst ha
    exact ⟨rest, rfl, hle⟩

theorem sort_sorted (v : List Nat) : List.Sorted (fun x y => x ≤ y) (sort v) :=
  List.sorted_insertionSort (fun x y => x ≤ y) v

theorem sort_perm (v : List Nat) : List.Perm (sort v) v :=
  List.perm_insertionSort (fun x y => x ≤ y) v

theorem repeated_sort_of_nodup (l : List Nat) (hnd : l.Nodup) : repeated (sort l) = [] := by
  refine List.eq_nil_iff_forall_not_mem.2 (fun x hx => ?_)
  rw [mem_repeated, (sort_perm l).count_eq] at hx
  have := List.nodup_iff_count_le_one.1 hnd x
  omega

theorem encode_nil (b : Nat) : Block.encode b [] = ⟨0, 0, []⟩ := by
  simp [Block.encode, deltasFrom, encodeAll]

theorem blockBits_nil (b : Nat) : blockBits b [] = 0 := by
  simp [blockBits, deltasFrom]

/-- C9 (zero fingerprint): whenever the smallest local fingerprint is 0
(once or several times), for every code parameter `b`, the block
`WriteEncodedHashes` writes to destination 0 starts with the code word of the
delta 0, `ReadEncodedHashesToVector` decodes 0 as its first value, all
further decoded values are positive, and `element_count` counts the 0 exactly
once. -/
theorem C9_leading_zero (rest : List Nat) (num_workers b max_hash space_bound : Nat)
    (hp : 1 ≤ num_workers)
    (hs : List.Sorted (fun x y => x ≤ y) (0 :: rest))
    (hlt : ∀ x ∈ 0 :: rest, x < max_hash)
    (hcap : ∀ i < num_workers,
      blockBits b (distinctIn (CalculateLocalRange max_hash num_workers i) (0 :: rest))
        ≤ space_bound) :
    ∃ block blocks bits decoded,
      WriteEncodedHashes (0 :: rest) num_workers b max_hash space_bound
        = some (block :: blocks) ∧
      block.payload = DynamicBitset.codeword b 0 ++ bits ∧
      ReadEncodedHashesToVector [block] [] b = some (0 :: decoded) ∧
      (∀ x ∈ decoded, 0 < x) ∧
      block.element_count = 1 + decoded.length := by
  have hw := WriteEncodedHashes_of_fits (0 :: rest) num_workers b max_hash space_bound
    hs hlt hcap
  obtain ⟨k, rfl⟩ : ∃ k, num_workers = k + 1 := ⟨num_workers - 1, by omega⟩
  rw [List.range_succ_eq_map, List.map_cons] at hw
  have hmax : 0 < max_hash := hlt 0 (List.mem_cons_self _ _)
  have h0 : 0 ∈ distinctIn (CalculateLocalRange max_hash (k + 1) 0) (0 :: rest) := by
    rw [mem_distinctIn, range_begin_zero]
    exact ⟨List.mem_cons_self _ _, Nat.le_refl 0,
      range_end_pos max_hash (k + 1) 0 hmax (Nat.succ_pos k)⟩
  have hsd := distinctIn_sorted (CalculateLocalRange max_hash (k + 1) 0) (0 :: rest) hs
  obtain ⟨decoded, hd, hpos⟩ := sorted_lt_head_zero _ hsd h0
  rw [hd] at hw hsd
  refine ⟨_, _, encodeAll b (deltasFrom 0 decoded) ++ List.replicate
    (8 * (((encodeAll b (deltasFrom 0 (0 :: decoded))).length + 7) / 8)
      - (encodeAll b (deltasFrom 0 (0 :: decoded))).length) false,
    decoded, hw, ?_, ?_, hpos, ?_⟩
  · simp only [Block.encode, deltasFrom, encodeAll, Nat.sub_self, List.append_assoc]
  · exact read_encode_single b _ [] (List.Sorted.le_of_lt hsd)
  · simp [Block.encode, Nat.add_comm]

/-- Witness of C9: the fingerprints 0, 0, 3, 9 sent to two destinations. -/
theorem C9_leading_zero_witness :
    ∃ block blocks bits decoded,
      WriteEncodedHashes (0 :: [0, 3, 9]) 2 5 16 100 = some (block :: blocks) ∧
      block.payload = DynamicBitset.codeword 5 0 ++ bits ∧
      ReadEncodedHashesToVector [block] [] 5 = some (0 :: decoded) ∧
      (∀ x ∈ decoded, 0 < x) ∧
      block.element_count = 1 + decoded.length :=
  C9_leading_zero [0, 3, 9] 2 5 16 100 (by decide) (by decide) (by decide) (by decide)

/-- C10 (empty blocks): `WriteEncodedHashes` (on a sorted list of
fingerprints below `max_hash`, with buffers that hold every block) writes a
block to every destination, and the block of a destination whose range holds
none of the local fingerprints is the empty block `(0, 0, [])`, from which
`ReadEncodedHashesToVector` appends nothing; a worker without keys writes the
empty block to every destination; and when the merged list has no repeated
value (the empty list included) the duplicate block of round 2 is the empty
block, with `element_count = 0`. -/
theorem C10_empty_blocks (hashes_ : List Nat) (num_workers b max_hash space_bound : Nat)
    (hashes_dups : List Nat)
    (hs : List.Sorted (fun x y => x ≤ y) hashes_) (hlt : ∀ x ∈ hashes_, x < max_hash)
    (hcap : ∀ i < num_workers,
      blockBits b (distinctIn (CalculateLocalRange max_hash num_workers i) hashes_)
        ≤ space_bound)
    (hnd : hashes_dups.Nodup) :
    (∃ blocks, WriteEncodedHashes hashes_ num_workers b max_hash space_bound = some blocks ∧
      blocks.length = num_workers ∧
      ∀ i < num_workers,
        (∀ x ∈ hashes_, ¬ ((CalculateLocalRange max_hash num_workers i).begin ≤ x ∧
          x < (CalculateLocalRange max_hash num_workers i).end_)) →
        blocks[i]? = some ⟨0, 0, []⟩) ∧
    (∀ target_vec, ReadEncodedHashesToVector [⟨0, 0, []⟩] target_vec b = some target_vec) ∧
    WriteEncodedHashes [] num_workers b max_hash space_bound
      = some (List.replicate num_workers ⟨0, 0, []⟩) ∧
    FlushAll.duplicates (sort hashes_dups) b space_bound = some ⟨0, 0, []⟩ := by
  refine ⟨⟨_, WriteEncodedHashes_of_fits hashes_ num_workers b max_hash space_bound hs hlt hcap,
    by simp, fun i hi hnone => ?_⟩, fun target_vec => rfl, ?_, ?_⟩
  · have he : distinctIn (CalculateLocalRange max_hash num_workers i) hashes_ = [] := by
      refine List.eq_nil_iff_forall_not_mem.2 (fun x hx => ?_)
      rw [mem_distinctIn] at hx
      exact hnone x hx.1 hx.2
    simp only [List.getElem?_map, List.getElem?_range hi, Option.map_some', he, encode_nil]
  · rw [WriteEncodedHashes_of_fits [] num_workers b max_hash space_bound
      (List.sorted_nil) (by simp) (by simp [distinctIn, blockBits, deltasFrom])]
    simp only [distinctIn, List.filter_nil, List.dedup_nil]
    rw [encode_nil, List.map_const', List.length_range]
  · rw [duplicates_sorted_eq _ _ _ (sort_sorted _), repeated_sort_of_nodup _ hnd,
      blockBits_nil, if_pos (Nat.zero_le _), encode_nil]

/-- Witness of C10: the fingerprints 9, 15 all lie in the second of two
ranges of `[0, 16)`, and the merged list 3, 7, 9 has no repeated value. -/
theorem C10_empty_blocks_witness :
    (∃ blocks, WriteEncodedHashes [9, 15] 2 5 16 100 = some blocks ∧
      blocks.length = 2 ∧
      ∀ i < 2,
        (∀ x ∈ [9, 15], ¬ ((CalculateLocalRange 16 2 i).begin ≤ x ∧
          x < (CalculateLocalRange 16 2 i).end_)) →
        blocks[i]? = some ⟨0, 0, []⟩) ∧
    (∀ target_vec, ReadEncodedHashesToVector [⟨0, 0, []⟩] target_vec 5 = some target_vec) ∧
    WriteEncodedHashes [] 2 5 16 100 = some (List.replicate 2 ⟨0, 0, []⟩) ∧
    FlushAll.duplicates (sort [7, 3, 9]) 5 100 = some ⟨0, 0, []⟩ :=
  C10_empty_blocks [9, 15] 2 5 16 100 [7, 3, 9] (by decide) (by decide) (by decide)
    (by decide)

/-- C2 (duplicate scan): for every sorted merged list `hashes_dups` and a
buffer that holds the code, the duplicate scan of `FlushAll` produces the
block that delta-encodes (from 0, each value minus the one emitted before) a
list `dups` which holds exactly the values occurring at least twice in
`hashes_dups`, strictly ascending (so each once); `ReadEncodedHashesToVector`
decodes `dups` from it and `num_elements` is the length of `dups`. For the
merged list 3, 3, 7, 9 (with the parameters `FlushAll` derives for 4 unique
keys) the reported duplicates are exactly 3. -/
theorem C2_duplicate_scan (hashes_dups : List Nat) (b space_bound : Nat)
    (hs : List.Sorted (fun x y => x ≤ y) hashes_dups)
    (hcap : blockBits b (repeated hashes_dups) ≤ space_bound) :
    (∃ block dups, FlushAll.duplicates hashes_dups b space_bound = some block ∧
      block = Block.encode b dups ∧
      ReadEncodedHashesToVector [block] [] b = some dups ∧
      (∀ x, x ∈ dups ↔ 2 ≤ hashes_dups.count x) ∧
      List.Sorted (fun x y => x < y) dups ∧
      block.element_count = dups.length) ∧
    (∃ block, FlushAll.duplicates [3, 3, 7, 9] FlushAll.b (FlushAll.upper_space_bound 4)
        = some block ∧
      ReadEncodedHashesToVector [block] [] FlushAll.b = some [3] ∧
      block.element_count = 1) := by
  refine ⟨⟨Block.encode b (repeated hashes_dups), repeated hashes_dups, ?_, rfl, ?_,
    mem_repeated hashes_dups, repeated_sorted hashes_dups hs, rfl⟩,
    ⟨Block.encode 5 [3], by decide, by decide, by decide⟩⟩
  · rw [duplicates_sorted_eq hashes_dups b space_bound hs, if_pos hcap]
  · exact read_encode_single b _ [] (List.Sorted.le_of_lt (repeated_sorted hashes_dups hs))

/-- Witness of C2: the merged list 0, 0, 0, 3, 3, 7, 9, 9, 200. -/
theorem C2_duplicate_scan_witness :
    (∃ block dups, FlushAll.duplicates [0, 0, 0, 3, 3, 7, 9, 9, 200] 5 100 = some block ∧
      block = Block.encode 5 dups ∧
      ReadEncodedHashesToVector [block] [] 5 = some dups ∧
      (∀ x, x ∈ dups ↔ 2 ≤ [0, 0, 0, 3, 3, 7, 9, 9, 200].count x) ∧
      List.Sorted (fun x y => x < y) dups ∧
      block.element_count = dups.length) ∧
    (∃ block, FlushAll.duplicates [3, 3, 7, 9] FlushAll.b (FlushAll.upper_space_bound 4)
        = some block ∧
      ReadEncodedHashesToVector [block] [] FlushAll.b = some [3] ∧
      block.element_count = 1) :=
  C2_duplicate_scan [0, 0, 0, 3, 3, 7, 9, 9, 200] 5 100 (by decide) (by decide)

theorem modLoop_eq (max_hash : Nat) (hpos : 0 < max_hash) (hashes_ : List Nat) :
    FlushAll.modLoop max_hash hashes_ = some (hashes_.map (fun h => h % max_hash)) := by
  induction hashes_ with
  | nil => rfl
  | cons h rest ih =>
    have hne : max_hash ≠ 0 := by omega
    simp [FlushAll.modLoop, hne, ih]

theorem project_eq (max_hash : Nat) (hpos : 0 < max_hash) (hashes_ : List Nat) :
    FlushAll.project hashes_ max_hash = some (sort (hashes_.map (fun h => h % max_hash))) := by
  simp [FlushAll.project, modLoop_eq max_hash hpos]

/-- C7 (projection): with `max_hash > 0` the projection step of `FlushAll`
succeeds, and the new `hashes_` has the length of the old one, is sorted
ascending, has every entry below `max_hash`, and is a permutation of the list
of the recorded hashes reduced modulo `max_hash` (equal fingerprints are all
kept). -/
theorem C7_projection (hashes_ : List Nat) (max_hash : Nat) (hpos : 0 < max_hash) :
    ∃ projected, FlushAll.project hashes_ max_hash = some projected ∧
      projected.length = hashes_.length ∧
      List.Sorted (fun x y => x ≤ y) projected ∧
      (∀ x ∈ projected, x < max_hash) ∧
      List.Perm projected (hashes_.map (fun h => h % max_hash)) := by
  refine ⟨_, project_eq max_hash hpos hashes_, ?_, sort_sorted _, ?_, sort_perm _⟩
  · rw [(sort_perm _).length_eq, List.length_map]
  · intro x hx
    obtain ⟨h, _, rfl⟩ := List.mem_map.1 ((sort_perm _).mem_iff.1 hx)
    exact Nat.mod_lt _ hpos

/-- Witness of C7: the hashes 23, 7, 16, 7 and `max_hash = 8`. -/
theorem C7_projection_witness :
    ∃ projected, FlushAll.project [23, 7, 16, 7] 8 = some projected ∧
      projected.length = [23, 7, 16, 7].length ∧
      List.Sorted (fun x y => x ≤ y) projected ∧
      (∀ x ∈ projected, x < 8) ∧
      List.Perm projected ([23, 7, 16, 7].map (fun h => h % 8)) :=
  C7_projection [23, 7, 16, 7] 8 (by decide)

theorem toDouble_of_lt (n : Nat) (h : n < 2 ^ 53) : toDouble n = n := by
  unfold toDouble
  rw [if_pos h]

theorem ilog2_go_lt (fuel m k : Nat) (hk : 1 ≤ k) (hm : m < 2 ^ k) : ilog2.go fuel m < k := by
  induction fuel generalizing m k with
  | zero => exact hk
  | succ fuel ih =>
    rw [ilog2.go]
    by_cases h2 : m < 2
    · rw [if_pos h2]
      exact hk
    · rw [if_neg h2]
      obtain ⟨j, rfl⟩ : ∃ j, k = j + 1 := ⟨k - 1, by omega⟩
      have hj : 1 ≤ j := by
        rcases j with _ | j
        · simp at hm
          omega
        · omega
      have hm2 : m / 2 < 2 ^ j := by
        rw [Nat.div_lt_iff_lt_mul (by decide)]
        rw [Nat.pow_succ] at hm
        exact hm
      have := ih (m / 2) j hj hm2
      omega

/-- A multiple of 8 of a value below `2^53` is a `double`: scaling by a power
of two is exact. -/
theorem toDouble_mul_eight (n : Nat) (h : n < 2 ^ 53) : toDouble (n * 8) = n * 8 := by
  unfold toDouble
  by_cases h1 : n * 8 < 2 ^ 53
  · rw [if_pos h1]
  · rw [if_neg h1]
    have hlog : ilog2 (n * 8) < 56 := ilog2_go_lt _ _ 56 (by decide) (by omega)
    have he : ilog2 (n * 8) - 52 ≤ 3 := by omega
    have hdvd : 2 ^ (ilog2 (n * 8) - 52) ∣ n * 8 :=
      Dvd.dvd.mul_left (Nat.pow_dvd_pow 2 he) n
    have hr : n * 8 % 2 ^ (ilog2 (n * 8) - 52) = 0 := Nat.mod_eq_zero_of_dvd hdvd
    simp only [hr, Nat.mul_zero, Nat.two_pow_pos, if_true]
    exact Nat.div_mul_cancel hdvd

theorem floor_ln2_fpr : Nat.floor (Real.log 2 * 8) = 5 := by
  rw [Nat.floor_eq_iff (by positivity)]
  have h1 := Real.log_two_gt_d9
  have h2 := Real.log_two_lt_d9
  constructor
  · norm_num
    linarith
  · norm_num
    linarith

/-- C6 as stated fails: for the all-reduced count `U = 1801439850948199`
the product `U * 5.0` is `9007199254740995`, above `2^53` and odd, hence not
a `double`; it is rounded to `9007199254740996`, so `space_bound ≠ 5 * U`. -/
theorem C6_counterexample :
    FlushAll.negotiate ⟨[], 0, 0⟩ 1801439850948199
        = (5, 8 * 1801439850948199, 9007199254740996) ∧
      5 * 1801439850948199 = 9007199254740995 := by
  decide

/-- C6 (amended): for every all-reduced unique count `U` with `5 * U < 2^53`
(where the `double` products are exact) `FlushAll` derives
`b = floor(ln 2 * 8) = 5`, `max_hash = 8 * U` and `space_bound = 5 * U`; and
for every `U` the three values depend on `U` alone: two workers with any
local states derive the same values from the same `U`. -/
theorem C6_negotiated_parameters (U : Nat) (hU : 5 * U < 2 ^ 53)
    (self other : ReducePreStage) :
    FlushAll.negotiate self U = (5, 8 * U, 5 * U) ∧
      Nat.floor (Real.log 2 * (fpr_parameter : ℝ)) = FlushAll.b ∧
      ∀ U', FlushAll.negotiate self U' = FlushAll.negotiate other U' := by
  refine ⟨?_, ?_, fun _ => rfl⟩
  · have h3 : ilog2 8 = 3 := by decide
    have h8 : fpr_parameter = 8 := rfl
    simp only [FlushAll.negotiate, FlushAll.b, FlushAll.max_hash, FlushAll.upper_space_bound,
      h8, h3]
    rw [toDouble_of_lt U (by omega), toDouble_mul_eight U (by omega),
      toDouble_of_lt (U * (2 + 3)) (by omega)]
    unfold toSizeT
    rw [if_pos (by omega), if_pos (by omega)]
    simp only [Prod.mk.injEq, true_and]
    constructor <;> omega
  · have h8 : (fpr_parameter : ℝ) = 8 := by norm_num [fpr_parameter]
    rw [h8]
    exact floor_ln2_fpr

/-- Witness of C6: `U = 1000` gives `b = 5`, `max_hash = 8000` and
`space_bound = 5000` on two workers with different states. -/
theorem C6_negotiated_parameters_witness :
    FlushAll.negotiate ⟨[1, 2], 2, 3⟩ 1000 = (5, 8 * 1000, 5 * 1000) ∧
      Nat.floor (Real.log 2 * (fpr_parameter : ℝ)) = FlushAll.b ∧
      ∀ U', FlushAll.negotiate ⟨[1, 2], 2, 3⟩ U' = FlushAll.negotiate ⟨[], 0, 0⟩ U' :=
  C6_negotiated_parameters 1000 (by decide) ⟨[1, 2], 2, 3⟩ ⟨[], 0, 0⟩

theorem blockBits_ge_aux (b prev : Nat) (vs : List Nat) :
    (b + 1) * vs.length ≤ ((deltasFrom prev vs).map (fun d => (d >>> b) + 1 + b)).sum := by
  induction vs generalizing prev with
  | nil => simp [deltasFrom]
  | cons v vs ih =>
    have := ih v
    simp only [deltasFrom, List.map_cons, List.sum_cons, List.length_cons]
    rw [Nat.mul_succ]
    generalize (v - prev) >>> b = q
    linarith

theorem blockBits_ge (b : Nat) (vs : List Nat) : (b + 1) * vs.length ≤ blockBits b vs :=
  blockBits_ge_aux b 0 vs

/-- C5 fails on the code: a block of `n` values needs at least `6 * n` bits
with `b = 5`, while the declared capacity is `5 * U`. On a single worker that
holds one key with hash 0 (`U = 1`, `max_hash = 8`, `space_bound = 5`) the
block for destination 0 needs 6 bits, the first `golomb_in` meets the
capacity error, and so do `WriteEncodedHashes` and the protocol; the same
happens on a single worker with the ten hashes 0, ..., 9. -/
theorem C5_capacity_exceeded :
    (∀ vs : List Nat, 6 * vs.length ≤ blockBits FlushAll.b vs) ∧
    FlushAll.upper_space_bound 1 = 5 ∧
    blockBits FlushAll.b [0] = 6 ∧
    ((DynamicBitset.create (FlushAll.upper_space_bound 1) FlushAll.b).seek 0).golomb_in 0
      = none ∧
    WriteEncodedHashes [0] 1 FlushAll.b (FlushAll.max_hash 1) (FlushAll.upper_space_bound 1)
      = none ∧
    FlushAll [⟨[0], 1, 1⟩] = none ∧
    FlushAll [⟨[0, 1, 2, 3, 4, 5, 6, 7, 8, 9], 10, 10⟩] = none :=
  ⟨fun vs => blockBits_ge 5 vs, by decide, by decide, by decide, by decide, by decide,
    by decide⟩

/-! ## The protocol on a cluster -/

theorem allSome_map_some {α β : Type} (l : List α) (f : α → Option β) (g : α → β)
    (h : ∀ x ∈ l, f x = some (g x)) : allSome (l.map f) = some (l.map g) := by
  induction l with
  | nil => rfl
  | cons a l ih =>
    have ha := h a (List.mem_cons_self _ _)
    have hl := ih (fun x hx => h x (List.mem_cons_of_mem _ hx))
    simp [allSome, ha, hl]

theorem allSome_map_ne_none {α β : Type} (l : List α) (f : α → Option β)
    (h : allSome (l.map f) ≠ none) : ∀ x ∈ l, f x ≠ none := by
  induction l with
  | nil => simp
  | cons a l ih =>
    intro x hx
    cases hfa : f a with
    | none => simp [allSome, hfa] at h
    | some y =>
      rcases List.mem_cons.1 hx with e | e
      · subst e
        simp [hfa]
      · apply ih _ x e
        intro hn
        simp [allSome, hfa, hn] at h

theorem project_eq_ite (max_hash : Nat) (hashes_ : List Nat) :
    FlushAll.project hashes_ max_hash =
      if max_hash = 0 ∧ hashes_ ≠ [] then none
      else some (sort (hashes_.map (fun h => h % max_hash))) := by
  by_cases h0 : max_hash = 0
  · rcases hashes_ with _ | ⟨h, t⟩
    · simp [FlushAll.project, FlushAll.modLoop, sort]
    · simp [FlushAll.project, FlushAll.modLoop, h0]
  · have hpos : 0 < max_hash := Nat.pos_of_ne_zero h0
    rw [project_eq max_hash hpos, if_neg (fun h => h0 h.1)]

theorem projected_sorted (max_hash : Nat) (self : ReducePreStage) :
    List.Sorted (fun x y => x ≤ y) (projected max_hash self) :=
  sort_sorted _

theorem mem_projected (max_hash : Nat) (self : ReducePreStage) (x : Nat) :
    x ∈ projected max_hash self ↔ ∃ h ∈ self.hashes_, h % max_hash = x := by
  unfold projected
  rw [(sort_perm _).mem_iff, List.mem_map]

theorem round1_ne_none (self : ReducePreStage) (num_workers U : Nat)
    (h : FlushAll.round1 self num_workers U ≠ none) :
    (FlushAll.max_hash U = 0 → self.hashes_ = []) ∧
    FlushAll.round1 self num_workers U =
      some ((List.range num_workers).map (fun i => Block.encode FlushAll.b
        (distinctIn (CalculateLocalRange (FlushAll.max_hash U) num_workers i)
          (projected (FlushAll.max_hash U) self)))) := by
  unfold FlushAll.round1 at h ⊢
  rw [project_eq_ite] at h ⊢
  by_cases h0 : FlushAll.max_hash U = 0 ∧ self.hashes_ ≠ []
  · simp [h0] at h
  · rw [if_neg h0] at h ⊢
    have hlt : ∀ x ∈ projected (FlushAll.max_hash U) self, x < FlushAll.max_hash U := by
      intro x hx
      obtain ⟨y, hy, rfl⟩ := (mem_projected _ _ _).1 hx
      apply Nat.mod_lt
      apply Nat.pos_of_ne_zero
      intro hz
      exact h0 ⟨hz, List.ne_nil_of_mem hy⟩
    have hw := WriteEncodedHashes_eq (projected (FlushAll.max_hash U) self) num_workers
      FlushAll.b (FlushAll.max_hash U) (FlushAll.upper_space_bound U)
      (projected_sorted _ _) hlt
    unfold projected at hw
    simp only [] at h ⊢
    rw [hw] at h ⊢
    refine ⟨fun hz => ?_, ?_⟩
    · by_contra hne
      exact h0 ⟨hz, hne⟩
    · split at h
      · rename_i hfit
        rw [if_pos hfit]
        rfl
      · exact absurd rfl h

theorem reader_map_range (cluster : List ReducePreStage) (p i : Nat) (hi : i < p)
    (F : ReducePreStage → Nat → Block) :
    CatStream.reader (cluster.map (fun w => (List.range p).map (F w))) i
      = cluster.map (fun w => F w i) := by
  unfold CatStream.reader
  induction cluster with
  | nil => rfl
  | cons a l ih =>
    simp only [List.map_cons, List.filterMap_cons, List.getElem?_map,
      List.getElem?_range hi, Option.map_some', ih]

theorem read_encoded_stream (b : Nat) (vss : List (List Nat)) (target_vec : List Nat)
    (h : ∀ vs ∈ vss, List.Sorted (fun x y => x ≤ y) vs) :
    ReadEncodedHashesToVector (vss.map (Block.encode b)) target_vec b
      = some (target_vec ++ vss.flatten) := by
  induction vss generalizing target_vec with
  | nil => simp [ReadEncodedHashesToVector]
  | cons vs vss ih =>
    rw [List.map_cons, read_encode_cons b vs _ target_vec (h vs (List.mem_cons_self _ _)),
      ih _ (fun x hx => h x (List.mem_cons_of_mem _ hx))]
    simp

theorem detect_encoded (vss : List (List Nat)) (U : Nat)
    (h : ∀ vs ∈ vss, List.Sorted (fun x y => x ≤ y) vs) :
    FlushAll.detect (vss.map (Block.encode FlushAll.b)) U =
      if blockBits FlushAll.b (repeated (sort vss.flatten)) ≤ FlushAll.upper_space_bound U then
        some (Block.encode FlushAll.b (repeated (sort vss.flatten)))
      else none := by
  unfold FlushAll.detect
  rw [read_encoded_stream FlushAll.b vss [] h]
  simp only [List.nil_append]
  exact duplicates_sorted_eq _ _ _ (sort_sorted _)

theorem reader_round2 (blocks : List Block) (p j : Nat) (hj : j < p) :
    CatStream.reader (blocks.map (FlushAll.round2 p)) j = blocks := by
  unfold CatStream.reader FlushAll.round2
  induction blocks with
  | nil => rfl
  | cons a l ih =>
    simp only [List.map_cons, List.filterMap_cons, List.getElem?_replicate_of_lt hj, ih]

/-- What the protocol computes whenever it completes: every worker ends with
the duplicates of all range owners, and a remainder by zero was taken
nowhere. -/
theorem FlushAll_some (cluster : List ReducePreStage) (duplicates : List (List Nat))
    (hrun : FlushAll cluster = some duplicates) :
    duplicates = List.replicate cluster.length (clusterDuplicates cluster) ∧
      (FlushAll.max_hash (AllReduce (cluster.map (fun w => w.unique_elements_))) = 0 →
        ∀ w ∈ cluster, w.hashes_ = []) := by
  unfold FlushAll at hrun
  simp only [] at hrun
  split at hrun
  · exact absurd hrun (by simp)
  rename_i stream hstream
  have hw := allSome_map_ne_none cluster
    (fun w => FlushAll.round1 w cluster.length
      (AllReduce (cluster.map (fun w => w.unique_elements_))))
    (by rw [hstream]; simp)
  have hAeq := allSome_map_some cluster _ _
    (fun w hw' => (round1_ne_none w _ _ (hw w hw')).2)
  refine ⟨?_, fun hz w hw' => (round1_ne_none w _ _ (hw w hw')).1 hz⟩
  rw [hAeq] at hstream
  have hs := Option.some.inj hstream
  subst hs
  split at hrun
  · exact absurd hrun (by simp)
  rename_i dup_blocks hdup
  have hd := allSome_map_ne_none (List.range cluster.length) _ (by rw [hdup]; simp)
  have hsorted : ∀ i, ∀ vs ∈ cluster.map (fun w =>
      distinctIn
        (CalculateLocalRange
          (FlushAll.max_hash (AllReduce (cluster.map (fun w => w.unique_elements_))))
          cluster.length i)
        (projected
          (FlushAll.max_hash (AllReduce (cluster.map (fun w => w.unique_elements_)))) w)),
      List.Sorted (fun x y => x ≤ y) vs := by
    intro i vs hvs
    obtain ⟨w, _, rfl⟩ := List.mem_map.1 hvs
    exact List.Sorted.le_of_lt (distinctIn_sorted _ _ (projected_sorted _ _))
  have hdetect : ∀ i ∈ List.range cluster.length,
      FlushAll.detect (CatStream.reader (cluster.map (fun w =>
        (List.range cluster.length).map (fun i => Block.encode FlushAll.b
          (distinctIn
            (CalculateLocalRange
              (FlushAll.max_hash (AllReduce (cluster.map (fun w => w.unique_elements_))))
              cluster.length i)
            (projected
              (FlushAll.max_hash (AllReduce (cluster.map (fun w => w.unique_elements_))))
              w))))) i)
        (AllReduce (cluster.map (fun w => w.unique_elements_)))
      = some (Block.encode FlushAll.b (repeated (merged cluster i))) := by
    intro i hi
    have hne := hd i hi
    have hi' : i < cluster.length := List.mem_range.1 hi
    rw [reader_map_range cluster cluster.length i hi'
      (fun w i => Block.encode FlushAll.b
          (distinctIn
            (CalculateLocalRange
              (FlushAll.max_hash (AllReduce (cluster.map (fun w => w.unique_elements_))))
              cluster.length i)
            (projected
              (FlushAll.max_hash (AllReduce (cluster.map (fun w => w.unique_elements_))))
              w)))] at hne ⊢
    have hmm : cluster.map (fun w => Block.encode FlushAll.b
          (distinctIn
            (CalculateLocalRange
              (FlushAll.max_hash (AllReduce (cluster.map (fun w => w.unique_elements_))))
              cluster.length i)
            (projected
              (FlushAll.max_hash (AllReduce (cluster.map (fun w => w.unique_elements_))))
              w)))
        = (cluster.map (fun w =>
          distinctIn
            (CalculateLocalRange
              (FlushAll.max_hash (AllReduce (cluster.map (fun w => w.unique_elements_))))
              cluster.length i)
            (projected
              (FlushAll.max_hash (AllReduce (cluster.map (fun w => w.unique_elements_))))
              w))).map (Block.encode FlushAll.b) := by
      rw [List.map_map]
      rfl
    rw [hmm, detect_encoded _ _ (hsorted i)] at hne ⊢
    split at hne
    · rename_i hfit
      rw [if_pos hfit]
      rfl
    · exact absurd rfl hne
  have hBeq := allSome_map_some (List.range cluster.length) _ _ hdetect
  rw [hBeq] at hdup
  have hs := Option.some.inj hdup
  subst hs
  have hread : ∀ j ∈ List.range cluster.length,
      ReadEncodedHashesToVector
        (CatStream.reader
          (((List.range cluster.length).map
            (fun i => Block.encode FlushAll.b (repeated (merged cluster i)))).map
              (FlushAll.round2 cluster.length)) j) [] FlushAll.b
      = some (clusterDuplicates cluster) := by
    intro j hj
    rw [reader_round2 _ _ _ (List.mem_range.1 hj)]
    have hmm : (List.range cluster.length).map
          (fun i => Block.encode FlushAll.b (repeated (merged cluster i)))
        = ((List.range cluster.length).map (fun i => repeated (merged cluster i))).map
          (Block.encode FlushAll.b) := by
      rw [List.map_map]
      rfl
    rw [hmm, read_encoded_stream]
    · rfl
    · intro vs hvs
      obtain ⟨i, _, rfl⟩ := List.mem_map.1 hvs
      exact List.Sorted.le_of_lt (repeated_sorted _ (sort_sorted _))
  have hCeq := allSome_map_some (List.range cluster.length) _ _ hread
  rw [hCeq] at hrun
  have hfin := Option.some.inj hrun
  rw [← hfin, List.map_const', List.length_range]

theorem count_flatten_two (L : List (List Nat)) (x w₁ w₂ : Nat) (l₁ l₂ : List Nat)
    (h : w₁ < w₂) (h₁ : L[w₁]? = some l₁) (h₂ : L[w₂]? = some l₂)
    (hx₁ : x ∈ l₁) (hx₂ : x ∈ l₂) : 2 ≤ L.flatten.count x := by
  induction L generalizing w₁ w₂ with
  | nil => simp at h₁
  | cons a L ih =>
    obtain ⟨v, rfl⟩ : ∃ v, w₂ = v + 1 := ⟨w₂ - 1, by omega⟩
    rw [List.getElem?_cons_succ] at h₂
    rw [List.flatten_cons, List.count_append]
    rcases w₁ with _ | u
    · rw [List.getElem?_cons_zero] at h₁
      have ha : a = l₁ := Option.some.inj h₁
      subst ha
      have c1 : 0 < a.count x := List.count_pos_iff.2 hx₁
      have c2 : 0 < L.flatten.count x :=
        List.count_pos_iff.2 (List.mem_flatten.2 ⟨l₂, List.getElem?_mem h₂, hx₂⟩)
      omega
    · rw [List.getElem?_cons_succ] at h₁
      have := ih u v (by omega) h₁ h₂
      omega

/-- C3 (no false negatives): for every number of workers, every hash
function and every assignment of keys to workers (worker `w` has recorded the
hash of each of its keys `keys[w]`), whenever the protocol of `FlushAll`
completes (no block exceeds the capacity), every worker decodes a duplicate
list, and the list of every worker contains the fingerprint
`hash(k) mod max_hash` of every key `k` held by two different workers. -/
theorem C3_no_false_negatives {Key : Type} (hash : Key → Nat) (keys : List (List Key))
    (duplicates : List (List Nat))
    (hrun : FlushAll (keys.map (fun ks => ⟨ks.map hash, ks.length, ks.length⟩))
      = some duplicates) :
    duplicates.length = keys.length ∧
      ∀ (k : Key) (w₁ w₂ : Nat) (ks₁ ks₂ : List Key), w₁ ≠ w₂ →
        keys[w₁]? = some ks₁ → keys[w₂]? = some ks₂ → k ∈ ks₁ → k ∈ ks₂ →
        ∀ d ∈ duplicates,
          hash k % FlushAll.max_hash (AllReduce (keys.map (fun ks => ks.length))) ∈ d := by
  obtain ⟨hd, hz⟩ := FlushAll_some _ _ hrun
  have hU : (keys.map (fun ks => (⟨ks.map hash, ks.length, ks.length⟩ : ReducePreStage))).map
      (fun w => w.unique_elements_) = keys.map (fun ks => ks.length) := by
    rw [List.map_map]
    rfl
  rw [List.length_map] at hd
  refine ⟨by rw [hd, List.length_replicate], ?_⟩
  have key : ∀ (k : Key) (w₁ w₂ : Nat) (ks₁ ks₂ : List Key), w₁ < w₂ →
      keys[w₁]? = some ks₁ → keys[w₂]? = some ks₂ → k ∈ ks₁ → k ∈ ks₂ →
      hash k % FlushAll.max_hash (AllReduce (keys.map (fun ks => ks.length)))
        ∈ clusterDuplicates (keys.map (fun ks => ⟨ks.map hash, ks.length, ks.length⟩)) := by
    intro k w₁ w₂ ks₁ ks₂ hlt h₁ h₂ hk₁ hk₂
    have hw₂ : w₂ < keys.length := by
      rcases Nat.lt_or_ge w₂ keys.length with h | h
      · exact h
      · rw [List.getElem?_eq_none h] at h₂
        exact Option.noConfusion h₂
    rw [hU] at hz
    have hpos : 0 < FlushAll.max_hash (AllReduce (keys.map (fun ks => ks.length))) := by
      apply Nat.pos_of_ne_zero
      intro h0
      have hmem : (⟨ks₁.map hash, ks₁.length, ks₁.length⟩ : ReducePreStage)
          ∈ keys.map (fun ks => (⟨ks.map hash, ks.length, ks.length⟩ : ReducePreStage)) :=
        List.mem_map.2 ⟨ks₁, List.getElem?_mem h₁, rfl⟩
      have he := hz h0 _ hmem
      simp only [List.map_eq_nil_iff] at he
      rw [he] at hk₁
      simp at hk₁
    obtain ⟨i, hi, hb, he⟩ := (range_mem_iff _ keys.length
      (hash k % FlushAll.max_hash (AllReduce (keys.map (fun ks => ks.length))))
      (by omega)).1 (Nat.mod_lt _ hpos)
    unfold clusterDuplicates
    rw [List.length_map]
    refine List.mem_flatten.2 ⟨_, List.mem_map.2 ⟨i, List.mem_range.2 hi, rfl⟩, ?_⟩
    rw [mem_repeated]
    unfold merged
    rw [(sort_perm _).count_eq, hU, List.length_map]
    have hin : ∀ (ks : List Key), k ∈ ks →
        hash k % FlushAll.max_hash (AllReduce (keys.map (fun ks => ks.length)))
          ∈ distinctIn
            (CalculateLocalRange
              (FlushAll.max_hash (AllReduce (keys.map (fun ks => ks.length)))) keys.length i)
            (projected (FlushAll.max_hash (AllReduce (keys.map (fun ks => ks.length))))
              ⟨ks.map hash, ks.length, ks.length⟩) := by
      intro ks hks
      rw [mem_distinctIn, mem_projected]
      exact ⟨⟨hash k, List.mem_map.2 ⟨k, hks, rfl⟩, rfl⟩, hb, he⟩
    refine count_flatten_two _ _ w₁ w₂ _ _ hlt ?_ ?_ (hin ks₁ hk₁) (hin ks₂ hk₂)
    · rw [List.getElem?_map, List.getElem?_map, h₁]
      rfl
    · rw [List.getElem?_map, List.getElem?_map, h₂]
      rfl
  intro k w₁ w₂ ks₁ ks₂ hne h₁ h₂ hk₁ hk₂ d hdm
  rw [hd] at hdm
  have hdeq := List.eq_of_mem_replicate hdm
  rw [hdeq]
  rcases Nat.lt_or_gt_of_ne hne with h | h
  · exact key k w₁ w₂ ks₁ ks₂ h h₁ h₂ hk₁ hk₂
  · exact key k w₂ w₁ ks₂ ks₁ h h₂ h₁ hk₂ hk₁

/-- Witness of C3: three workers with the keys (hashed by the identity)
1, 2, 3, then 3, 4, 5, 1, then 9; the keys 1 and 3 are held twice. -/
theorem C3_no_false_negatives_witness :
    FlushAll ([[1, 2, 3], [3, 4, 5, 1], [9]].map
        (fun ks => ⟨ks.map (fun k => k), ks.length, ks.length⟩))
      = some [[1, 3], [1, 3], [1, 3]] ∧
    ([[1, 3], [1, 3], [1, 3]].length = [[1, 2, 3], [3, 4, 5, 1], [9]].length ∧
      ∀ (k : Nat) (w₁ w₂ : Nat) (ks₁ ks₂ : List Nat), w₁ ≠ w₂ →
        [[1, 2, 3], [3, 4, 5, 1], [9]][w₁]? = some ks₁ →
        [[1, 2, 3], [3, 4, 5, 1], [9]][w₂]? = some ks₂ → k ∈ ks₁ → k ∈ ks₂ →
        ∀ d ∈ [[1, 3], [1, 3], [1, 3]],
          (fun k => k) k % FlushAll.max_hash
            (AllReduce ([[1, 2, 3], [3, 4, 5, 1], [9]].map (fun ks => ks.length))) ∈ d) :=
  ⟨by decide,
    C3_no_false_negatives (fun k => k) [[1, 2, 3], [3, 4, 5, 1], [9]] [[1, 3], [1, 3], [1, 3]]
      (by decide)⟩

/-! ## Wire layout of the blocks -/

theorem duplicates_some (l : List Nat) (b cap : Nat) (block : Block)
    (h : FlushAll.duplicates l b cap = some block) :
    block = Block.encode b (FlushAll.dupAll l) := by
  rw [duplicates_eq] at h
  split at h
  · exact (Option.some.inj h).symm
  · exact Option.noConfusion h

/-! ## Round 2 -/

theorem mem_merged (cluster : List ReducePreStage) (i x : Nat) (hx : x ∈ merged cluster i) :
    (CalculateLocalRange
        (FlushAll.max_hash (AllReduce (cluster.map (fun w => w.unique_elements_))))
        cluster.length i).begin ≤ x ∧
      x < (CalculateLocalRange
        (FlushAll.max_hash (AllReduce (cluster.map (fun w => w.unique_elements_))))
        cluster.length i).end_ := by
  unfold merged at hx
  rw [(sort_perm _).mem_iff, List.mem_flatten] at hx
  obtain ⟨l, hl, hxl⟩ := hx
  obtain ⟨w, _, rfl⟩ := List.mem_map.1 hl
  exact ((mem_distinctIn _ _ _).1 hxl).2

theorem mem_of_mem_repeated (l : List Nat) (x : Nat) (hx : x ∈ repeated l) : x ∈ l := by
  rw [mem_repeated] at hx
  exact List.count_pos_iff.1 (by omega)

theorem range_end_le_begin (n p i j : Nat) (hij : i < j) (hj : j < p) :
    (CalculateLocalRange n p i).end_ ≤ (CalculateLocalRange n p j).begin := by
  rw [range_end_eq_begin n p i (by omega)]
  exact range_begin_mono n p (i + 1) j hij

theorem sorted_flatten_range' (f : Nat → List Nat) (lo hi : Nat → Nat) (p : Nat)
    (hsorted : ∀ j, List.Sorted (fun x y => x < y) (f j))
    (hin : ∀ j x, x ∈ f j → lo j ≤ x ∧ x < hi j)
    (hmono : ∀ i j, i < j → j < p → hi i ≤ lo j) (s k : Nat) (hsk : s + k ≤ p) :
    List.Sorted (fun x y => x < y) ((List.range' s k).map f).flatten := by
  induction k generalizing s with
  | zero => simp
  | succ k ih =>
    rw [List.range'_succ, List.map_cons, List.flatten_cons]
    refine List.pairwise_append.2 ⟨hsorted s, ih (s + 1) (by omega), fun a ha b hb => ?_⟩
    obtain ⟨l, hl, hbl⟩ := List.mem_flatten.1 hb
    obtain ⟨j, hj, rfl⟩ := List.mem_map.1 hl
    have hj' := List.mem_range'_1.1 hj
    have h1 := (hin s a ha).2
    have h2 := (hin j b hbl).1
    have h3 := hmono s j (by omega) (by omega)
    omega

theorem merged_sorted (cluster : List ReducePreStage) (i : Nat) :
    List.Sorted (fun x y => x ≤ y) (merged cluster i) := by
  unfold merged
  exact sort_sorted _

theorem clusterDuplicates_sorted (cluster : List ReducePreStage) :
    List.Sorted (fun x y => x < y) (clusterDuplicates cluster) := by
  unfold clusterDuplicates
  rw [List.range_eq_range']
  refine sorted_flatten_range' (fun i => repeated (merged cluster i))
    (fun i => (CalculateLocalRange
        (FlushAll.max_hash (AllReduce (cluster.map (fun w => w.unique_elements_))))
        cluster.length i).begin)
    (fun i => (CalculateLocalRange
        (FlushAll.max_hash (AllReduce (cluster.map (fun w => w.unique_elements_))))
        cluster.length i).end_)
    cluster.length ?_ ?_ ?_ 0 cluster.length (by omega)
  · intro j
    exact repeated_sorted (merged cluster j) (merged_sorted cluster j)
  · intro j x hx
    exact mem_merged cluster j x (mem_of_mem_repeated _ _ hx)
  · intro i j hij hj
    exact range_end_le_begin _ _ i j hij hj

theorem mem_clusterDuplicates (cluster : List ReducePreStage) (x : Nat) :
    x ∈ clusterDuplicates cluster ↔
      ∃ i < cluster.length, 2 ≤ (merged cluster i).count x := by
  unfold clusterDuplicates
  rw [List.mem_flatten]
  constructor
  · rintro ⟨l, hl, hx⟩
    obtain ⟨i, hi, rfl⟩ := List.mem_map.1 hl
    exact ⟨i, List.mem_range.1 hi, (mem_repeated _ _).1 hx⟩
  · rintro ⟨i, hi, hx⟩
    exact ⟨_, List.mem_map.2 ⟨i, List.mem_range.2 hi, rfl⟩, (mem_repeated _ _).2 hx⟩

/-- C12 (round 2 broadcast): a range owner writes the same duplicate block
(same `byte_length`, `element_count` and payload) to each of the
`num_workers` writers, its own included; hence the merged reader of every
worker delivers the duplicate blocks of all range owners, in the order of the
owners; and whenever the protocol completes, every worker decodes the same
list, which holds exactly the values that occur at least twice in the merged
list of some range owner (the full duplicate set). -/
theorem C12_duplicates_broadcast (cluster : List ReducePreStage)
    (duplicates : List (List Nat)) (hrun : FlushAll cluster = some duplicates) :
    (∀ (num_workers : Nat) (block : Block),
      (FlushAll.round2 num_workers block).length = num_workers ∧
      ∀ i < num_workers, (FlushAll.round2 num_workers block)[i]? = some block) ∧
    (∀ (num_workers : Nat) (duplicate_blocks : List Block), ∀ j < num_workers,
      CatStream.reader (duplicate_blocks.map (FlushAll.round2 num_workers)) j
        = duplicate_blocks) ∧
    duplicates.length = cluster.length ∧
    ∀ d ∈ duplicates, d = clusterDuplicates cluster ∧
      ∀ x, x ∈ d ↔ ∃ i < cluster.length, 2 ≤ (merged cluster i).count x := by
  obtain ⟨hd, _⟩ := FlushAll_some cluster duplicates hrun
  refine ⟨fun num_workers block => ⟨by simp [FlushAll.round2], fun i hi => ?_⟩,
    fun num_workers blocks j hj => reader_round2 blocks num_workers j hj,
    by rw [hd, List.length_replicate], fun d hdm => ?_⟩
  · simp [FlushAll.round2, hi]
  · rw [hd] at hdm
    have he := List.eq_of_mem_replicate hdm
    subst he
    exact ⟨rfl, mem_clusterDuplicates cluster⟩

/-- Witness of C12: three workers with the hashes 1, 2, 3, then 3, 4, 5, 1,
then 9; every worker ends with the duplicates 1, 3. -/
theorem C12_duplicates_broadcast_witness :
    (∀ (num_workers : Nat) (block : Block),
      (FlushAll.round2 num_workers block).length = num_workers ∧
      ∀ i < num_workers, (FlushAll.round2 num_workers block)[i]? = some block) ∧
    (∀ (num_workers : Nat) (duplicate_blocks : List Block), ∀ j < num_workers,
      CatStream.reader (duplicate_blocks.map (FlushAll.round2 num_workers)) j
        = duplicate_blocks) ∧
    [[1, 3], [1, 3], [1, 3]].length
      = [(⟨[1, 2, 3], 3, 3⟩ : ReducePreStage), ⟨[3, 4, 5, 1], 4, 4⟩, ⟨[9], 1, 1⟩].length ∧
    ∀ d ∈ [[1, 3], [1, 3], [1, 3]],
      d = clusterDuplicates [⟨[1, 2, 3], 3, 3⟩, ⟨[3, 4, 5, 1], 4, 4⟩, ⟨[9], 1, 1⟩] ∧
      ∀ x, x ∈ d ↔ ∃ i < [(⟨[1, 2, 3], 3, 3⟩ : ReducePreStage), ⟨[3, 4, 5, 1], 4, 4⟩,
          ⟨[9], 1, 1⟩].length,
        2 ≤ (merged [⟨[1, 2, 3], 3, 3⟩, ⟨[3, 4, 5, 1], 4, 4⟩, ⟨[9], 1, 1⟩] i).count x :=
  C12_duplicates_broadcast [⟨[1, 2, 3], 3, 3⟩, ⟨[3, 4, 5, 1], 4, 4⟩, ⟨[9], 1, 1⟩]
    [[1, 3], [1, 3], [1, 3]] (by decide)

/-- C13 (sorted duplicate list): for every number of workers and every input,
whenever the protocol completes, the duplicate list every worker decodes in
round 2 from the blocks of all range owners, read in sender order, is sorted
ascending (strictly: no value occurs twice). -/
theorem C13_duplicates_sorted (cluster : List ReducePreStage)
    (duplicates : List (List Nat)) (hrun : FlushAll cluster = some duplicates) :
    ∀ d ∈ duplicates, List.Sorted (fun x y => x < y) d ∧ List.Sorted (fun x y => x ≤ y) d := by
  obtain ⟨hd, _⟩ := FlushAll_some cluster duplicates hrun
  intro d hdm
  rw [hd] at hdm
  have he := List.eq_of_mem_replicate hdm
  subst he
  exact ⟨clusterDuplicates_sorted cluster,
    List.Sorted.le_of_lt (clusterDuplicates_sorted cluster)⟩

/-- Witness of C13: four workers with six unique keys (`max_hash = 48`); the
duplicates 0 and 7 both lie in the range `[0, 12)` of owner 0, and every
worker decodes the list 0, 7. -/
theorem C13_duplicates_sorted_witness :
    FlushAll [⟨[0], 1, 1⟩, ⟨[0], 1, 1⟩, ⟨[16, 7], 2, 2⟩, ⟨[23, 7], 2, 2⟩]
      = some [[0, 7], [0, 7], [0, 7], [0, 7]] ∧
    List.Sorted (fun x y => x < y) [0, 7] ∧ List.Sorted (fun x y => x ≤ y) [0, 7] :=
  ⟨by decide,
    C13_duplicates_sorted [⟨[0], 1, 1⟩, ⟨[0], 1, 1⟩, ⟨[16, 7], 2, 2⟩, ⟨[23, 7], 2, 2⟩]
      [[0, 7], [0, 7], [0, 7], [0, 7]] (by decide) [0, 7] (by decide)⟩

/-! ## The emitter -/

theorem increment_length (i : Nat) (l : List Nat) : (increment i l).length = l.length := by
  induction l generalizing i with
  | nil => cases i <;> simp [increment]
  | cons a l ih =>
    rcases i with _ | i
    · simp [increment]
    · simp [increment, ih]

theorem increment_getElem? (i j : Nat) (l : List Nat) :
    (increment i l)[j]? = if j = i then l[j]?.map (fun c => c + 1) else l[j]? := by
  induction l generalizing i j with
  | nil => simp [increment]
  | cons a l ih =>
    rcases i with _ | i
    · rcases j with _ | j
      · simp [increment]
      · simp [increment]
    · rcases j with _ | j
      · simp [increment]
      · simp [increment, ih]

theorem put_eq_some {Key Value : Type} (vk : Bool) (p : Key × Value)
    (writer : DynBlockWriter Key Value) (hopen : writer.closed = false) :
    ReducePreStageEmitterSwitch.Put vk p writer =
      some { writer with items := writer.items ++
        [recordOf vk p] } := by
  cases vk <;> simp [ReducePreStageEmitterSwitch.Put, DynBlockWriter.Put, hopen, recordOf]

theorem put_some_iff {Key Value : Type} (vk : Bool) (p : Key × Value)
    (writer writer' : DynBlockWriter Key Value)
    (h : ReducePreStageEmitterSwitch.Put vk p writer = some writer') :
    writer.closed = false ∧ writer' = { writer with items := writer.items ++
        [recordOf vk p] } := by
  have hcases : writer.closed = false ∨ writer.closed = true := by
    cases writer.closed <;> simp
  rcases hcases with hc | hc
  · rw [put_eq_some vk p writer hc] at h
    exact ⟨hc, (Option.some.inj h).symm⟩
  · cases vk <;> simp [ReducePreStageEmitterSwitch.Put, DynBlockWriter.Put, hc] at h

/-- The effect of one successful `Emit`. -/
theorem emit_ok {Key Value : Type} (self self' : ReducePreStageEmitter Key Value)
    (partition_id : Nat) (p : Key × Value)
    (h : self.Emit partition_id p = Outcome.ok self') :
    ∃ writer, self.writer_[partition_id]? = some writer ∧ writer.closed = false ∧
      self' = { VolatileKey := self.VolatileKey,
                writer_ := self.writer_.set partition_id
                  { writer with items := writer.items ++
                    [recordOf self.VolatileKey p] },
                stats_ := increment partition_id self.stats_ } := by
  unfold ReducePreStageEmitter.Emit at h
  split at h
  · exact Outcome.noConfusion h
  · rename_i writer hw
    simp only [] at h
    split at h
    · exact Outcome.noConfusion h
    · rename_i writer' hput
      obtain ⟨hopen, rfl⟩ := put_some_iff _ _ _ _ hput
      refine ⟨writer, hw, hopen, ?_⟩
      injection h with h
      exact h.symm

theorem emit_of_open {Key Value : Type} (self : ReducePreStageEmitter Key Value)
    (partition_id : Nat) (p : Key × Value) (writer : DynBlockWriter Key Value)
    (hget : self.writer_[partition_id]? = some writer) (hopen : writer.closed = false) :
    self.Emit partition_id p = Outcome.ok
      { VolatileKey := self.VolatileKey,
        writer_ := self.writer_.set partition_id
          { writer with items := writer.items ++
            [recordOf self.VolatileKey p] },
        stats_ := increment partition_id self.stats_ } := by
  unfold ReducePreStageEmitter.Emit
  rw [hget]
  simp only [put_eq_some self.VolatileKey p writer hopen]

theorem emitSequence_counts {Key Value : Type} (calls : List (Nat × (Key × Value)))
    (self final : ReducePreStageEmitter Key Value)
    (hstats : self.stats_.length = self.writer_.length)
    (hrun : ReducePreStageEmitter.emitSequence calls self = some final) :
    final.stats_.length = final.writer_.length ∧
    final.writer_.length = self.writer_.length ∧
    ∀ (i : Nat) (writer : DynBlockWriter Key Value) (count : Nat),
      self.writer_[i]? = some writer → self.stats_[i]? = some count →
      ∃ appended : List (Record Key Value), final.writer_[i]? = some { writer with items := writer.items ++ appended } ∧
        final.stats_[i]? = some (count + appended.length) := by
  induction calls generalizing self with
  | nil =>
    simp only [ReducePreStageEmitter.emitSequence] at hrun
    have he := Option.some.inj hrun
    subst he
    refine ⟨hstats, rfl, fun i writer count hw hc => ⟨[], ?_, ?_⟩⟩
    · rw [hw]
      simp
    · rw [hc]
      simp
  | cons call rest ih =>
    obtain ⟨pid, p⟩ := call
    rw [ReducePreStageEmitter.emitSequence] at hrun
    simp only [] at hrun
    split at hrun
    · rename_i self' hemit
      obtain ⟨w, hw, hopen, rfl⟩ := emit_ok self self' pid p hemit
      obtain ⟨h1, h2, h3⟩ := ih _ (by simp [increment_length, hstats]) hrun
      refine ⟨h1, by simpa using h2, fun i writer count hwi hci => ?_⟩
      by_cases hi : i = pid
      · subst hi
        have hlt : i < self.writer_.length := by
          rcases Nat.lt_or_ge i self.writer_.length with h | h
          · exact h
          · rw [List.getElem?_eq_none h] at hwi
            exact Option.noConfusion hwi
        rw [hw] at hwi
        have hww := Option.some.inj hwi
        subst hww
        obtain ⟨appended, ha, hb⟩ := h3 i
          { w with items := w.items ++ [recordOf self.VolatileKey p] } (count + 1)
          (by simp [List.getElem?_set_self hlt])
          (by simp [increment_getElem?, hci])
        refine ⟨recordOf self.VolatileKey p :: appended, ?_, ?_⟩
        · rw [ha]
          simp
        · rw [hb]
          simp
          omega
      · obtain ⟨appended, ha, hb⟩ := h3 i writer count
          (by simp only []; rw [List.getElem?_set_ne (Ne.symm hi)]; exact hwi)
          (by simp [increment_getElem?, hi, hci])
        exact ⟨appended, ha, hb⟩
    · exact Option.noConfusion hrun

/-- C20 (frame of `Emit`): for every `partition_id` below the number of
writers whose writer is open, `Emit(partition_id, p)` succeeds, appends
exactly one record to writer `partition_id`, increments `stats_[partition_id]`
by exactly 1 and leaves every other writer and every other counter as they
were; hence after any sequence of `Emit` calls on a newly constructed emitter
`stats_[i]` is the number of records appended to writer `i`. -/
theorem C20_emit_frame {Key Value : Type} (self : ReducePreStageEmitter Key Value)
    (partition_id : Nat) (p : Key × Value) (writer : DynBlockWriter Key Value)
    (VolatileKey : Bool) (writers : List (DynBlockWriter Key Value))
    (calls : List (Nat × (Key × Value))) (final : ReducePreStageEmitter Key Value)
    (hget : self.writer_[partition_id]? = some writer) (hopen : writer.closed = false)
    (hstats : self.stats_.length = self.writer_.length)
    (hrun : ReducePreStageEmitter.emitSequence calls
      (ReducePreStageEmitter.create VolatileKey writers) = some final) :
    (partition_id < self.writer_.length ∧
      ∃ self' record, self.Emit partition_id p = Outcome.ok self' ∧
        self'.writer_[partition_id]?
          = some { writer with items := writer.items ++ [record] } ∧
        self'.stats_[partition_id]? = some (self.stats_.getD partition_id 0 + 1) ∧
        self'.writer_.length = self.writer_.length ∧
        self'.stats_.length = self.stats_.length ∧
        ∀ j, j ≠ partition_id →
          self'.writer_[j]? = self.writer_[j]? ∧ self'.stats_[j]? = self.stats_[j]?) ∧
    (final.writer_.length = writers.length ∧
      ∀ (i : Nat) (w : DynBlockWriter Key Value), writers[i]? = some w →
        ∃ appended : List (Record Key Value), final.writer_[i]? = some { w with items := w.items ++ appended } ∧
          final.stats_[i]? = some appended.length) := by
  have hlt : partition_id < self.writer_.length := by
    rcases Nat.lt_or_ge partition_id self.writer_.length with h | h
    · exact h
    · rw [List.getElem?_eq_none h] at hget
      exact Option.noConfusion hget
  refine ⟨⟨hlt, _, recordOf self.VolatileKey p,
    emit_of_open self partition_id p writer hget hopen, ?_, ?_, ?_, ?_, ?_⟩, ?_⟩
  · simp [List.getElem?_set_self hlt]
  · have hs : partition_id < self.stats_.length := by omega
    simp [increment_getElem?, List.getElem?_eq_getElem hs]
  · simp
  · simp [increment_length]
  · intro j hj
    refine ⟨?_, ?_⟩
    · simp only []
      rw [List.getElem?_set_ne (Ne.symm hj)]
    · simp [increment_getElem?, hj]
  · obtain ⟨_, h2, h3⟩ := emitSequence_counts calls
      (ReducePreStageEmitter.create VolatileKey writers) final
      (by simp [ReducePreStageEmitter.create]) hrun
    refine ⟨h2, fun i w hw => ?_⟩
    have hlt' : i < writers.length := by
      rcases Nat.lt_or_ge i writers.length with h | h
      · exact h
      · rw [List.getElem?_eq_none h] at hw
        exact Option.noConfusion hw
    obtain ⟨appended, ha, hb⟩ := h3 i w 0 hw
      (by simp [ReducePreStageEmitter.create, hlt'])
    exact ⟨appended, ha, by simpa using hb⟩

theorem C20_emit_frame_witness :
    (1 < (ReducePreStageEmitter.create false
        [(⟨[], 0, false⟩ : DynBlockWriter Nat Nat), ⟨[], 0, false⟩]).writer_.length ∧
      ∃ self' record,
        (ReducePreStageEmitter.create false
          [(⟨[], 0, false⟩ : DynBlockWriter Nat Nat), ⟨[], 0, false⟩]).Emit 1 (7, 9)
            = Outcome.ok self' ∧
        self'.writer_[1]? = some ⟨[] ++ [record], 0, false⟩ ∧
        self'.stats_[1]? = some ((ReducePreStageEmitter.create false
          [(⟨[], 0, false⟩ : DynBlockWriter Nat Nat), ⟨[], 0, false⟩]).stats_.getD 1 0 + 1) ∧
        self'.writer_.length = (ReducePreStageEmitter.create false
          [(⟨[], 0, false⟩ : DynBlockWriter Nat Nat), ⟨[], 0, false⟩]).writer_.length ∧
        self'.stats_.length = (ReducePreStageEmitter.create false
          [(⟨[], 0, false⟩ : DynBlockWriter Nat Nat), ⟨[], 0, false⟩]).stats_.length ∧
        ∀ j, j ≠ 1 →
          self'.writer_[j]? = (ReducePreStageEmitter.create false
            [(⟨[], 0, false⟩ : DynBlockWriter Nat Nat), ⟨[], 0, false⟩]).writer_[j]? ∧
          self'.stats_[j]? = (ReducePreStageEmitter.create false
            [(⟨[], 0, false⟩ : DynBlockWriter Nat Nat), ⟨[], 0, false⟩]).stats_[j]?) ∧
    ((⟨true, [⟨[Record.pair (1, 2), Record.pair (5, 6)], 0, false⟩,
        ⟨[Record.pair (3, 4)], 0, false⟩], [2, 1]⟩
        : ReducePreStageEmitter Nat Nat).writer_.length
        = [(⟨[], 0, false⟩ : DynBlockWriter Nat Nat), ⟨[], 0, false⟩].length ∧
      ∀ (i : Nat) (w : DynBlockWriter Nat Nat),
        [(⟨[], 0, false⟩ : DynBlockWriter Nat Nat), ⟨[], 0, false⟩][i]? = some w →
        ∃ appended : List (Record Nat Nat),
          (⟨true, [⟨[Record.pair (1, 2), Record.pair (5, 6)], 0, false⟩,
            ⟨[Record.pair (3, 4)], 0, false⟩], [2, 1]⟩
            : ReducePreStageEmitter Nat Nat).writer_[i]?
              = some { w with items := w.items ++ appended } ∧
          (⟨true, [⟨[Record.pair (1, 2), Record.pair (5, 6)], 0, false⟩,
            ⟨[Record.pair (3, 4)], 0, false⟩], [2, 1]⟩
            : ReducePreStageEmitter Nat Nat).stats_[i]? = some appended.length) :=
  C20_emit_frame
    (ReducePreStageEmitter.create false [⟨[], 0, false⟩, ⟨[], 0, false⟩]) 1 (7, 9)
    ⟨[], 0, false⟩ true [⟨[], 0, false⟩, ⟨[], 0, false⟩]
    [(0, (1, 2)), (1, (3, 4)), (0, (5, 6))]
    ⟨true, [⟨[Record.pair (1, 2), Record.pair (5, 6)], 0, false⟩,
      ⟨[Record.pair (3, 4)], 0, false⟩], [2, 1]⟩
    (by decide) (by decide) (by decide) (by decide)

/-! ## Flushing a partition -/

theorem getElem?_lt_of_some {α : Type} (l : List α) (i : Nat) (a : α) (h : l[i]? = some a) :
    i < l.length := by
  rcases Nat.lt_or_ge i l.length with hlt | hge
  · exact hlt
  · rw [List.getElem?_eq_none hge] at h
    exact Option.noConfusion h

theorem set_nil_of_getD_nil {α : Type} (l : List (List α)) (i : Nat) (h : l.getD i [] = []) :
    l.set i [] = l := by
  apply List.ext_getElem?
  intro j
  by_cases hj : i = j
  · subst hj
    rcases Nat.lt_or_ge i l.length with hlt | hge
    · rw [List.getElem?_set_self hlt]
      rw [List.getD_eq_getElem?_getD, List.getElem?_eq_getElem hlt] at h
      rw [List.getElem?_eq_getElem hlt]
      simp only [Option.getD_some] at h
      rw [h]
    · rw [List.set_eq_of_length_le hge]
  · rw [List.getElem?_set_ne hj]

theorem getD_set_self_nil {α : Type} (l : List (List α)) (i : Nat) :
    (l.set i []).getD i [] = [] := by
  rw [List.getD_eq_getElem?_getD]
  rcases Nat.lt_or_ge i l.length with hlt | hge
  · rw [List.getElem?_set_self hlt]
    rfl
  · rw [List.getElem?_eq_none (by simpa using hge)]
    rfl

theorem emitAll_some {Key Value : Type} (partition_id : Nat) (kvs : List (Key × Value))
    (self self' : ReducePreStageEmitter Key Value)
    (h : ReducePreStageEmitter.emitAll partition_id kvs self = some self') :
    self'.VolatileKey = self.VolatileKey ∧
    self'.writer_.length = self.writer_.length ∧
    self'.stats_.length = self.stats_.length ∧
    (∀ j, j ≠ partition_id →
      self'.writer_[j]? = self.writer_[j]? ∧ self'.stats_[j]? = self.stats_[j]?) ∧
    (∀ w : DynBlockWriter Key Value, self.writer_[partition_id]? = some w →
      self'.writer_[partition_id]?
        = some { w with items := w.items ++ kvs.map (recordOf self.VolatileKey) }) ∧
    self'.stats_[partition_id]?
      = (self.stats_[partition_id]?).map (fun c => c + kvs.length) := by
  induction kvs generalizing self with
  | nil =>
    simp only [ReducePreStageEmitter.emitAll] at h
    have he := Option.some.inj h
    subst he
    refine ⟨rfl, rfl, rfl, fun j _ => ⟨rfl, rfl⟩, fun w hw => ?_, ?_⟩
    · rw [hw]
      simp
    · cases self.stats_[partition_id]? <;> simp
  | cons p rest ih =>
    rw [ReducePreStageEmitter.emitAll] at h
    split at h
    · rename_i mid hemit
      obtain ⟨w, hw, hopen, rfl⟩ := emit_ok self mid partition_id p hemit
      have hlt := getElem?_lt_of_some _ _ _ hw
      obtain ⟨h1, h2, h3, h4, h5, h6⟩ := ih _ h
      refine ⟨h1, by simpa using h2, by simpa [increment_length] using h3, fun j hj => ?_,
        fun w' hw' => ?_, ?_⟩
      · obtain ⟨ha, hb⟩ := h4 j hj
        refine ⟨?_, ?_⟩
        · rw [ha]
          simp only []
          rw [List.getElem?_set_ne (Ne.symm hj)]
        · rw [hb]
          simp [increment_getElem?, hj]
      · rw [hw] at hw'
        have hww := Option.some.inj hw'
        subst hww
        rw [h5 { w with items := w.items ++ [recordOf self.VolatileKey p] }
          (by simp [List.getElem?_set_self hlt])]
        simp
      · rw [h6]
        simp only [increment_getElem?, if_true]
        cases self.stats_[partition_id]? <;> simp
        omega
    · exact Option.noConfusion h

theorem emitAll_open {Key Value : Type} (partition_id : Nat) (kvs : List (Key × Value))
    (self : ReducePreStageEmitter Key Value) (w : DynBlockWriter Key Value)
    (hw : self.writer_[partition_id]? = some w) (hopen : w.closed = false) :
    ∃ self', ReducePreStageEmitter.emitAll partition_id kvs self = some self' := by
  induction kvs generalizing self w with
  | nil => exact ⟨self, rfl⟩
  | cons p rest ih =>
    rw [ReducePreStageEmitter.emitAll, emit_of_open self partition_id p w hw hopen]
    have hlt := getElem?_lt_of_some _ _ _ hw
    exact ih _ { w with items := w.items ++ [recordOf self.VolatileKey p] }
      (by simp [List.getElem?_set_self hlt]) hopen

/-- What the table yields for a partition and what the stage reads back from
its file add up to the live items followed by the spilled ones, whatever
`consume`. -/
theorem flushed_and_read {Key Value : Type} (table : ReduceTable Key Value) (partition_id : Nat)
    (consume : Bool) :
    (table.FlushPartition partition_id consume).1 ++
      (if (table.FlushPartition partition_id consume).2.has_spilled_data_on_partition
            partition_id then
          (table.FlushPartition partition_id consume).2.readFile partition_id
        else ([], (table.FlushPartition partition_id consume).2)).1
      = table.items.getD partition_id [] ++ table.partition_files.getD partition_id [] ∧
    (if (table.FlushPartition partition_id consume).2.has_spilled_data_on_partition
            partition_id then
          (table.FlushPartition partition_id consume).2.readFile partition_id
        else ([], (table.FlushPartition partition_id consume).2)).2
      = { table with
          items := table.items.set partition_id [],
          partition_files := table.partition_files.set partition_id [] } := by
  have key : ∀ t : ReduceTable Key Value,
      (if t.has_spilled_data_on_partition partition_id then t.readFile partition_id
        else ([], t))
        = (t.partition_files.getD partition_id [],
            { t with partition_files := t.partition_files.set partition_id [] }) := by
    intro t
    unfold ReduceTable.has_spilled_data_on_partition ReduceTable.readFile
    by_cases hfile : t.partition_files.getD partition_id [] = []
    · rw [hfile, set_nil_of_getD_nil _ _ hfile]
      rfl
    · have hne : (!(t.partition_files.getD partition_id []).isEmpty) = true := by
        cases hf : t.partition_files.getD partition_id [] with
        | nil => exact absurd hf hfile
        | cons a l => rfl
      rw [if_pos hne]
  rw [key]
  cases consume
  · exact ⟨rfl, rfl⟩
  · simp only [ReduceTable.FlushPartition]
    rw [getD_set_self_nil, List.append_nil, List.set_set]
    exact ⟨rfl, rfl⟩

theorem flushPartition_some {Key Value : Type} (self self' : PreStage Key Value)
    (partition_id : Nat) (consume : Bool)
    (h : self.FlushPartition partition_id consume = some self') :
    ∃ w : DynBlockWriter Key Value, self.emit_.writer_[partition_id]? = some w ∧
      self'.emit_.writer_[partition_id]? = some
        { items := w.items ++ (self.table_.items.getD partition_id [] ++
            self.table_.partition_files.getD partition_id []).map
              (recordOf self.emit_.VolatileKey),
          flushed := (w.items ++ (self.table_.items.getD partition_id [] ++
            self.table_.partition_files.getD partition_id []).map
              (recordOf self.emit_.VolatileKey)).length,
          closed := w.closed } ∧
      self'.emit_.stats_[partition_id]? = (self.emit_.stats_[partition_id]?).map
        (fun c => c + (self.table_.items.getD partition_id [] ++
            self.table_.partition_files.getD partition_id []).length) ∧
      (∀ j, j ≠ partition_id →
        self'.emit_.writer_[j]? = self.emit_.writer_[j]? ∧
        self'.emit_.stats_[j]? = self.emit_.stats_[j]?) ∧
      self'.emit_.writer_.length = self.emit_.writer_.length ∧
      self'.emit_.stats_.length = self.emit_.stats_.length ∧
      self'.emit_.VolatileKey = self.emit_.VolatileKey ∧
      self'.table_ = { self.table_ with
        items := self.table_.items.set partition_id [],
        partition_files := self.table_.partition_files.set partition_id [] } ∧
      self'.counters = self.counters := by
  obtain ⟨hyield, htable⟩ := flushed_and_read self.table_ partition_id consume
  unfold PreStage.FlushPartition at h
  simp only [] at h
  split at h
  · exact Option.noConfusion h
  · rename_i emit1 h1
    split at h
    · exact Option.noConfusion h
    · rename_i emit2 h2
      split at h
      · exact Option.noConfusion h
      · rename_i emit3 h3
        have hs := Option.some.inj h
        subst hs
        obtain ⟨a1, a2, a3, a4, a5, a6⟩ := emitAll_some _ _ _ _ h1
        obtain ⟨b1, b2, b3, b4, b5, b6⟩ := emitAll_some _ _ _ _ h2
        unfold ReducePreStageEmitter.Flush at h3
        split at h3
        · exact Option.noConfusion h3
        · rename_i w2 hw2
          have hs := Option.some.inj h3
          subst hs
          have hlt2 := getElem?_lt_of_some _ _ _ hw2
          have hlt : partition_id < self.emit_.writer_.length := by omega
          have hw := List.getElem?_eq_getElem hlt
          have hw1 := a5 _ hw
          have hw2' := b5 _ hw1
          rw [hw2] at hw2'
          have hw2eq := Option.some.inj hw2'
          refine ⟨_, hw, ?_, ?_, fun j hj => ?_, ?_, ?_, ?_, ?_, rfl⟩
          · simp only []
            rw [List.getElem?_set_self hlt2, hw2eq, a1]
            simp only [DynBlockWriter.Flush, List.append_assoc, ← List.map_append, hyield]
          · simp only []
            rw [b6, a6]
            cases self.emit_.stats_[partition_id]? with
            | none => rfl
            | some c =>
              simp only [Option.map_some']
              rw [Nat.add_assoc, ← List.length_append, hyield]
          · simp only []
            rw [List.getElem?_set_ne (Ne.symm hj), (b4 j hj).1, (a4 j hj).1, (b4 j hj).2,
              (a4 j hj).2]
            exact ⟨rfl, rfl⟩
          · simp only [List.length_set]
            omega
          · simp only []
            omega
          · simp only []
            rw [b1, a1]
          · exact htable

theorem flushPartition_open {Key Value : Type} (self : PreStage Key Value)
    (partition_id : Nat) (consume : Bool) (w : DynBlockWriter Key Value)
    (hw : self.emit_.writer_[partition_id]? = some w) (hopen : w.closed = false) :
    ∃ self', self.FlushPartition partition_id consume = some self' := by
  obtain ⟨emit1, h1⟩ := emitAll_open partition_id
    (self.table_.FlushPartition partition_id consume).1 self.emit_ w hw hopen
  obtain ⟨_, _, _, _, a5, _⟩ := emitAll_some _ _ _ _ h1
  obtain ⟨emit2, h2⟩ := emitAll_open partition_id
    (if (self.table_.FlushPartition partition_id consume).2.has_spilled_data_on_partition
            partition_id then
          (self.table_.FlushPartition partition_id consume).2.readFile partition_id
        else ([], (self.table_.FlushPartition partition_id consume).2)).1
    emit1 _ (a5 w hw) hopen
  obtain ⟨_, _, _, _, b5, _⟩ := emitAll_some _ _ _ _ h2
  unfold PreStage.FlushPartition
  simp only [h1, h2, ReducePreStageEmitter.Flush, b5 _ (a5 w hw)]
  exact ⟨_, rfl⟩

theorem allSome_eq_some {α : Type} (l : List (Option α)) (r : List α)
    (h : allSome l = some r) : l = r.map some := by
  induction l generalizing r with
  | nil =>
    simp only [allSome] at h
    have hr := Option.some.inj h
    subst hr
    rfl
  | cons a l ih =>
    cases a with
    | none => exact Option.noConfusion h
    | some a =>
      rw [allSome] at h
      split at h
      · exact Option.noConfusion h
      · rename_i as has
        have hr := Option.some.inj h
        subst hr
        rw [ih as has]
        rfl

theorem flushLoop_eq {Key Value : Type} (n id : Nat) (self : PreStage Key Value) :
    PreStage.flushLoop n id self
      = List.foldlM (fun s i => PreStage.FlushPartition s i true) self (List.range' id n) := by
  induction n generalizing id self with
  | zero => rfl
  | succ n ih =>
    rw [PreStage.flushLoop, List.range'_succ, List.foldlM_cons]
    cases h : self.FlushPartition id true with
    | none => rfl
    | some s =>
      simp only []
      rw [ih]
      rfl

/-- C18 (as the code has it): `FlushPartition(id, consume)`, on a stage whose
writer `id` is open, hands to the emitter all in-memory items of partition
`id` followed by all previously spilled items of that partition, each once,
whatever `consume`; afterwards the partition has no live item, its spill file
is consumed, and writer `id` is flushed. The outcome does not depend on
`consume`. -/
theorem C18_flush_partition {Key Value : Type} (self : PreStage Key Value)
    (partition_id : Nat) (consume : Bool) (w : DynBlockWriter Key Value)
    (hw : self.emit_.writer_[partition_id]? = some w) (hopen : w.closed = false) :
    ∃ self', self.FlushPartition partition_id consume = some self' ∧
      self'.emit_.writer_[partition_id]? = some
        { items := w.items ++ (self.table_.items.getD partition_id [] ++
            self.table_.partition_files.getD partition_id []).map
              (recordOf self.emit_.VolatileKey),
          flushed := (w.items ++ (self.table_.items.getD partition_id [] ++
            self.table_.partition_files.getD partition_id []).map
              (recordOf self.emit_.VolatileKey)).length,
          closed := false } ∧
      self'.table_.items.getD partition_id [] = [] ∧
      self'.table_.partition_files.getD partition_id [] = [] ∧
      self'.table_.has_spilled_data_on_partition partition_id = false ∧
      self.FlushPartition partition_id true = some self' ∧
      self.FlushPartition partition_id false = some self' := by
  have hemit : ∀ c c' s s', self.FlushPartition partition_id c = some s →
      self.FlushPartition partition_id c' = some s' → s = s' := by
    intro c c' s s' h h'
    obtain ⟨w1, g1, g2, g3, g4, g5, g6, g7, g8, g9⟩ :=
      flushPartition_some self s partition_id c h
    obtain ⟨w2, k1, k2, k3, k4, k5, k6, k7, k8, k9⟩ :=
      flushPartition_some self s' partition_id c' h'
    have hwr : s.emit_.writer_ = s'.emit_.writer_ := by
      apply List.ext_getElem?
      intro j
      by_cases hj : j = partition_id
      · subst hj
        rw [g1] at k1
        have hww := Option.some.inj k1
        subst hww
        rw [g2, k2]
      · rw [(g4 j hj).1, (k4 j hj).1]
    have hst : s.emit_.stats_ = s'.emit_.stats_ := by
      apply List.ext_getElem?
      intro j
      by_cases hj : j = partition_id
      · subst hj
        rw [g3, k3]
      · rw [(g4 j hj).2, (k4 j hj).2]
    obtain ⟨⟨vk, wr, st⟩, tb, ct⟩ := s
    obtain ⟨⟨vk', wr', st'⟩, tb', ct'⟩ := s'
    simp only [] at hwr hst g7 k7 g8 k8 g9 k9
    rw [hwr, hst, g7, k7, g8, k8, g9, k9]
  obtain ⟨self', h⟩ := flushPartition_open self partition_id consume w hw hopen
  obtain ⟨st, ht⟩ := flushPartition_open self partition_id true w hw hopen
  obtain ⟨sf, hf⟩ := flushPartition_open self partition_id false w hw hopen
  obtain ⟨w1, g1, g2, _, _, _, _, _, g8, _⟩ := flushPartition_some self self' partition_id
    consume h
  rw [hw] at g1
  have hww := Option.some.inj g1
  subst hww
  refine ⟨self', h, ?_, ?_, ?_, ?_, ?_, ?_⟩
  · rw [g2, hopen]
  · rw [g8]
    exact getD_set_self_nil _ _
  · rw [g8]
    exact getD_set_self_nil _ _
  · unfold ReduceTable.has_spilled_data_on_partition
    rw [g8]
    simp only []
    rw [getD_set_self_nil]
    rfl
  · rw [ht, hemit true consume st self' ht h]
  · rw [hf, hemit false consume sf self' hf h]

theorem C18_flush_partition_witness :
    ∃ self', (⟨⟨true, [⟨[], 0, false⟩, ⟨[], 0, false⟩], [0, 0]⟩,
        ⟨some 2, [[(1, 1)], [(2, 5)]], [[], [(2, 1), (3, 1)]]⟩,
        ⟨[1, 2, 3, 2], 4, 4⟩⟩ : PreStage Nat Nat).FlushPartition 1 false = some self' ∧
      self'.emit_.writer_[1]? = some
        { items := [] ++ ([(2, 5)] ++ [(2, 1), (3, 1)]).map (recordOf true),
          flushed := ([] ++ ([(2, 5)] ++ [(2, 1), (3, 1)]).map
            (@recordOf Nat Nat true)).length,
          closed := false } ∧
      self'.table_.items.getD 1 [] = [] ∧
      self'.table_.partition_files.getD 1 [] = [] ∧
      self'.table_.has_spilled_data_on_partition 1 = false ∧
      (⟨⟨true, [⟨[], 0, false⟩, ⟨[], 0, false⟩], [0, 0]⟩,
        ⟨some 2, [[(1, 1)], [(2, 5)]], [[], [(2, 1), (3, 1)]]⟩,
        ⟨[1, 2, 3, 2], 4, 4⟩⟩ : PreStage Nat Nat).FlushPartition 1 true = some self' ∧
      (⟨⟨true, [⟨[], 0, false⟩, ⟨[], 0, false⟩], [0, 0]⟩,
        ⟨some 2, [[(1, 1)], [(2, 5)]], [[], [(2, 1), (3, 1)]]⟩,
        ⟨[1, 2, 3, 2], 4, 4⟩⟩ : PreStage Nat Nat).FlushPartition 1 false = some self' :=
  C18_flush_partition
    ⟨⟨true, [⟨[], 0, false⟩, ⟨[], 0, false⟩], [0, 0]⟩,
      ⟨some 2, [[(1, 1)], [(2, 5)]], [[], [(2, 1), (3, 1)]]⟩, ⟨[1, 2, 3, 2], 4, 4⟩⟩
    1 false ⟨[], 0, false⟩ (by decide) (by decide)

/-- C18 (counterexample to the claim as stated): a stage with two partitions
and a working-set bound of 2 items receives the pairs (1,1), (2,1), (3,1);
the third insert spills partition 1, whose file then holds (2,1) and (3,1).
`FlushPartition(1, false)` emits both spilled records to writer 1 and leaves
the spill file empty. -/
theorem C18_counterexample :
    (PreStage.create true 2 [(⟨[], 0, false⟩ : DynBlockWriter Nat Nat), ⟨[], 0, false⟩]).map
        (fun stage => [Inserted.pair (1, 1), Inserted.pair (2, 1), Inserted.pair (3, 1)].foldl
          (PreStage.insert ⟨fun v => v, fun a b => a + b, fun k => k / 2⟩ (fun k => k))
          (stage.Initialize 2))
      = some ⟨⟨true, [⟨[], 0, false⟩, ⟨[], 0, false⟩], [0, 0]⟩,
          ⟨some 2, [[(1, 1)], []], [[], [(2, 1), (3, 1)]]⟩, ⟨[1, 2, 3], 3, 3⟩⟩ ∧
    (⟨⟨true, [⟨[], 0, false⟩, ⟨[], 0, false⟩], [0, 0]⟩,
        ⟨some 2, [[(1, 1)], []], [[], [(2, 1), (3, 1)]]⟩,
        ⟨[1, 2, 3], 3, 3⟩⟩ : PreStage Nat Nat).FlushPartition 1 false
      = some ⟨⟨true, [⟨[], 0, false⟩,
            ⟨[Record.pair (2, 1), Record.pair (3, 1)], 2, false⟩], [0, 2]⟩,
          ⟨some 2, [[(1, 1)], []], [[], []]⟩, ⟨[1, 2, 3], 3, 3⟩⟩ := by
  decide

theorem flushPartitions_eq {Key Value : Type} (self : PreStage Key Value) :
    self.flushPartitions
      = List.foldlM (fun s id => PreStage.FlushPartition s id true) self
          (List.range self.table_.num_partitions) := by
  rw [PreStage.flushPartitions, flushLoop_eq, List.range_eq_range']

/-- C19 (partition flush of `FlushAll`): whenever `FlushAll` completes on a
cluster, the two protocol rounds have completed, and every worker has then
called `FlushPartition(id, true)` exactly once for every partition id in
`0 .. num_partitions-1`, in ascending order, on its stage with the projected
and sorted hashes; each call of `FlushPartition` keeps the number of
partitions, flushes the writer of that partition id and leaves every other
writer and every other emitter counter as it was. -/
theorem C19_flush_all_partitions {Key Value : Type} (cluster : List (PreStage Key Value))
    (results : List (PreStage Key Value × List Nat))
    (hrun : FlushAll.complete cluster = some results) :
    (∃ duplicates, FlushAll (cluster.map (fun w => w.counters)) = some duplicates ∧
      results.length = cluster.length ∧
      ∀ (i : Nat) (stage : PreStage Key Value), cluster[i]? = some stage →
        ∃ final d, results[i]? = some (final, d) ∧ duplicates[i]? = some d ∧
          List.foldlM (fun s id => PreStage.FlushPartition s id true)
            (stage.projected (AllReduce (cluster.map (fun w => w.counters.unique_elements_))))
            (List.range stage.table_.num_partitions) = some final) ∧
    (∀ (self self' : PreStage Key Value) (id : Nat) (consume : Bool),
      self.FlushPartition id consume = some self' →
        self'.table_.num_partitions = self.table_.num_partitions ∧
        (∃ w, self'.emit_.writer_[id]? = some w ∧ w.flushed = w.items.length) ∧
        self'.emit_.writer_.length = self.emit_.writer_.length ∧
        ∀ j, j ≠ id → self'.emit_.writer_[j]? = self.emit_.writer_[j]? ∧
          self'.emit_.stats_[j]? = self.emit_.stats_[j]?) := by
  refine ⟨?_, ?_⟩
  · unfold FlushAll.complete at hrun
    split at hrun
    · exact Option.noConfusion hrun
    · rename_i duplicates hdup
      obtain ⟨hrep, _⟩ := FlushAll_some _ _ hdup
      have hlen : duplicates.length = cluster.length := by
        rw [hrep]
        simp
      have hmap := allSome_eq_some _ _ hrun
      have hrl : results.length = cluster.length := by
        have := congrArg List.length hmap
        simp only [List.length_map, List.length_zip] at this
        omega
      refine ⟨duplicates, hdup, hrl, fun i stage hi => ?_⟩
      have hlt := getElem?_lt_of_some _ _ _ hi
      have hd : duplicates[i]? = some (duplicates[i]) := List.getElem?_eq_getElem (by omega)
      have hr : results[i]? = some (results[i]) := List.getElem?_eq_getElem (by omega)
      have hz : (cluster.zip duplicates)[i]? = some (stage, duplicates[i]) :=
        List.getElem?_zip_eq_some.mpr ⟨hi, hd⟩
      have hi' := congrArg (fun l => l[i]?) hmap
      simp only [List.getElem?_map, hz, hr, Option.map_some'] at hi'
      have hi'' : (match (stage.projected
            (AllReduce (cluster.map (fun w => w.counters.unique_elements_)))).flushPartitions with
          | none => none
          | some w => some (w, duplicates[i])) = some results[i] := Option.some.inj hi'
      cases hfp : (stage.projected
          (AllReduce (cluster.map (fun w => w.counters.unique_elements_)))).flushPartitions with
      | none =>
        rw [hfp] at hi''
        exact Option.noConfusion hi''
      | some final =>
        rw [hfp] at hi''
        have he := Option.some.inj hi''
        refine ⟨final, duplicates[i], ?_, hd, ?_⟩
        · rw [hr, ← he]
        · rw [← hfp, flushPartitions_eq]
          rfl
  · intro self self' id consume h
    obtain ⟨w, _, g2, _, g4, g5, _, _, g8, _⟩ := flushPartition_some self self' id consume h
    refine ⟨?_, ⟨_, g2, rfl⟩, g5, g4⟩
    rw [g8]
    simp [ReduceTable.num_partitions]

theorem C19_flush_all_partitions_witness :
    ∃ duplicates,
      FlushAll (List.map (fun w => w.counters)
        [(⟨⟨true, [⟨[], 0, false⟩, ⟨[], 0, false⟩], [0, 0]⟩,
          ⟨some 10, [[(1, 1)], [(2, 1), (3, 1)]], [[], []]⟩, ⟨[1, 2, 3], 3, 3⟩⟩ : PreStage Nat Nat),
        ⟨⟨true, [⟨[], 0, false⟩, ⟨[], 0, false⟩], [0, 0]⟩,
          ⟨some 10, [[(4, 1), (5, 1), (1, 1)], [(3, 1)]], [[], []]⟩, ⟨[3, 4, 5, 1], 4, 4⟩⟩]) = some duplicates ∧
      List.length
        [((⟨⟨true, [⟨[Record.pair (1, 1)], 1, false⟩,
            ⟨[Record.pair (2, 1), Record.pair (3, 1)], 2, false⟩], [1, 2]⟩,
          ⟨some 10, [[], []], [[], []]⟩, ⟨[1, 2, 3], 3, 3⟩⟩ : PreStage Nat Nat), [1, 3]),
        (⟨⟨true, [⟨[Record.pair (4, 1), Record.pair (5, 1), Record.pair (1, 1)], 3, false⟩,
            ⟨[Record.pair (3, 1)], 1, false⟩], [3, 1]⟩,
          ⟨some 10, [[], []], [[], []]⟩, ⟨[1, 3, 4, 5], 4, 4⟩⟩, [1, 3])]
        = List.length
        [(⟨⟨true, [⟨[], 0, false⟩, ⟨[], 0, false⟩], [0, 0]⟩,
          ⟨some 10, [[(1, 1)], [(2, 1), (3, 1)]], [[], []]⟩, ⟨[1, 2, 3], 3, 3⟩⟩ : PreStage Nat Nat),
        ⟨⟨true, [⟨[], 0, false⟩, ⟨[], 0, false⟩], [0, 0]⟩,
          ⟨some 10, [[(4, 1), (5, 1), (1, 1)], [(3, 1)]], [[], []]⟩, ⟨[3, 4, 5, 1], 4, 4⟩⟩] ∧
      ∀ (i : Nat) (stage : PreStage Nat Nat),
        [(⟨⟨true, [⟨[], 0, false⟩, ⟨[], 0, false⟩], [0, 0]⟩,
          ⟨some 10, [[(1, 1)], [(2, 1), (3, 1)]], [[], []]⟩, ⟨[1, 2, 3], 3, 3⟩⟩ : PreStage Nat Nat),
        ⟨⟨true, [⟨[], 0, false⟩, ⟨[], 0, false⟩], [0, 0]⟩,
          ⟨some 10, [[(4, 1), (5, 1), (1, 1)], [(3, 1)]], [[], []]⟩, ⟨[3, 4, 5, 1], 4, 4⟩⟩][i]? = some stage →
        ∃ final d,
          [((⟨⟨true, [⟨[Record.pair (1, 1)], 1, false⟩,
            ⟨[Record.pair (2, 1), Record.pair (3, 1)], 2, false⟩], [1, 2]⟩,
          ⟨some 10, [[], []], [[], []]⟩, ⟨[1, 2, 3], 3, 3⟩⟩ : PreStage Nat Nat), [1, 3]),
        (⟨⟨true, [⟨[Record.pair (4, 1), Record.pair (5, 1), Record.pair (1, 1)], 3, false⟩,
            ⟨[Record.pair (3, 1)], 1, false⟩], [3, 1]⟩,
          ⟨some 10, [[], []], [[], []]⟩, ⟨[1, 3, 4, 5], 4, 4⟩⟩, [1, 3])][i]? = some (final, d) ∧ duplicates[i]? = some d ∧
          List.foldlM (fun s id => PreStage.FlushPartition s id true)
            (stage.projected (AllReduce (List.map (fun w => w.counters.unique_elements_)
        [(⟨⟨true, [⟨[], 0, false⟩, ⟨[], 0, false⟩], [0, 0]⟩,
          ⟨some 10, [[(1, 1)], [(2, 1), (3, 1)]], [[], []]⟩, ⟨[1, 2, 3], 3, 3⟩⟩ : PreStage Nat Nat),
        ⟨⟨true, [⟨[], 0, false⟩, ⟨[], 0, false⟩], [0, 0]⟩,
          ⟨some 10, [[(4, 1), (5, 1), (1, 1)], [(3, 1)]], [[], []]⟩, ⟨[3, 4, 5, 1], 4, 4⟩⟩])))
            (List.range stage.table_.num_partitions) = some final :=
  (C19_flush_all_partitions
      [(⟨⟨true, [⟨[], 0, false⟩, ⟨[], 0, false⟩], [0, 0]⟩,
          ⟨some 10, [[(1, 1)], [(2, 1), (3, 1)]], [[], []]⟩, ⟨[1, 2, 3], 3, 3⟩⟩ : PreStage Nat Nat),
        ⟨⟨true, [⟨[], 0, false⟩, ⟨[], 0, false⟩], [0, 0]⟩,
          ⟨some 10, [[(4, 1), (5, 1), (1, 1)], [(3, 1)]], [[], []]⟩, ⟨[3, 4, 5, 1], 4, 4⟩⟩]
      [((⟨⟨true, [⟨[Record.pair (1, 1)], 1, false⟩,
            ⟨[Record.pair (2, 1), Record.pair (3, 1)], 2, false⟩], [1, 2]⟩,
          ⟨some 10, [[], []], [[], []]⟩, ⟨[1, 2, 3], 3, 3⟩⟩ : PreStage Nat Nat), [1, 3]),
        (⟨⟨true, [⟨[Record.pair (4, 1), Record.pair (5, 1), Record.pair (1, 1)], 3, false⟩,
            ⟨[Record.pair (3, 1)], 1, false⟩], [3, 1]⟩,
          ⟨some 10, [[], []], [[], []]⟩, ⟨[1, 3, 4, 5], 4, 4⟩⟩, [1, 3])] (by decide)).1

/-! ## The reduce table: inserts without a spill -/

theorem firstOccurrences_append_singleton {α : Type} [DecidableEq α] (l : List α) (a : α) :
    firstOccurrences (l ++ [a])
      = if a ∈ l then firstOccurrences l else firstOccurrences l ++ [a] := by
  induction l with
  | nil => simp [firstOccurrences]
  | cons b l ih =>
    rw [List.cons_append, firstOccurrences, ih]
    by_cases hal : a ∈ l
    · rw [if_pos hal, if_pos (List.mem_cons_of_mem _ hal)]
      rfl
    · rw [if_neg hal, List.filter_append]
      by_cases hab : a = b
      · subst hab
        rw [if_pos (List.mem_cons_self _ _)]
        simp [firstOccurrences]
      · rw [if_neg (by simp [hab, hal])]
        simp [firstOccurrences, hab]

theorem mem_firstOccurrences {α : Type} [DecidableEq α] (l : List α) (x : α) :
    x ∈ firstOccurrences l ↔ x ∈ l := by
  induction l with
  | nil => simp [firstOccurrences]
  | cons a l ih =>
    simp only [firstOccurrences, List.mem_cons, List.mem_filter, ih, decide_eq_true_eq]
    by_cases h : x = a
    · simp [h]
    · simp [h]

theorem firstOccurrences_nodup {α : Type} [DecidableEq α] (l : List α) :
    (firstOccurrences l).Nodup := by
  induction l with
  | nil => simp [firstOccurrences]
  | cons a l ih =>
    rw [firstOccurrences, List.nodup_cons]
    refine ⟨?_, ih.sublist (List.filter_sublist _)⟩
    simp [List.mem_filter]

theorem firstOccurrences_length {α : Type} [DecidableEq α] (l : List α) :
    (firstOccurrences l).length = l.toFinset.card := by
  rw [← List.toFinset_card_of_nodup (firstOccurrences_nodup l)]
  congr 1
  ext x
  simp [mem_firstOccurrences]

theorem valuesOf_append {Key Value : Type} [DecidableEq Key] (k : Key)
    (kvs : List (Key × Value)) (kv : Key × Value) :
    valuesOf k (kvs ++ [kv]) = if kv.1 = k then valuesOf k kvs ++ [kv.2] else valuesOf k kvs := by
  unfold valuesOf
  rw [List.filter_append]
  by_cases h : kv.1 = k
  · simp [h]
  · simp [h]

theorem valuesOf_eq_nil {Key Value : Type} [DecidableEq Key] (k : Key)
    (kvs : List (Key × Value)) : valuesOf k kvs = [] ↔ k ∉ kvs.map Prod.fst := by
  unfold valuesOf
  simp only [List.map_eq_nil_iff, List.filter_eq_nil_iff, decide_eq_true_eq, List.mem_map,
    not_exists, not_and]

theorem reduced_eq_none {Key Value : Type} [DecidableEq Key] (red : Value → Value → Value)
    (k : Key) (kvs : List (Key × Value)) :
    reduced red k kvs = none ↔ k ∉ kvs.map Prod.fst := by
  rw [← valuesOf_eq_nil]
  unfold reduced
  cases valuesOf k kvs <;> simp

theorem reduced_append_of_ne {Key Value : Type} [DecidableEq Key] (red : Value → Value → Value)
    (k : Key) (kvs : List (Key × Value)) (kv : Key × Value) (h : kv.1 ≠ k) :
    reduced red k (kvs ++ [kv]) = reduced red k kvs := by
  unfold reduced
  rw [valuesOf_append, if_neg h]

theorem reduced_append_self {Key Value : Type} [DecidableEq Key] (red : Value → Value → Value)
    (kvs : List (Key × Value)) (kv : Key × Value) :
    reduced red kv.1 (kvs ++ [kv])
      = some (match reduced red kv.1 kvs with
          | none => kv.2
          | some u => red u kv.2) := by
  unfold reduced
  rw [valuesOf_append, if_pos rfl]
  cases valuesOf kv.1 kvs with
  | nil => rfl
  | cons v vs => simp [List.foldl_append]

theorem insertItem_new {Key Value : Type} [DecidableEq Key] (red : Value → Value → Value)
    (kv : Key × Value) (slots : List (Key × Value))
    (h : slots.filter (fun item => decide (item.1 = kv.1)) = []) :
    insertItem red kv slots = (true, slots ++ [kv]) := by
  induction slots with
  | nil => rfl
  | cons item rest ih =>
    have hne : ¬ item.1 = kv.1 := by
      intro he
      simp [List.filter_cons, he] at h
    rw [List.filter_cons_of_neg (by simpa using hne)] at h
    rw [insertItem, if_neg hne, ih h]
    rfl

theorem insertItem_merge {Key Value : Type} [DecidableEq Key] (red : Value → Value → Value)
    (kv : Key × Value) (slots : List (Key × Value)) (u : Value)
    (h : slots.filter (fun item => decide (item.1 = kv.1)) = [(kv.1, u)]) :
    (insertItem red kv slots).1 = false ∧
    (insertItem red kv slots).2.length = slots.length ∧
    (insertItem red kv slots).2.filter (fun item => decide (item.1 = kv.1))
      = [(kv.1, red u kv.2)] := by
  induction slots with
  | nil => simp at h
  | cons item rest ih =>
    by_cases he : item.1 = kv.1
    · rw [List.filter_cons_of_pos (by simpa using he)] at h
      have h1 : item = (kv.1, u) := (List.cons.inj h).1
      have h2 := (List.cons.inj h).2
      rw [insertItem, if_pos he]
      refine ⟨rfl, rfl, ?_⟩
      rw [List.filter_cons_of_pos (by simpa using he), h2, h1]
    · rw [List.filter_cons_of_neg (by simpa using he)] at h
      obtain ⟨h1, h2, h3⟩ := ih h
      rw [insertItem, if_neg he]
      refine ⟨h1, by simp [h2], ?_⟩
      simp only []
      rw [List.filter_cons_of_neg (by simpa using he), h3]

theorem insertItem_other {Key Value : Type} [DecidableEq Key] (red : Value → Value → Value)
    (kv : Key × Value) (slots : List (Key × Value)) (k : Key) (hk : kv.1 ≠ k) :
    (insertItem red kv slots).2.filter (fun item => decide (item.1 = k))
      = slots.filter (fun item => decide (item.1 = k)) := by
  induction slots with
  | nil => simp [insertItem, hk]
  | cons item rest ih =>
    by_cases he : item.1 = kv.1
    · rw [insertItem, if_pos he]
      have hik : ¬ item.1 = k := by
        rw [he]
        exact hk
      simp only []
      rw [List.filter_cons_of_neg (by simpa using hik),
        List.filter_cons_of_neg (by simpa using hik)]
    · rw [insertItem, if_neg he]
      simp only []
      by_cases hik : item.1 = k
      · rw [List.filter_cons_of_pos (by simpa using hik),
          List.filter_cons_of_pos (by simpa using hik), ih]
      · rw [List.filter_cons_of_neg (by simpa using hik),
          List.filter_cons_of_neg (by simpa using hik), ih]

theorem sum_length_set {α : Type} (l : List (List α)) (i : Nat) (slots : List α)
    (hi : i < l.length) :
    ((l.set i slots).map List.length).sum + (l.getD i []).length
      = (l.map List.length).sum + slots.length := by
  induction l generalizing i with
  | nil => simp at hi
  | cons a l ih =>
    rcases i with _ | i
    · simp
      omega
    · have := ih i (by simpa using hi)
      simp only [List.set_cons_succ, List.map_cons, List.sum_cons, List.getD_cons_succ]
      omega

theorem getD_set_self {α : Type} (l : List (List α)) (i : Nat) (slots : List α)
    (hi : i < l.length) : (l.set i slots).getD i [] = slots := by
  rw [List.getD_eq_getElem?_getD, List.getElem?_set_self hi]
  rfl

theorem getD_set_ne {α : Type} (l : List (List α)) (i j : Nat) (slots : List α)
    (hij : i ≠ j) : (l.set i slots).getD j [] = l.getD j [] := by
  rw [List.getD_eq_getElem?_getD, List.getD_eq_getElem?_getD, List.getElem?_set_ne hij]

theorem Insert_of_not_spills {Key Value : Type} [DecidableEq Key]
    (fn : ReduceFunctions Key Value) (table : ReduceTable Key Value) (kv : Key × Value)
    (h : table.spills fn kv = false) :
    table.Insert fn kv
      = ((insertItem fn.reduce_function kv
          (table.items.getD (fn.index_function kv.1 % table.items.length) [])).1,
        table.insertLive fn kv) := by
  obtain ⟨limit_items, items, partition_files⟩ := table
  unfold ReduceTable.spills at h
  unfold ReduceTable.Insert
  cases limit_items with
  | none => rfl
  | some limit =>
    simp only [decide_eq_false_iff_not] at h
    simp only [ReduceTable.insertLive] at h
    simp only []
    rw [if_neg h]
    rfl

/-- One insert without a spill keeps the invariant of the table, and answers
whether the key is new. -/
theorem TableInv_insert {Key Value : Type} [DecidableEq Key]
    (fn : ReduceFunctions Key Value) (n : Nat) (table : ReduceTable Key Value)
    (done : List (Key × Value)) (kv : Key × Value) (hn : 0 < n)
    (hinv : TableInv fn n table done) (hspill : table.spills fn kv = false) :
    TableInv fn n (table.Insert fn kv).2 (done ++ [kv]) ∧
    (table.Insert fn kv).2.partition_files = table.partition_files ∧
    (table.Insert fn kv).2.limit_items = table.limit_items ∧
    ((table.Insert fn kv).1 = true ↔ kv.1 ∉ done.map Prod.fst) := by
  obtain ⟨hlen, hslots, hnum⟩ := hinv
  rw [Insert_of_not_spills fn table kv hspill]
  have hpid : fn.index_function kv.1 % table.items.length < table.items.length := by
    rw [hlen]
    exact Nat.mod_lt _ hn
  have hself := hslots (fn.index_function kv.1 % n) kv.1 (Nat.mod_lt _ hn)
  rw [if_pos rfl] at hself
  rw [hlen] at hpid
  simp only [ReduceTable.insertLive, hlen]
  cases hred : reduced fn.reduce_function kv.1 done with
  | none =>
    rw [hred] at hself
    have hnew := insertItem_new fn.reduce_function kv _ hself
    have hfresh : kv.1 ∉ done.map Prod.fst := (reduced_eq_none _ _ _).mp hred
    refine ⟨⟨by simp [hlen], fun i k hi => ?_, ?_⟩, trivial, trivial, ?_⟩
    · by_cases hik : fn.index_function kv.1 % n = i
      · subst hik
        rw [getD_set_self _ _ _ (by omega), hnew]
        simp only []
        rw [List.filter_append, hslots _ k hi]
        by_cases hk : kv.1 = k
        · subst hk
          rw [if_pos rfl, hred, reduced_append_self, hred]
          simp
        · rw [reduced_append_of_ne _ _ _ _ hk]
          simp [hk]
      · rw [getD_set_ne _ _ _ _ hik, hslots i k hi]
        by_cases hk : kv.1 = k
        · subst hk
          rw [if_neg hik, if_neg hik]
        · rw [reduced_append_of_ne _ _ _ _ hk]
    · have hsum := sum_length_set table.items (fn.index_function kv.1 % n)
        (insertItem fn.reduce_function kv
          (table.items.getD (fn.index_function kv.1 % n) [])).2 (by omega)
      rw [hnew] at hsum ⊢
      simp only [ReduceTable.NumItems] at hnum ⊢
      rw [List.map_append, List.map_singleton, firstOccurrences_append_singleton,
        if_neg hfresh]
      simp only [List.length_append, List.length_singleton] at hsum ⊢
      omega
    · rw [hnew]
      simp [hfresh]
  | some u =>
    rw [hred] at hself
    obtain ⟨hans, hl, hfilter⟩ := insertItem_merge fn.reduce_function kv _ u hself
    have hold : kv.1 ∈ done.map Prod.fst := by
      by_contra hc
      rw [(reduced_eq_none fn.reduce_function _ _).mpr hc] at hred
      exact Option.noConfusion hred
    refine ⟨⟨by simp [hlen], fun i k hi => ?_, ?_⟩, trivial, trivial, ?_⟩
    · by_cases hik : fn.index_function kv.1 % n = i
      · subst hik
        rw [getD_set_self _ _ _ (by omega)]
        by_cases hk : kv.1 = k
        · subst hk
          rw [hfilter, if_pos rfl, reduced_append_self, hred]
          rfl
        · rw [insertItem_other _ _ _ _ hk, reduced_append_of_ne _ _ _ _ hk, hslots _ k hi]
      · rw [getD_set_ne _ _ _ _ hik, hslots i k hi]
        by_cases hk : kv.1 = k
        · subst hk
          rw [if_neg hik, if_neg hik]
        · rw [reduced_append_of_ne _ _ _ _ hk]
    · have hsum := sum_length_set table.items (fn.index_function kv.1 % n)
        (insertItem fn.reduce_function kv
          (table.items.getD (fn.index_function kv.1 % n) [])).2 (by omega)
      simp only [ReduceTable.NumItems] at hnum ⊢
      rw [List.map_append, List.map_singleton, firstOccurrences_append_singleton,
        if_pos hold]
      omega
    · rw [hans]
      simp [hold]

theorem TableInv_create {Key Value : Type} [DecidableEq Key]
    (fn : ReduceFunctions Key Value) (n : Nat) (table : ReduceTable Key Value)
    (h : table.items = List.replicate n []) : TableInv fn n table [] := by
  refine ⟨by simp [h], fun i k hi => ?_, ?_⟩
  · rw [h, List.getD_eq_getElem?_getD]
    simp [hi, reduced, valuesOf]
  · simp [ReduceTable.NumItems, h, firstOccurrences]

theorem TableInv_insertAll {Key Value : Type} [DecidableEq Key]
    (fn : ReduceFunctions Key Value) (n : Nat) (hn : 0 < n) (kvs : List (Key × Value))
    (table : ReduceTable Key Value) (done : List (Key × Value))
    (hinv : TableInv fn n table done) (hspill : table.noSpill fn kvs = true) :
    TableInv fn n (table.insertAll fn kvs) (done ++ kvs) ∧
    (table.insertAll fn kvs).partition_files = table.partition_files ∧
    (table.insertAll fn kvs).limit_items = table.limit_items := by
  induction kvs generalizing table done with
  | nil =>
    rw [List.append_nil]
    exact ⟨hinv, rfl, rfl⟩
  | cons kv rest ih =>
    rw [ReduceTable.noSpill, Bool.and_eq_true] at hspill
    have hs : table.spills fn kv = false := by simpa using hspill.1
    obtain ⟨h1, h2, h3, _⟩ := TableInv_insert fn n table done kv hn hinv hs
    obtain ⟨g1, g2, g3⟩ := ih _ _ h1 hspill.2
    rw [ReduceTable.insertAll, List.foldl_cons]
    rw [List.append_assoc] at g1
    exact ⟨g1, g2.trans h2, g3.trans h3⟩

theorem noSpill_of_no_limit {Key Value : Type} [DecidableEq Key]
    (fn : ReduceFunctions Key Value) (n : Nat) (hn : 0 < n) (kvs : List (Key × Value))
    (table : ReduceTable Key Value) (done : List (Key × Value))
    (hinv : TableInv fn n table done) (hlimit : table.limit_items = none) :
    table.noSpill fn kvs = true := by
  induction kvs generalizing table done with
  | nil => rfl
  | cons kv rest ih =>
    have hs : table.spills fn kv = false := by
      unfold ReduceTable.spills
      rw [hlimit]
    obtain ⟨h1, _, h3, _⟩ := TableInv_insert fn n table done kv hn hinv hs
    rw [ReduceTable.noSpill, hs, ih _ _ h1 (h3.trans hlimit)]
    rfl

theorem flatten_single {α : Type} (L : List (List α)) (j : Nat) (X : List α)
    (hj : j < L.length)
    (h : ∀ i, i < L.length → L.getD i [] = if j = i then X else []) : L.flatten = X := by
  induction L generalizing j with
  | nil => simp at hj
  | cons a L ih =>
    rcases j with _ | j
    · have h0 := h 0 (by simp)
      simp only [List.getD_cons_zero, if_true] at h0
      have hrest : L.flatten = [] := by
        rw [List.flatten_eq_nil_iff]
        intro l hl
        obtain ⟨i, hi, rfl⟩ := List.getElem_of_mem hl
        have hi' := h (i + 1) (by simpa using hi)
        rw [List.getD_cons_succ, List.getD_eq_getElem?_getD, List.getElem?_eq_getElem hi,
          if_neg (by omega)] at hi'
        exact hi'
      rw [List.flatten_cons, hrest, h0, List.append_nil]
    · have h0 := h 0 (by simp)
      rw [List.getD_cons_zero, if_neg (by omega)] at h0
      have hrest := ih j (by simpa using hj) (fun i hi => by
        have hi' := h (i + 1) (by simpa using hi)
        rw [List.getD_cons_succ] at hi'
        rw [hi']
        by_cases hji : j = i
        · rw [if_pos hji, if_pos (by omega)]
        · rw [if_neg hji, if_neg (by omega)])
      rw [List.flatten_cons, h0, hrest, List.nil_append]

theorem getD_map_filter {α : Type} (L : List (List α)) (p : α → Bool) (i : Nat) :
    (L.map (List.filter p)).getD i [] = (L.getD i []).filter p := by
  rw [List.getD_eq_getElem?_getD, List.getD_eq_getElem?_getD, List.getElem?_map]
  cases L[i]? <;> rfl

theorem TableInv_flatten {Key Value : Type} [DecidableEq Key]
    (fn : ReduceFunctions Key Value) (n : Nat) (hn : 0 < n) (table : ReduceTable Key Value)
    (done : List (Key × Value)) (hinv : TableInv fn n table done) (k : Key) :
    table.items.flatten.filter (fun item => decide (item.1 = k))
      = ((reduced fn.reduce_function k done).map (fun v => (k, v))).toList := by
  obtain ⟨hlen, hslots, _⟩ := hinv
  rw [List.filter_flatten]
  apply flatten_single _ (fn.index_function k % n)
  · rw [List.length_map, hlen]
    exact Nat.mod_lt _ hn
  · intro i hi
    rw [List.length_map, hlen] at hi
    rw [getD_map_filter, hslots i k hi]

theorem TableInv_mem {Key Value : Type} [DecidableEq Key]
    (fn : ReduceFunctions Key Value) (n : Nat) (hn : 0 < n) (table : ReduceTable Key Value)
    (done : List (Key × Value)) (hinv : TableInv fn n table done) (item : Key × Value)
    (hitem : item ∈ table.items.flatten) :
    item.1 ∈ done.map Prod.fst ∧ reduced fn.reduce_function item.1 done = some item.2 := by
  have hf := TableInv_flatten fn n hn table done hinv item.1
  have hmem : item ∈ table.items.flatten.filter (fun x => decide (x.1 = item.1)) := by
    rw [List.mem_filter]
    exact ⟨hitem, by simp⟩
  rw [hf] at hmem
  cases hred : reduced fn.reduce_function item.1 done with
  | none =>
    rw [hred] at hmem
    simp at hmem
  | some v =>
    rw [hred] at hmem
    simp only [Option.map_some', Option.toList_some, List.mem_singleton] at hmem
    refine ⟨?_, ?_⟩
    · by_contra hc
      rw [(reduced_eq_none fn.reduce_function _ _).mpr hc] at hred
      exact Option.noConfusion hred
    · have h2 := congrArg Prod.snd hmem
      simp only [] at h2
      rw [h2]

/-- C15 (table merge semantics): for every sequence of inserts without a
spill into a newly constructed reduce table with at least one partition (any
reduce function, any index function), `NumItems()` is the number of distinct
keys inserted, the table holds exactly one item for every inserted key, whose
value is the reduce-function fold of all values inserted under that key in
insertion order, and no other item; inserting `(k,v1)` then `(k,v2)` gives
the single item `(k, reduce(v1,v2))`. A table without a working-set bound
never spills. -/
theorem C15_table_merge {Key Value : Type} [DecidableEq Key]
    (fn : ReduceFunctions Key Value) (num_partitions limit : Nat)
    (table : ReduceTable Key Value) (kvs : List (Key × Value))
    (hpos : 0 < num_partitions)
    (hstart : table = ReduceTable.create num_partitions ∨
      table = (ReduceTable.create num_partitions).Initialize limit)
    (hspill : table.noSpill fn kvs = true) :
    (table.insertAll fn kvs).NumItems = (firstOccurrences (kvs.map Prod.fst)).length ∧
    (table.insertAll fn kvs).NumItems = (kvs.map Prod.fst).toFinset.card ∧
    (∀ k ∈ kvs.map Prod.fst, ∃ v, reduced fn.reduce_function k kvs = some v ∧
      (table.insertAll fn kvs).items.flatten.filter (fun item => decide (item.1 = k))
        = [(k, v)]) ∧
    (∀ item ∈ (table.insertAll fn kvs).items.flatten,
      item.1 ∈ kvs.map Prod.fst ∧ reduced fn.reduce_function item.1 kvs = some item.2) ∧
    (∀ k v1 v2, kvs = [(k, v1), (k, v2)] →
      (table.insertAll fn kvs).NumItems = 1 ∧
      (table.insertAll fn kvs).items.flatten = [(k, fn.reduce_function v1 v2)]) ∧
    (ReduceTable.create num_partitions : ReduceTable Key Value).noSpill fn kvs = true := by
  have hitems : table.items = List.replicate num_partitions [] := by
    rcases hstart with h | h <;> rw [h] <;> rfl
  have hinv0 := TableInv_create fn num_partitions table hitems
  obtain ⟨hinv, _, _⟩ := TableInv_insertAll fn num_partitions hpos kvs table [] hinv0 hspill
  rw [List.nil_append] at hinv
  have hnum := hinv.2.2
  have hkey : ∀ k ∈ kvs.map Prod.fst, ∃ v, reduced fn.reduce_function k kvs = some v ∧
      (table.insertAll fn kvs).items.flatten.filter (fun item => decide (item.1 = k))
        = [(k, v)] := by
    intro k hk
    cases hred : reduced fn.reduce_function k kvs with
    | none => exact absurd hk ((reduced_eq_none fn.reduce_function _ _).mp hred)
    | some v =>
      refine ⟨v, rfl, ?_⟩
      rw [TableInv_flatten fn num_partitions hpos _ kvs hinv k, hred]
      rfl
  refine ⟨hnum, ?_, hkey, ?_, ?_, ?_⟩
  · rw [hnum, firstOccurrences_length]
  · intro item hitem
    exact TableInv_mem fn num_partitions hpos _ kvs hinv item hitem
  · intro k v1 v2 hkvs
    have hone : (table.insertAll fn kvs).NumItems = 1 := by
      rw [hnum, hkvs]
      simp [firstOccurrences]
    refine ⟨hone, ?_⟩
    obtain ⟨v, hv, hfil⟩ := hkey k (by rw [hkvs]; simp)
    have hv' : v = fn.reduce_function v1 v2 := by
      rw [hkvs] at hv
      simp [reduced, valuesOf] at hv
      exact hv.symm
    have hlen : (table.insertAll fn kvs).items.flatten.length = 1 := by
      rw [List.length_flatten]
      exact hone
    match hfl : (table.insertAll fn kvs).items.flatten, hlen with
    | [x], _ =>
      rw [hfl] at hfil
      by_cases hx : x.1 = k
      · rw [List.filter_cons_of_pos (by simpa using hx)] at hfil
        rw [(List.cons.inj hfil).1, hv']
      · rw [List.filter_cons_of_neg (by simpa using hx)] at hfil
        simp at hfil
  · exact noSpill_of_no_limit fn num_partitions hpos kvs _ []
      (TableInv_create fn num_partitions _ rfl) rfl

theorem C15_table_merge_witness :
    (((ReduceTable.create 2).Initialize 10 : ReduceTable Nat Nat).insertAll
        ⟨fun v => v, fun a b => a + b, fun k => k / 2⟩
        [(1, 1), (2, 1), (3, 1), (2, 1)]).NumItems = 3 ∧
    (∀ item ∈ (((ReduceTable.create 2).Initialize 10 : ReduceTable Nat Nat).insertAll
        ⟨fun v => v, fun a b => a + b, fun k => k / 2⟩
        [(1, 1), (2, 1), (3, 1), (2, 1)]).items.flatten,
      item.1 ∈ [(1, 1), (2, 1), (3, 1), (2, 1)].map Prod.fst ∧
      reduced (fun a b => a + b) item.1 [(1, 1), (2, 1), (3, 1), (2, 1)] = some item.2) ∧
    (((ReduceTable.create 2).Initialize 10 : ReduceTable Nat Nat).insertAll
        ⟨fun v => v, fun a b => a + b, fun k => k / 2⟩
        [(1, 1), (2, 1), (3, 1), (2, 1)]).items.flatten = [(1, 1), (2, 2), (3, 1)] :=
  ⟨(C15_table_merge ⟨fun v => v, fun a b => a + b, fun k => k / 2⟩ 2 10
      ((ReduceTable.create 2).Initialize 10) [(1, 1), (2, 1), (3, 1), (2, 1)]
      (by decide) (Or.inr rfl) (by decide)).1.trans (by decide),
    (C15_table_merge ⟨fun v => v, fun a b => a + b, fun k => k / 2⟩ 2 10
      ((ReduceTable.create 2).Initialize 10) [(1, 1), (2, 1), (3, 1), (2, 1)]
      (by decide) (Or.inr rfl) (by decide)).2.2.2.1,
    by decide⟩

/-! ## The table with emitter functions: `Flush` -/

theorem foldl_emit {Key Value : Type} (items : List (Key × Value))
    (emitters : List (List (Key × Value))) :
    items.foldl ReducePostProbingTable.emit emitters
      = emitters.map (fun received => received ++ items) := by
  induction items generalizing emitters with
  | nil => simp
  | cons item rest ih =>
    rw [List.foldl_cons, ih, ReducePostProbingTable.emit, List.map_map]
    apply List.map_congr_left
    intro received _
    simp

theorem post_flushLoop {Key Value : Type} (n id : Nat)
    (self : ReducePostProbingTable Key Value) :
    (ReducePostProbingTable.flushLoop n id self).emitters
      = self.emitters.map (fun received => received ++
          ((List.range' id n).map (fun p =>
            self.table.items.getD p [] ++ self.table.partition_files.getD p [])).flatten) ∧
    (ReducePostProbingTable.flushLoop n id self).table.items.length
      = self.table.items.length ∧
    (ReducePostProbingTable.flushLoop n id self).table.partition_files.length
      = self.table.partition_files.length ∧
    (ReducePostProbingTable.flushLoop n id self).table.limit_items = self.table.limit_items ∧
    (∀ p, (ReducePostProbingTable.flushLoop n id self).table.items.getD p []
      = if id ≤ p ∧ p < id + n then [] else self.table.items.getD p []) ∧
    (∀ p, (ReducePostProbingTable.flushLoop n id self).table.partition_files.getD p []
      = if id ≤ p ∧ p < id + n then [] else self.table.partition_files.getD p []) := by
  induction n generalizing id self with
  | zero =>
    refine ⟨?_, rfl, rfl, rfl, fun p => ?_, fun p => ?_⟩
    · simp [ReducePostProbingTable.flushLoop]
    · rw [if_neg (by omega)]
      rfl
    · rw [if_neg (by omega)]
      rfl
  | succ n ih =>
    rw [ReducePostProbingTable.flushLoop]
    obtain ⟨h1, h2, h3, h4, h5, h6⟩ := ih (id + 1)
      { table := (self.table.FlushPartition id true).2,
        emitters := (self.table.FlushPartition id true).1.foldl
          ReducePostProbingTable.emit self.emitters }
    simp only [ReduceTable.FlushPartition] at h1 h2 h3 h4 h5 h6 ⊢
    refine ⟨?_, ?_, ?_, h4, fun p => ?_, fun p => ?_⟩
    · have key : (List.range' (id + 1) n).map (fun p =>
          (self.table.items.set id []).getD p [] ++
            (self.table.partition_files.set id []).getD p [])
          = (List.range' (id + 1) n).map (fun p =>
            self.table.items.getD p [] ++ self.table.partition_files.getD p []) := by
        apply List.map_congr_left
        intro p hp
        have hp' : id + 1 ≤ p := (List.mem_range'_1.mp hp).1
        rw [getD_set_ne _ _ _ _ (by omega), getD_set_ne _ _ _ _ (by omega)]
      rw [h1, key, foldl_emit, List.map_map, List.range'_succ, List.map_cons, List.flatten_cons]
      apply List.map_congr_left
      intro received _
      simp only [Function.comp_apply, List.append_assoc]
    · rw [h2, List.length_set]
    · rw [h3, List.length_set]
    · rw [h5 p]
      by_cases hp : p = id
      · subst hp
        rw [if_neg (by omega), getD_set_self_nil, if_pos (by omega)]
      · rw [getD_set_ne _ _ _ _ (Ne.symm hp)]
        by_cases hr : id + 1 ≤ p ∧ p < id + 1 + n
        · rw [if_pos hr, if_pos (by omega)]
        · rw [if_neg hr, if_neg (by omega)]
    · rw [h6 p]
      by_cases hp : p = id
      · subst hp
        rw [if_neg (by omega), getD_set_self_nil, if_pos (by omega)]
      · rw [getD_set_ne _ _ _ _ (Ne.symm hp)]
        by_cases hr : id + 1 ≤ p ∧ p < id + 1 + n
        · rw [if_pos hr, if_pos (by omega)]
        · rw [if_neg hr, if_neg (by omega)]

theorem eq_replicate_nil {α : Type} (l : List (List α)) (n : Nat) (hlen : l.length = n)
    (h : ∀ p, p < n → l.getD p [] = []) : l = List.replicate n [] := by
  rw [List.eq_replicate_iff]
  refine ⟨hlen, fun b hb => ?_⟩
  obtain ⟨i, hi, rfl⟩ := List.getElem_of_mem hb
  have := h i (by omega)
  rw [List.getD_eq_getElem?_getD, List.getElem?_eq_getElem hi] at this
  exact this

theorem map_getD_range {α : Type} (l : List (List α)) :
    (List.range l.length).map (fun p => l.getD p []) = l := by
  apply List.ext_getElem
  · simp
  · intro i h1 h2
    simp [List.getD_eq_getElem?_getD, List.getElem?_eq_getElem h2]

/-- `Flush` on the table of the tests: every emitter receives the yield of
the table, and the table is left with no live item and no spilled data. -/
theorem post_Flush {Key Value : Type} (self : ReducePostProbingTable Key Value)
    (hfiles : self.table.partition_files.length = self.table.items.length) :
    self.Flush.emitters = self.emitters.map (fun received => received ++ self.table.yield) ∧
    self.Flush.table = { limit_items := self.table.limit_items,
                         items := List.replicate self.table.items.length [],
                         partition_files := List.replicate self.table.items.length [] } := by
  obtain ⟨h1, h2, h3, h4, h5, h6⟩ :=
    post_flushLoop self.table.items.length 0 self
  unfold ReducePostProbingTable.Flush ReduceTable.num_partitions
  refine ⟨?_, ?_⟩
  · rw [h1, ← List.range_eq_range']
    rfl
  · have hi := eq_replicate_nil _ _ h2 (fun p hp => by
      rw [h5 p, if_pos (by omega)])
    have hf := eq_replicate_nil _ _ (h3.trans hfiles) (fun p hp => by
      rw [h6 p, if_pos (by omega)])
    cases ht : (ReducePostProbingTable.flushLoop self.table.items.length 0 self).table
    rw [ht] at hi hf h4
    simp only [] at hi hf h4
    rw [hi, hf, h4]

theorem yield_of_no_spilled {Key Value : Type} (table : ReduceTable Key Value)
    (hfiles : table.partition_files = List.replicate table.items.length []) :
    table.yield = table.items.flatten := by
  unfold ReduceTable.yield
  rw [hfiles]
  have : (List.range table.items.length).map (fun p =>
      table.items.getD p [] ++ (List.replicate table.items.length ([] : List (Key × Value))).getD
        p [])
      = (List.range table.items.length).map (fun p => table.items.getD p []) := by
    apply List.map_congr_left
    intro p hp
    rw [List.getD_eq_getElem?_getD (List.replicate _ _)]
    simp [List.mem_range.mp hp]
  rw [this, map_getD_range]

theorem post_insertAll {Key Value : Type} [DecidableEq Key] (fn : ReduceFunctions Key Value)
    (kvs : List (Key × Value)) (self : ReducePostProbingTable Key Value) :
    (kvs.foldl (ReducePostProbingTable.Insert fn) self).table = self.table.insertAll fn kvs ∧
    (kvs.foldl (ReducePostProbingTable.Insert fn) self).emitters = self.emitters := by
  induction kvs generalizing self with
  | nil => exact ⟨rfl, rfl⟩
  | cons kv rest ih =>
    obtain ⟨h1, h2⟩ := ih (self.Insert fn kv)
    rw [List.foldl_cons, h1, h2]
    exact ⟨rfl, rfl⟩

theorem TableInv_nodup {Key Value : Type} [DecidableEq Key]
    (fn : ReduceFunctions Key Value) (n : Nat) (hn : 0 < n) (table : ReduceTable Key Value)
    (done : List (Key × Value)) (hinv : TableInv fn n table done) :
    (table.items.flatten.map Prod.fst).Nodup := by
  rw [List.nodup_iff_count_le_one]
  intro k
  rw [List.count_eq_countP, List.countP_map, List.countP_eq_length_filter]
  have hf := TableInv_flatten fn n hn table done hinv k
  have hc : (fun item : Key × Value => decide (item.1 = k))
      = ((fun x => x == k) ∘ Prod.fst) := by
    funext item
    simp only [Function.comp_apply]
    by_cases h : item.1 = k
    · simp [h]
    · simp [h]
  rw [← hc, hf]
  cases reduced fn.reduce_function k done <;> simp

theorem post_Flush_emitters {Key Value : Type} (self : ReducePostProbingTable Key Value) :
    self.Flush.emitters
      = self.emitters.map (fun received => received ++ self.table.yield) := by
  obtain ⟨h1, _⟩ := post_flushLoop self.table.items.length 0 self
  unfold ReducePostProbingTable.Flush ReduceTable.num_partitions
  rw [h1, ← List.range_eq_range']
  rfl

/-- C16 (flush draining): for every sequence of inserts into a newly
constructed table with at least one partition, `Insert` leaves the emitters
as they are, so nothing has been emitted before the flush; `Flush` hands to
every emitter the live items of the table, each exactly once (one item per
inserted key, holding the fold of its values), so as many items as
`NumItems()` before the flush; after it `NumItems()` is 0, and one more insert
gives `NumItems() == 1`. -/
theorem C16_flush_drains {Key Value : Type} [DecidableEq Key]
    (fn : ReduceFunctions Key Value) (num_partitions num_emitters : Nat)
    (kvs : List (Key × Value)) (kv : Key × Value)
    (self : ReducePostProbingTable Key Value)
    (hpos : 0 < num_partitions)
    (hself : self = kvs.foldl (ReducePostProbingTable.Insert fn)
      (ReducePostProbingTable.create num_partitions num_emitters)) :
    (∀ (table : ReducePostProbingTable Key Value) (item : Key × Value),
      (table.Insert fn item).emitters = table.emitters) ∧
    self.emitters = List.replicate num_emitters [] ∧
    self.Flush.emitters = List.replicate num_emitters self.table.items.flatten ∧
    self.table.items.flatten.length = self.NumItems ∧
    (self.table.items.flatten.map Prod.fst).Nodup ∧
    (∀ k, k ∈ self.table.items.flatten.map Prod.fst ↔ k ∈ kvs.map Prod.fst) ∧
    (∀ item ∈ self.table.items.flatten,
      reduced fn.reduce_function item.1 kvs = some item.2) ∧
    self.Flush.NumItems = 0 ∧
    (self.Flush.Insert fn kv).NumItems = 1 := by
  obtain ⟨htable, hemit⟩ := post_insertAll fn kvs
    (ReducePostProbingTable.create num_partitions num_emitters)
  rw [← hself] at htable hemit
  have hinv0 : TableInv fn num_partitions
      (ReduceTable.create num_partitions : ReduceTable Key Value) [] :=
    TableInv_create fn num_partitions _ rfl
  have hns := noSpill_of_no_limit fn num_partitions hpos kvs _ [] hinv0 rfl
  obtain ⟨hinv, hfiles, hlimit⟩ :=
    TableInv_insertAll fn num_partitions hpos kvs _ [] hinv0 hns
  rw [List.nil_append] at hinv
  have htab : (ReducePostProbingTable.create num_partitions num_emitters
      : ReducePostProbingTable Key Value).table = ReduceTable.create num_partitions := rfl
  rw [htab] at htable
  rw [← htable] at hinv hfiles hlimit
  have hlen : self.table.items.length = num_partitions := hinv.1
  have hfiles' : self.table.partition_files = List.replicate self.table.items.length [] := by
    rw [hfiles, hlen]
    rfl
  obtain ⟨hfe, hft⟩ := post_Flush self (by rw [hfiles']; simp)
  have hemit' : self.emitters = List.replicate num_emitters [] := hemit
  refine ⟨fun _ _ => rfl, hemit', ?_, ?_, TableInv_nodup fn num_partitions hpos _ kvs hinv,
    fun k => ?_, fun item hitem => ?_, ?_, ?_⟩
  · rw [hfe, hemit', yield_of_no_spilled _ hfiles']
    simp
  · rw [List.length_flatten]
    rfl
  · constructor
    · intro hk
      obtain ⟨item, hitem, rfl⟩ := List.mem_map.mp hk
      exact (TableInv_mem fn num_partitions hpos _ kvs hinv item hitem).1
    · intro hk
      have hf := TableInv_flatten fn num_partitions hpos _ kvs hinv k
      cases hred : reduced fn.reduce_function k kvs with
      | none => exact absurd hk ((reduced_eq_none fn.reduce_function _ _).mp hred)
      | some v =>
        rw [hred] at hf
        have hm : (k, v) ∈ self.table.items.flatten.filter
            (fun item => decide (item.1 = k)) := by
          rw [hf]
          simp
        exact List.mem_map.mpr ⟨(k, v), (List.mem_filter.mp hm).1, rfl⟩
  · exact (TableInv_mem fn num_partitions hpos _ kvs hinv item hitem).2
  · unfold ReducePostProbingTable.NumItems ReduceTable.NumItems
    rw [hft]
    simp
  · have hinv1 : TableInv fn num_partitions self.Flush.table [] :=
      TableInv_create fn num_partitions _ (by rw [hft, hlen])
    have hs : self.Flush.table.spills fn kv = false := by
      unfold ReduceTable.spills
      rw [hft, hlimit]
      rfl
    obtain ⟨h1, _⟩ := TableInv_insert fn num_partitions self.Flush.table [] kv hpos hinv1 hs
    have hnum := h1.2.2
    unfold ReducePostProbingTable.NumItems ReducePostProbingTable.Insert
    rw [hnum]
    simp [firstOccurrences]

theorem C16_flush_drains_witness :
    (∀ (table : ReducePostProbingTable Nat Nat) (item : Nat × Nat),
      (table.Insert ⟨fun v => v, fun a b => a + b, fun k => k / 2⟩ item).emitters
        = table.emitters) ∧
    (⟨⟨none, [[(1, 1)], [(2, 2), (3, 3)]], [[], []]⟩, [[]]⟩
      : ReducePostProbingTable Nat Nat).emitters = List.replicate 1 [] ∧
    (⟨⟨none, [[(1, 1)], [(2, 2), (3, 3)]], [[], []]⟩, [[]]⟩
      : ReducePostProbingTable Nat Nat).Flush.emitters
        = List.replicate 1 [(1, 1), (2, 2), (3, 3)] ∧
    [(1, 1), (2, 2), (3, 3)].length
      = (⟨⟨none, [[(1, 1)], [(2, 2), (3, 3)]], [[], []]⟩, [[]]⟩
        : ReducePostProbingTable Nat Nat).NumItems ∧
    (⟨⟨none, [[(1, 1)], [(2, 2), (3, 3)]], [[], []]⟩, [[]]⟩
      : ReducePostProbingTable Nat Nat).Flush.NumItems = 0 ∧
    ((⟨⟨none, [[(1, 1)], [(2, 2), (3, 3)]], [[], []]⟩, [[]]⟩
      : ReducePostProbingTable Nat Nat).Flush.Insert
        ⟨fun v => v, fun a b => a + b, fun k => k / 2⟩ (1, 1)).NumItems = 1 :=
  have h := C16_flush_drains ⟨fun v => v, fun a b => a + b, fun k => k / 2⟩ 2 1
    [(1, 1), (2, 2), (3, 3)] (1, 1)
    ⟨⟨none, [[(1, 1)], [(2, 2), (3, 3)]], [[], []]⟩, [[]]⟩ (by decide) (by decide)
  ⟨h.1, h.2.1, h.2.2.1, h.2.2.2.1, h.2.2.2.2.2.2.2.1, h.2.2.2.2.2.2.2.2⟩

/-- C17 (multiple emitters): `Flush` appends one and the same sequence of
items, in the same order, to what each registered emitter had received: any
two emitters `i` and `j` receive the same flushed sequence, the yield of the
table, and no emitter is added or dropped. -/
theorem C17_multiple_emitters {Key Value : Type} (self : ReducePostProbingTable Key Value)
    (i j : Nat) (received_i received_j : List (Key × Value))
    (hi : self.emitters[i]? = some received_i) (hj : self.emitters[j]? = some received_j) :
    ∃ flushed, flushed = self.table.yield ∧
      self.Flush.emitters[i]? = some (received_i ++ flushed) ∧
      self.Flush.emitters[j]? = some (received_j ++ flushed) ∧
      self.Flush.emitters.length = self.emitters.length := by
  refine ⟨self.table.yield, rfl, ?_, ?_, ?_⟩
  · rw [post_Flush_emitters, List.getElem?_map, hi]
    rfl
  · rw [post_Flush_emitters, List.getElem?_map, hj]
    rfl
  · rw [post_Flush_emitters, List.length_map]

theorem C17_multiple_emitters_witness :
    ∃ flushed, flushed = [(1, 1), (2, 2), (3, 3)] ∧
      (⟨⟨none, [[(1, 1)], [(2, 2), (3, 3)]], [[], []]⟩, [[], []]⟩
        : ReducePostProbingTable Nat Nat).Flush.emitters[0]? = some ([] ++ flushed) ∧
      (⟨⟨none, [[(1, 1)], [(2, 2), (3, 3)]], [[], []]⟩, [[], []]⟩
        : ReducePostProbingTable Nat Nat).Flush.emitters[1]? = some ([] ++ flushed) ∧
      (⟨⟨none, [[(1, 1)], [(2, 2), (3, 3)]], [[], []]⟩, [[], []]⟩
        : ReducePostProbingTable Nat Nat).Flush.emitters.length
        = (⟨⟨none, [[(1, 1)], [(2, 2), (3, 3)]], [[], []]⟩, [[], []]⟩
          : ReducePostProbingTable Nat Nat).emitters.length ∧
      List.foldl (ReducePostProbingTable.Insert
          ⟨fun v => v, fun a b => a + b, fun k => k / 2⟩)
        (ReducePostProbingTable.create 2 2) [(1, 1), (2, 2), (3, 3)]
        = ⟨⟨none, [[(1, 1)], [(2, 2), (3, 3)]], [[], []]⟩, [[], []]⟩ :=
  match C17_multiple_emitters
    (⟨⟨none, [[(1, 1)], [(2, 2), (3, 3)]], [[], []]⟩, [[], []]⟩
      : ReducePostProbingTable Nat Nat) 0 1 [] [] (by decide) (by decide) with
  | ⟨flushed, h0, h1, h2, h3⟩ => ⟨flushed, h0.trans (by decide), h1, h2, h3, by decide⟩

/-! ## `ReducePreStage::Insert` -/

theorem PreStage_insert_eq {Key Value : Type} [DecidableEq Key]
    (fn : ReduceFunctions Key Value) (hash : Key → Nat) (self : PreStage Key Value)
    (call : Inserted Key Value) :
    PreStage.insert fn hash self call
      = { emit_ := self.emit_,
          table_ := (self.table_.Insert fn (call.toPair fn)).2,
          counters := self.counters.record (self.table_.Insert fn (call.toPair fn)).1
            (hash (call.toPair fn).1) } := by
  cases call <;> rfl

theorem PreStage_insertAll {Key Value : Type} [DecidableEq Key]
    (fn : ReduceFunctions Key Value) (hash : Key → Nat) (n : Nat) (hn : 0 < n)
    (calls : List (Inserted Key Value)) (self : PreStage Key Value)
    (done : List (Key × Value))
    (hinv : TableInv fn n self.table_ done)
    (hhashes : self.counters.hashes_ = (firstOccurrences (done.map Prod.fst)).map hash)
    (hunique : self.counters.unique_elements_ = (firstOccurrences (done.map Prod.fst)).length)
    (htotal : self.counters.total_elements_ = done.length)
    (hspill : self.table_.noSpill fn (calls.map (Inserted.toPair fn)) = true) :
    (calls.foldl (PreStage.insert fn hash) self).table_
      = self.table_.insertAll fn (calls.map (Inserted.toPair fn)) ∧
    (calls.foldl (PreStage.insert fn hash) self).counters.hashes_
      = (firstOccurrences ((done ++ calls.map (Inserted.toPair fn)).map Prod.fst)).map hash ∧
    (calls.foldl (PreStage.insert fn hash) self).counters.unique_elements_
      = (firstOccurrences ((done ++ calls.map (Inserted.toPair fn)).map Prod.fst)).length ∧
    (calls.foldl (PreStage.insert fn hash) self).counters.total_elements_
      = (done ++ calls.map (Inserted.toPair fn)).length := by
  induction calls generalizing self done with
  | nil =>
    simp only [List.map_nil, List.append_nil, List.foldl_nil]
    exact ⟨rfl, hhashes, hunique, htotal⟩
  | cons call rest ih =>
    rw [List.map_cons, ReduceTable.noSpill, Bool.and_eq_true] at hspill
    have hs : self.table_.spills fn (call.toPair fn) = false := by simpa using hspill.1
    obtain ⟨h1, _, _, hans⟩ := TableInv_insert fn n self.table_ done (call.toPair fn) hn hinv hs
    rw [List.foldl_cons, PreStage_insert_eq, List.map_cons]
    have hstep := ih
      { emit_ := self.emit_,
        table_ := (self.table_.Insert fn (call.toPair fn)).2,
        counters := self.counters.record (self.table_.Insert fn (call.toPair fn)).1
          (hash (call.toPair fn).1) }
      (done ++ [call.toPair fn]) h1
    have hdone : done ++ [call.toPair fn] ++ rest.map (Inserted.toPair fn)
        = done ++ call.toPair fn :: rest.map (Inserted.toPair fn) := by simp
    rw [hdone] at hstep
    by_cases hnew : (call.toPair fn).1 ∈ done.map Prod.fst
    · have hfalse : (self.table_.Insert fn (call.toPair fn)).1 = false := by
        cases hb : (self.table_.Insert fn (call.toPair fn)).1 with
        | false => rfl
        | true => exact absurd hnew (hans.mp hb)
      apply hstep
      · rw [hfalse, List.map_append, List.map_singleton, firstOccurrences_append_singleton,
          if_pos hnew]
        exact hhashes
      · rw [hfalse, List.map_append, List.map_singleton, firstOccurrences_append_singleton,
          if_pos hnew]
        exact hunique
      · rw [hfalse]
        simp [ReducePreStage.record, htotal]
      · exact hspill.2
    · have htrue : (self.table_.Insert fn (call.toPair fn)).1 = true := hans.mpr hnew
      apply hstep
      · rw [htrue, List.map_append, List.map_singleton, firstOccurrences_append_singleton,
          if_neg hnew]
        simp [ReducePreStage.record, hhashes]
      · rw [htrue, List.map_append, List.map_singleton, firstOccurrences_append_singleton,
          if_neg hnew]
        simp [ReducePreStage.record, hunique]
      · rw [htrue]
        simp [ReducePreStage.record, htotal]
      · exact hspill.2

/-- C14 (one hash per distinct key): for every sequence of `Insert` calls,
of either overload, on a newly constructed and initialized stage with at
least one partition, during which no partition is spilled: `hashes_` is the
list of `std::hash` of the distinct keys in order of first occurrence (one
entry per distinct key), `unique_elements_` is the number of distinct keys,
and `total_elements_` is the number of `Insert` calls. -/
theorem C14_one_hash_per_key {Key Value : Type} [DecidableEq Key]
    (fn : ReduceFunctions Key Value) (hash : Key → Nat) (VolatileKey : Bool)
    (num_partitions limit_memory : Nat) (emit : List (DynBlockWriter Key Value))
    (stage0 : PreStage Key Value) (calls : List (Inserted Key Value))
    (hpos : 0 < num_partitions)
    (hcreate : PreStage.create VolatileKey num_partitions emit = some stage0)
    (hspill : (stage0.Initialize limit_memory).table_.noSpill fn
      (calls.map (Inserted.toPair fn)) = true) :
    (calls.foldl (PreStage.insert fn hash) (stage0.Initialize limit_memory)).counters.hashes_
      = (firstOccurrences (calls.map (fun call => (call.toPair fn).1))).map hash ∧
    (calls.foldl (PreStage.insert fn hash)
        (stage0.Initialize limit_memory)).counters.unique_elements_
      = (firstOccurrences (calls.map (fun call => (call.toPair fn).1))).length ∧
    (calls.foldl (PreStage.insert fn hash)
        (stage0.Initialize limit_memory)).counters.unique_elements_
      = (calls.map (fun call => (call.toPair fn).1)).toFinset.card ∧
    (calls.foldl (PreStage.insert fn hash)
        (stage0.Initialize limit_memory)).counters.total_elements_ = calls.length ∧
    (firstOccurrences (calls.map (fun call => (call.toPair fn).1))).Nodup ∧
    ∀ k, k ∈ firstOccurrences (calls.map (fun call => (call.toPair fn).1))
      ↔ k ∈ calls.map (fun call => (call.toPair fn).1) := by
  unfold PreStage.create at hcreate
  split at hcreate
  · have hs := Option.some.inj hcreate
    have hinv0 : TableInv fn num_partitions (stage0.Initialize limit_memory).table_ [] :=
      TableInv_create fn num_partitions _ (by rw [← hs]; rfl)
    obtain ⟨_, h2, h3, h4⟩ := PreStage_insertAll fn hash num_partitions hpos calls
      (stage0.Initialize limit_memory) [] hinv0 (by rw [← hs]; rfl) (by rw [← hs]; rfl)
      (by rw [← hs]; rfl) hspill
    have hkeys : (calls.map (Inserted.toPair fn)).map Prod.fst
        = calls.map (fun call => (call.toPair fn).1) := by
      rw [List.map_map]
      rfl
    rw [List.nil_append, hkeys] at h2 h3
    rw [List.nil_append, List.length_map] at h4
    refine ⟨h2, h3, ?_, h4, firstOccurrences_nodup _, fun k => mem_firstOccurrences _ k⟩
    rw [h3, firstOccurrences_length]
  · exact Option.noConfusion hcreate

theorem C14_one_hash_per_key_witness :
    (List.foldl (PreStage.insert ⟨fun v => v, fun a b => a + b, fun k => k / 2⟩ (fun k => k))
        (PreStage.Initialize
          (⟨⟨true, [⟨[], 0, false⟩, ⟨[], 0, false⟩], [0, 0]⟩,
            ⟨none, [[], []], [[], []]⟩, ⟨[], 0, 0⟩⟩ : PreStage Nat Nat) 10)
        [Inserted.pair (1, 1), Inserted.pair (2, 1), Inserted.value 3,
          Inserted.pair (2, 1)]).counters
      = ⟨[1, 2, 3], 3, 4⟩ :=
  have h := C14_one_hash_per_key ⟨fun v => v, fun a b => a + b, fun k => k / 2⟩ (fun k => k)
    true 2 10 [⟨[], 0, false⟩, ⟨[], 0, false⟩]
    (⟨⟨true, [⟨[], 0, false⟩, ⟨[], 0, false⟩], [0, 0]⟩,
      ⟨none, [[], []], [[], []]⟩, ⟨[], 0, 0⟩⟩ : PreStage Nat Nat)
    [Inserted.pair (1, 1), Inserted.pair (2, 1), Inserted.value 3, Inserted.pair (2, 1)]
    (by decide) (by decide) (by decide)
  ReducePreStage.mk.injEq _ _ _ _ _ _ ▸ ⟨h.1.trans (by decide), h.2.1.trans (by decide),
    h.2.2.2.1⟩

/-! ## The emitter: records and `CloseAll` -/

/-- C21 (record of an `Emit`): on an open writer `Emit(partition_id, p)`
writes exactly one record, which is the whole pair `p` when the emitter is
configured `VolatileKey` and the value `p.second` alone when it is not
(`RobustKey`); the mode is the one given at construction, and no operation of
the emitter changes it. -/
theorem C21_emit_record {Key Value : Type} (self : ReducePreStageEmitter Key Value)
    (partition_id : Nat) (p : Key × Value) (writer : DynBlockWriter Key Value)
    (hget : self.writer_[partition_id]? = some writer) (hopen : writer.closed = false) :
    (∃ self' record, self.Emit partition_id p = Outcome.ok self' ∧
      self'.writer_[partition_id]?
        = some { writer with items := writer.items ++ [record] } ∧
      (self.VolatileKey = true → record = Record.pair p) ∧
      (self.VolatileKey = false → record = Record.value p.2) ∧
      self'.VolatileKey = self.VolatileKey) ∧
    (∀ (w : DynBlockWriter Key Value),
      ReducePreStageEmitterSwitch.Put true p w = w.Put (Record.pair p) ∧
      ReducePreStageEmitterSwitch.Put false p w = w.Put (Record.value p.2)) ∧
    (∀ (VolatileKey : Bool) (writers : List (DynBlockWriter Key Value)),
      (ReducePreStageEmitter.create VolatileKey writers).VolatileKey = VolatileKey) ∧
    (∀ (emitter : ReducePreStageEmitter Key Value) (id : Nat) (q : Key × Value),
      (∀ state, (emitter.Emit id q = Outcome.ok state ∨ emitter.Emit id q = Outcome.error state)
        → state.VolatileKey = emitter.VolatileKey) ∧
      (∀ state, emitter.Flush id = some state → state.VolatileKey = emitter.VolatileKey) ∧
      emitter.CloseAll.VolatileKey = emitter.VolatileKey) := by
  have hlt : partition_id < self.writer_.length := getElem?_lt_of_some _ _ _ hget
  refine ⟨⟨_, recordOf self.VolatileKey p,
    emit_of_open self partition_id p writer hget hopen, ?_, ?_, ?_, rfl⟩,
    fun w => ⟨rfl, rfl⟩, fun _ _ => rfl, fun emitter id q => ⟨?_, ?_, rfl⟩⟩
  · simp [List.getElem?_set_self hlt]
  · intro h
    rw [h]
    rfl
  · intro h
    rw [h]
    rfl
  · intro state h
    unfold ReducePreStageEmitter.Emit at h
    cases hw : emitter.writer_[id]? with
    | none =>
      rw [hw] at h
      simp only [] at h
      rcases h with h | h
      · exact Outcome.noConfusion h
      · injection h with h
        rw [← h]
    | some w =>
      rw [hw] at h
      simp only [] at h
      cases hput : ReducePreStageEmitterSwitch.Put emitter.VolatileKey q w with
      | none =>
        rw [hput] at h
        simp only [] at h
        rcases h with h | h
        · exact Outcome.noConfusion h
        · injection h with h
          rw [← h]
      | some w' =>
        rw [hput] at h
        simp only [] at h
        rcases h with h | h
        · injection h with h
          rw [← h]
        · exact Outcome.noConfusion h
  · intro state h
    unfold ReducePreStageEmitter.Flush at h
    cases hw : emitter.writer_[id]? with
    | none =>
      rw [hw] at h
      exact Option.noConfusion h
    | some w =>
      rw [hw] at h
      have hs := Option.some.inj h
      rw [← hs]

theorem C21_emit_record_witness :
    (ReducePreStageEmitter.create true [(⟨[], 0, false⟩ : DynBlockWriter Nat Nat)]).Emit 0 (7, 9)
      = Outcome.ok ⟨true, [⟨[Record.pair (7, 9)], 0, false⟩], [1]⟩ ∧
    (ReducePreStageEmitter.create false [(⟨[], 0, false⟩ : DynBlockWriter Nat Nat)]).Emit 0
        (7, 9)
      = Outcome.ok ⟨false, [⟨[Record.value 9], 0, false⟩], [1]⟩ ∧
    ∀ (w : DynBlockWriter Nat Nat),
      ReducePreStageEmitterSwitch.Put true (7, 9) w = w.Put (Record.pair (7, 9)) ∧
      ReducePreStageEmitterSwitch.Put false (7, 9) w = w.Put (Record.value (7, 9).2) :=
  ⟨by decide, by decide,
    (C21_emit_record
      (ReducePreStageEmitter.create true [(⟨[], 0, false⟩ : DynBlockWriter Nat Nat)]) 0 (7, 9)
      ⟨[], 0, false⟩ (by decide) (by decide)).2.1⟩

/-- C22 (counterexample to the claim as stated): an emitter over one writer
is closed with `CloseAll`; `Emit(0, (1,1))` then is an error and appends no
record, but `stats_[0]` has gone from 0 to 1 when the error is raised. -/
theorem C22_counterexample :
    (ReducePreStageEmitter.create true
        [(⟨[], 0, false⟩ : DynBlockWriter Nat Nat)]).CloseAll
      = ⟨true, [⟨[], 0, true⟩], [0]⟩ ∧
    (ReducePreStageEmitter.create true
        [(⟨[], 0, false⟩ : DynBlockWriter Nat Nat)]).CloseAll.Emit 0 (1, 1)
      = Outcome.error ⟨true, [⟨[], 0, true⟩], [1]⟩ := by
  decide

/-- C22 (as the code has it): `CloseAll` closes every partition writer and
keeps their records, and a closed writer stays closed; after `CloseAll`,
`Emit(partition_id, pair)` is an error for every partition id and appends no
record to any writer. For a partition id below the number of writers the
counter `stats_[partition_id]` has been incremented when the error is raised
(the increment precedes the `Put`); for any other partition id the assertion
fails with the state unchanged. `ReducePreStage::CloseAll` closes the emitter
in this way. -/
theorem C22_close_all_terminal {Key Value : Type} (self : ReducePreStageEmitter Key Value)
    (partition_id : Nat) (p : Key × Value) :
    self.CloseAll.writer_.length = self.writer_.length ∧
    (∀ w ∈ self.CloseAll.writer_, w.closed = true) ∧
    self.CloseAll.writer_.map (fun w => w.items) = self.writer_.map (fun w => w.items) ∧
    self.CloseAll.stats_ = self.stats_ ∧
    (∀ (w : DynBlockWriter Key Value) (record : Record Key Value), w.closed = true →
      w.Put record = none ∧ w.Flush.closed = true ∧ w.Close.closed = true) ∧
    (∃ state, self.CloseAll.Emit partition_id p = Outcome.error state ∧
      state.writer_ = self.CloseAll.writer_ ∧
      state.stats_ = if partition_id < self.writer_.length then
          increment partition_id self.stats_
        else self.stats_) ∧
    (∀ stage : PreStage Key Value, stage.CloseAll.emit_ = stage.emit_.CloseAll) := by
  refine ⟨by simp [ReducePreStageEmitter.CloseAll], ?_, ?_, rfl, ?_, ?_, fun _ => rfl⟩
  · intro w hw
    simp only [ReducePreStageEmitter.CloseAll, List.mem_map] at hw
    obtain ⟨w0, _, rfl⟩ := hw
    rfl
  · simp only [ReducePreStageEmitter.CloseAll, List.map_map]
    rfl
  · intro w record hc
    refine ⟨?_, hc, rfl⟩
    simp [DynBlockWriter.Put, hc]
  · unfold ReducePreStageEmitter.Emit
    by_cases hlt : partition_id < self.writer_.length
    · have hget : self.CloseAll.writer_[partition_id]?
          = some (self.writer_[partition_id]).Close := by
        simp [ReducePreStageEmitter.CloseAll, List.getElem?_eq_getElem hlt]
      rw [hget, if_pos hlt]
      have hput : ReducePreStageEmitterSwitch.Put self.CloseAll.VolatileKey p
          (self.writer_[partition_id]).Close = none := by
        cases self.CloseAll.VolatileKey <;>
          simp [ReducePreStageEmitterSwitch.Put, DynBlockWriter.Put, DynBlockWriter.Close]
      simp only [hput]
      exact ⟨_, rfl, rfl, rfl⟩
    · have hget : self.CloseAll.writer_[partition_id]? = none := by
        simp [ReducePreStageEmitter.CloseAll]
        omega
      rw [hget, if_neg hlt]
      exact ⟨_, rfl, rfl, rfl⟩

/-! ## The counters of `Insert` -/

theorem record_counters (self : ReducePreStage) (answer : Bool) (key_hash : Nat) :
    (self.record answer key_hash).total_elements_ = self.total_elements_ + 1 ∧
    (self.record answer key_hash).unique_elements_
      = self.unique_elements_ + (if answer = true then 1 else 0) ∧
    (self.record answer key_hash).hashes_
      = self.hashes_ ++ (if answer = true then [key_hash] else []) := by
  cases answer <;> simp [ReducePreStage.record]

theorem recordAll_counters (answers : List (Bool × Nat)) (self : ReducePreStage)
    (h : self.hashes_.length = self.unique_elements_) :
    (self.recordAll answers).hashes_.length = (self.recordAll answers).unique_elements_ ∧
    (self.recordAll answers).total_elements_ = self.total_elements_ + answers.length ∧
    (self.recordAll answers).unique_elements_ ≤ self.unique_elements_ + answers.length := by
  induction answers generalizing self with
  | nil => exact ⟨h, rfl, Nat.le_refl _⟩
  | cons answer rest ih =>
    obtain ⟨h1, h2, h3⟩ := record_counters self answer.1 answer.2
    obtain ⟨g1, g2, g3⟩ := ih (self.record answer.1 answer.2) (by
      rw [h3, h2, List.length_append, h]
      split <;> rfl)
    have hle : (self.record answer.1 answer.2).unique_elements_ ≤ self.unique_elements_ + 1 := by
      rw [h2]
      split <;> omega
    refine ⟨g1, ?_, ?_⟩
    · rw [ReducePreStage.recordAll, List.foldl_cons]
      rw [ReducePreStage.recordAll] at g2
      rw [g2, h1, List.length_cons]
      omega
    · rw [ReducePreStage.recordAll, List.foldl_cons]
      rw [ReducePreStage.recordAll] at g3
      rw [List.length_cons]
      omega

theorem PreStage_counters {Key Value : Type} [DecidableEq Key]
    (fn : ReduceFunctions Key Value) (hash : Key → Nat) (calls : List (Inserted Key Value))
    (self : PreStage Key Value) :
    ∃ answers : List (Bool × Nat), answers.length = calls.length ∧
      (calls.foldl (PreStage.insert fn hash) self).counters = self.counters.recordAll answers := by
  induction calls generalizing self with
  | nil => exact ⟨[], rfl, rfl⟩
  | cons call rest ih =>
    obtain ⟨answers, h1, h2⟩ := ih (PreStage.insert fn hash self call)
    refine ⟨((self.table_.Insert fn (call.toPair fn)).1, hash (call.toPair fn).1) :: answers,
      by simp [h1], ?_⟩
    rw [List.foldl_cons, h2, PreStage_insert_eq]
    rfl

/-- C27 (counters of `Insert`): after any sequence of `Insert` calls, of
either overload, on a newly constructed stage (initialized or not; spills
included), `hashes_.size() == unique_elements_ <= total_elements_`, and
`total_elements_` is the number of calls. Each `Insert` adds exactly 1 to
`total_elements_`; it adds 1 to `unique_elements_` and one entry, the hash of
the key, to `hashes_` exactly when the table reports a new key, and leaves
both as they are otherwise, whatever the table answers. -/
theorem C27_counters {Key Value : Type} [DecidableEq Key]
    (fn : ReduceFunctions Key Value) (hash : Key → Nat) (VolatileKey : Bool)
    (num_partitions limit_memory : Nat) (emit : List (DynBlockWriter Key Value))
    (stage0 start : PreStage Key Value) (calls : List (Inserted Key Value))
    (hcreate : PreStage.create VolatileKey num_partitions emit = some stage0)
    (hstart : start = stage0 ∨ start = stage0.Initialize limit_memory) :
    ((calls.foldl (PreStage.insert fn hash) start).counters.hashes_.length
        = (calls.foldl (PreStage.insert fn hash) start).counters.unique_elements_ ∧
      (calls.foldl (PreStage.insert fn hash) start).counters.unique_elements_
        ≤ (calls.foldl (PreStage.insert fn hash) start).counters.total_elements_ ∧
      (calls.foldl (PreStage.insert fn hash) start).counters.total_elements_
        = calls.length) ∧
    (∀ (self : PreStage Key Value) (call : Inserted Key Value),
      (PreStage.insert fn hash self call).counters.total_elements_
        = self.counters.total_elements_ + 1 ∧
      ((self.table_.Insert fn (call.toPair fn)).1 = true →
        (PreStage.insert fn hash self call).counters.unique_elements_
          = self.counters.unique_elements_ + 1 ∧
        (PreStage.insert fn hash self call).counters.hashes_
          = self.counters.hashes_ ++ [hash (call.toPair fn).1]) ∧
      ((self.table_.Insert fn (call.toPair fn)).1 = false →
        (PreStage.insert fn hash self call).counters.unique_elements_
          = self.counters.unique_elements_ ∧
        (PreStage.insert fn hash self call).counters.hashes_ = self.counters.hashes_)) ∧
    (∀ (counters : ReducePreStage) (answer : Bool) (key_hash : Nat),
      (counters.record answer key_hash).total_elements_ = counters.total_elements_ + 1 ∧
      (counters.record answer key_hash).unique_elements_
        = counters.unique_elements_ + (if answer = true then 1 else 0) ∧
      (counters.record answer key_hash).hashes_.length
        = counters.hashes_.length + (if answer = true then 1 else 0)) := by
  have hzero : start.counters = ⟨[], 0, 0⟩ := by
    unfold PreStage.create at hcreate
    split at hcreate
    · have hs := Option.some.inj hcreate
      rcases hstart with h | h
      · rw [h, ← hs]
      · rw [h, ← hs]
        rfl
    · exact Option.noConfusion hcreate
  refine ⟨?_, fun self call => ?_, fun counters answer key_hash => ?_⟩
  · obtain ⟨answers, hlen, heq⟩ := PreStage_counters fn hash calls start
    obtain ⟨h1, h2, h3⟩ := recordAll_counters answers start.counters (by rw [hzero]; rfl)
    rw [heq]
    rw [hzero] at h1 h2 h3 ⊢
    simp only [Nat.zero_add] at h2 h3
    refine ⟨h1, ?_, ?_⟩
    · rw [h2]
      exact h3
    · rw [h2, hlen]
  · rw [PreStage_insert_eq]
    obtain ⟨h1, h2, h3⟩ := record_counters self.counters
      (self.table_.Insert fn (call.toPair fn)).1 (hash (call.toPair fn).1)
    refine ⟨h1, fun ht => ?_, fun hf => ?_⟩
    · simp only []
      rw [h2, h3, ht]
      exact ⟨rfl, rfl⟩
    · simp only []
      rw [h2, h3, hf]
      simp
  · obtain ⟨h1, h2, h3⟩ := record_counters counters answer key_hash
    refine ⟨h1, h2, ?_⟩
    rw [h3, List.length_append]
    split <;> rfl

theorem C27_counters_witness :
    (List.foldl (PreStage.insert ⟨fun v => v, fun a b => a + b, fun k => k / 2⟩ (fun k => k))
        (PreStage.Initialize
          (⟨⟨true, [⟨[], 0, false⟩, ⟨[], 0, false⟩], [0, 0]⟩,
            ⟨none, [[], []], [[], []]⟩, ⟨[], 0, 0⟩⟩ : PreStage Nat Nat) 2)
        [Inserted.pair (1, 1), Inserted.pair (2, 1), Inserted.value 3,
          Inserted.pair (2, 1), Inserted.pair (0, 7)]).counters
      = ⟨[1, 2, 3, 2, 0], 5, 5⟩ ∧
    (List.foldl (PreStage.insert ⟨fun v => v, fun a b => a + b, fun k => k / 2⟩ (fun k => k))
        (PreStage.Initialize
          (⟨⟨true, [⟨[], 0, false⟩, ⟨[], 0, false⟩], [0, 0]⟩,
            ⟨none, [[], []], [[], []]⟩, ⟨[], 0, 0⟩⟩ : PreStage Nat Nat) 2)
        [Inserted.pair (1, 1), Inserted.pair (2, 1), Inserted.value 3,
          Inserted.pair (2, 1), Inserted.pair (0, 7)]).counters.hashes_.length
      = (List.foldl (PreStage.insert ⟨fun v => v, fun a b => a + b, fun k => k / 2⟩ (fun k => k))
        (PreStage.Initialize
          (⟨⟨true, [⟨[], 0, false⟩, ⟨[], 0, false⟩], [0, 0]⟩,
            ⟨none, [[], []], [[], []]⟩, ⟨[], 0, 0⟩⟩ : PreStage Nat Nat) 2)
        [Inserted.pair (1, 1), Inserted.pair (2, 1), Inserted.value 3,
          Inserted.pair (2, 1), Inserted.pair (0, 7)]).counters.unique_elements_ ∧
    (List.foldl (PreStage.insert ⟨fun v => v, fun a b => a + b, fun k => k / 2⟩ (fun k => k))
        (PreStage.Initialize
          (⟨⟨true, [⟨[], 0, false⟩, ⟨[], 0, false⟩], [0, 0]⟩,
            ⟨none, [[], []], [[], []]⟩, ⟨[], 0, 0⟩⟩ : PreStage Nat Nat) 2)
        [Inserted.pair (1, 1), Inserted.pair (2, 1), Inserted.value 3,
          Inserted.pair (2, 1), Inserted.pair (0, 7)]).counters.unique_elements_
      ≤ (List.foldl (PreStage.insert ⟨fun v => v, fun a b => a + b, fun k => k / 2⟩ (fun k => k))
        (PreStage.Initialize
          (⟨⟨true, [⟨[], 0, false⟩, ⟨[], 0, false⟩], [0, 0]⟩,
            ⟨none, [[], []], [[], []]⟩, ⟨[], 0, 0⟩⟩ : PreStage Nat Nat) 2)
        [Inserted.pair (1, 1), Inserted.pair (2, 1), Inserted.value 3,
          Inserted.pair (2, 1), Inserted.pair (0, 7)]).counters.total_elements_ ∧
    (List.foldl (PreStage.insert ⟨fun v => v, fun a b => a + b, fun k => k / 2⟩ (fun k => k))
        (PreStage.Initialize
          (⟨⟨true, [⟨[], 0, false⟩, ⟨[], 0, false⟩], [0, 0]⟩,
            ⟨none, [[], []], [[], []]⟩, ⟨[], 0, 0⟩⟩ : PreStage Nat Nat) 2)
        [Inserted.pair (1, 1), Inserted.pair (2, 1), Inserted.value 3,
          Inserted.pair (2, 1), Inserted.pair (0, 7)]).counters.total_elements_
      = [Inserted.pair (1, 1), Inserted.pair (2, 1), Inserted.value 3,
          Inserted.pair (2, 1), (Inserted.pair (0, 7) : Inserted Nat Nat)].length :=
  ⟨by decide,
    (C27_counters ⟨fun v => v, fun a b => a + b, fun k => k / 2⟩ (fun k => k)
      true 2 2 [⟨[], 0, false⟩, ⟨[], 0, false⟩]
      (⟨⟨true, [⟨[], 0, false⟩, ⟨[], 0, false⟩], [0, 0]⟩,
        ⟨none, [[], []], [[], []]⟩, ⟨[], 0, 0⟩⟩ : PreStage Nat Nat)
      (PreStage.Initialize
        (⟨⟨true, [⟨[], 0, false⟩, ⟨[], 0, false⟩], [0, 0]⟩,
          ⟨none, [[], []], [[], []]⟩, ⟨[], 0, 0⟩⟩ : PreStage Nat Nat) 2)
      [Inserted.pair (1, 1), Inserted.pair (2, 1), Inserted.value 3,
        Inserted.pair (2, 1), Inserted.pair (0, 7)]
      (by decide) (Or.inr rfl)).1⟩

/-! ## No remainder by zero -/

theorem count_flatten_two_inv (L : List (List Nat)) (x : Nat)
    (hnd : ∀ l ∈ L, l.Nodup) (h : 2 ≤ L.flatten.count x) :
    ∃ (w₁ w₂ : Nat) (l₁ l₂ : List Nat), w₁ < w₂ ∧ L[w₁]? = some l₁ ∧ L[w₂]? = some l₂ ∧ x ∈ l₁ ∧ x ∈ l₂ := by
  induction L with
  | nil => simp at h
  | cons a L ih =>
    rw [List.flatten_cons, List.count_append] at h
    have ha : a.count x ≤ 1 :=
      List.nodup_iff_count_le_one.mp (hnd a (List.mem_cons_self _ _)) x
    by_cases hx : x ∈ a
    · have hrest : 0 < L.flatten.count x := by omega
      obtain ⟨l, hl, hxl⟩ := List.mem_flatten.mp (List.count_pos_iff.mp hrest)
      obtain ⟨j, hj, rfl⟩ := List.getElem_of_mem hl
      exact ⟨0, j + 1, a, L[j], Nat.succ_pos _, List.getElem?_cons_zero,
        by rw [List.getElem?_cons_succ, List.getElem?_eq_getElem hj], hx, hxl⟩
    · have h0 : a.count x = 0 := List.count_eq_zero.mpr hx
      obtain ⟨w₁, w₂, l₁, l₂, hlt, h₁, h₂, hx₁, hx₂⟩ :=
        ih (fun l hl => hnd l (List.mem_cons_of_mem _ hl)) (by omega)
      exact ⟨w₁ + 1, w₂ + 1, l₁, l₂, by omega, by rw [List.getElem?_cons_succ]; exact h₁,
        by rw [List.getElem?_cons_succ]; exact h₂, hx₁, hx₂⟩

/-- A fingerprint is among the duplicates of the cluster exactly if two
different workers hold it. -/
theorem mem_clusterDuplicates_iff (cluster : List ReducePreStage) (f : Nat)
    (hz : FlushAll.max_hash (AllReduce (cluster.map (fun w => w.unique_elements_))) = 0 →
      ∀ w ∈ cluster, w.hashes_ = []) :
    f ∈ clusterDuplicates cluster ↔
      ∃ (w₁ w₂ : Nat) (s₁ s₂ : ReducePreStage), w₁ < w₂ ∧ cluster[w₁]? = some s₁ ∧ cluster[w₂]? = some s₂ ∧
        f ∈ s₁.hashes_.map (fun h => h %
          FlushAll.max_hash (AllReduce (cluster.map (fun w => w.unique_elements_)))) ∧
        f ∈ s₂.hashes_.map (fun h => h %
          FlushAll.max_hash (AllReduce (cluster.map (fun w => w.unique_elements_)))) := by
  rw [mem_clusterDuplicates]
  constructor
  · rintro ⟨i, _, hcount⟩
    unfold merged at hcount
    rw [(sort_perm _).count_eq] at hcount
    obtain ⟨w₁, w₂, l₁, l₂, hlt, h₁, h₂, hx₁, hx₂⟩ := count_flatten_two_inv _ f (by
      intro l hl
      obtain ⟨w, _, rfl⟩ := List.mem_map.mp hl
      exact (distinctIn_sorted _ _ (projected_sorted _ _)).nodup) hcount
    rw [List.getElem?_map] at h₁ h₂
    cases hs₁ : cluster[w₁]? with
    | none =>
      rw [hs₁] at h₁
      exact Option.noConfusion h₁
    | some s₁ =>
      cases hs₂ : cluster[w₂]? with
      | none =>
        rw [hs₂] at h₂
        exact Option.noConfusion h₂
      | some s₂ =>
        rw [hs₁] at h₁
        rw [hs₂] at h₂
        have e₁ := Option.some.inj h₁
        have e₂ := Option.some.inj h₂
        rw [← e₁, mem_distinctIn, mem_projected] at hx₁
        rw [← e₂, mem_distinctIn, mem_projected] at hx₂
        obtain ⟨⟨g₁, hg₁, hm₁⟩, _⟩ := hx₁
        obtain ⟨⟨g₂, hg₂, hm₂⟩, _⟩ := hx₂
        exact ⟨w₁, w₂, s₁, s₂, hlt, hs₁, hs₂, List.mem_map.mpr ⟨g₁, hg₁, hm₁⟩,
          List.mem_map.mpr ⟨g₂, hg₂, hm₂⟩⟩
  · rintro ⟨w₁, w₂, s₁, s₂, hlt, h₁, h₂, hx₁, hx₂⟩
    obtain ⟨g₁, hg₁, hm₁⟩ := List.mem_map.mp hx₁
    obtain ⟨g₂, hg₂, hm₂⟩ := List.mem_map.mp hx₂
    have hpos : 0 < FlushAll.max_hash
        (AllReduce (cluster.map (fun w => w.unique_elements_))) := by
      apply Nat.pos_of_ne_zero
      intro h0
      have he := hz h0 s₁ (List.getElem?_mem h₁)
      rw [he] at hg₁
      simp at hg₁
    have hw₂ : w₂ < cluster.length := getElem?_lt_of_some _ _ _ h₂
    have hf : f < FlushAll.max_hash
        (AllReduce (cluster.map (fun w => w.unique_elements_))) := by
      rw [← hm₁]
      exact Nat.mod_lt _ hpos
    obtain ⟨i, hi, hb, he⟩ := (range_mem_iff _ cluster.length f (by omega)).1 hf
    refine ⟨i, hi, ?_⟩
    unfold merged
    rw [(sort_perm _).count_eq]
    refine count_flatten_two _ _ w₁ w₂ _ _ hlt ?_ ?_
      ((mem_distinctIn _ _ _).mpr ⟨(mem_projected _ s₁ f).mpr ⟨g₁, hg₁, hm₁⟩, hb, he⟩)
      ((mem_distinctIn _ _ _).mpr ⟨(mem_projected _ s₂ f).mpr ⟨g₂, hg₂, hm₂⟩, hb, he⟩)
    · rw [List.getElem?_map, h₁]
      rfl
    · rw [List.getElem?_map, h₂]
      rfl

/-- C24 (which fingerprints are reported): whenever the protocol of
`FlushAll` completes, a fingerprint `f` is in the duplicate list of a worker
if and only if two different workers each hold a key whose fingerprint
(`hash mod max_hash`) is `f`; a fingerprint that only one worker holds,
however often, is not reported, and with a single worker the duplicate list is
empty. -/
theorem C24_duplicates_iff (cluster : List ReducePreStage) (duplicates : List (List Nat))
    (hrun : FlushAll cluster = some duplicates) :
    (∀ d ∈ duplicates, ∀ f, f ∈ d ↔
      ∃ (w₁ w₂ : Nat) (s₁ s₂ : ReducePreStage), w₁ < w₂ ∧ cluster[w₁]? = some s₁ ∧ cluster[w₂]? = some s₂ ∧
        f ∈ s₁.hashes_.map (fun h => h %
          FlushAll.max_hash (AllReduce (cluster.map (fun w => w.unique_elements_)))) ∧
        f ∈ s₂.hashes_.map (fun h => h %
          FlushAll.max_hash (AllReduce (cluster.map (fun w => w.unique_elements_))))) ∧
    (cluster.length = 1 → duplicates = [[]]) := by
  obtain ⟨hd, hz⟩ := FlushAll_some cluster duplicates hrun
  have hiff := fun f => mem_clusterDuplicates_iff cluster f hz
  refine ⟨fun d hdm f => ?_, fun hone => ?_⟩
  · rw [hd] at hdm
    rw [List.eq_of_mem_replicate hdm]
    exact hiff f
  · have hnil : clusterDuplicates cluster = [] := by
      apply List.eq_nil_iff_forall_not_mem.mpr
      intro f hf
      obtain ⟨w₁, w₂, s₁, s₂, hlt, _, h₂, _, _⟩ := (hiff f).mp hf
      have := getElem?_lt_of_some _ _ _ h₂
      omega
    rw [hd, hone, hnil]
    rfl

theorem C24_duplicates_iff_witness :
    FlushAll [⟨[1, 33, 3], 3, 3⟩, ⟨[3], 1, 1⟩] = some [[3], [3]] ∧
    FlushAll.max_hash (AllReduce
      ([(⟨[1, 33, 3], 3, 3⟩ : ReducePreStage), ⟨[3], 1, 1⟩].map
        (fun w => w.unique_elements_))) = 32 ∧
    ∀ d ∈ [[3], [3]], ∀ f, f ∈ d ↔
      ∃ (w₁ w₂ : Nat) (s₁ s₂ : ReducePreStage), w₁ < w₂ ∧
        [(⟨[1, 33, 3], 3, 3⟩ : ReducePreStage), ⟨[3], 1, 1⟩][w₁]? = some s₁ ∧
        [(⟨[1, 33, 3], 3, 3⟩ : ReducePreStage), ⟨[3], 1, 1⟩][w₂]? = some s₂ ∧
        f ∈ s₁.hashes_.map (fun h => h % FlushAll.max_hash (AllReduce
          ([(⟨[1, 33, 3], 3, 3⟩ : ReducePreStage), ⟨[3], 1, 1⟩].map
            (fun w => w.unique_elements_)))) ∧
        f ∈ s₂.hashes_.map (fun h => h % FlushAll.max_hash (AllReduce
          ([(⟨[1, 33, 3], 3, 3⟩ : ReducePreStage), ⟨[3], 1, 1⟩].map
            (fun w => w.unique_elements_)))) :=
  ⟨by decide, by decide,
    (C24_duplicates_iff [⟨[1, 33, 3], 3, 3⟩, ⟨[3], 1, 1⟩] [[3], [3]] (by decide)).1⟩

/-! ## The values encoded by `WriteEncodedHashes` -/

theorem dests_encoded (p b n cap k i : Nat) (rest : List Nat) (blocks : List Block)
    (h : WriteEncodedHashes.dests p b n cap k i rest = some blocks) :
    blocks = (WriteEncodedHashes.encoded p n k i rest).1.map (Block.encode b) := by
  induction k generalizing i rest blocks with
  | zero =>
    simp only [WriteEncodedHashes.dests] at h
    rw [← Option.some.inj h]
    rfl
  | succ k ih =>
    rw [WriteEncodedHashes.dests, dest_eq] at h
    by_cases hfit : blockBits b
        (WriteEncodedHashes.destVals (CalculateLocalRange n p i).end_ rest) ≤ cap
    · rw [if_pos hfit] at h
      simp only [] at h
      cases hrest : WriteEncodedHashes.dests p b n cap k (i + 1)
          (WriteEncodedHashes.destRest (CalculateLocalRange n p i).end_ rest) with
      | none =>
        rw [hrest] at h
        exact Option.noConfusion h
      | some blocks' =>
        rw [hrest] at h
        rw [← Option.some.inj h, ih _ _ _ hrest]
        rfl
    · rw [if_neg hfit] at h
      exact Option.noConfusion h

theorem encoded_eq (l : List Nat) (p n : Nat)
    (hs : List.Sorted (fun x y => x ≤ y) l) (hlt : ∀ x ∈ l, x < n) (k i : Nat)
    (hik : i + k ≤ p) :
    WriteEncodedHashes.encoded p n k i
        (l.filter (fun x => decide ((CalculateLocalRange n p i).begin ≤ x)))
      = ((List.range' i k).map (fun j => distinctIn (CalculateLocalRange n p j) l),
          l.filter (fun x => decide ((CalculateLocalRange n p (i + k)).begin ≤ x))) := by
  induction k generalizing i with
  | zero => rfl
  | succ k ih =>
    have hi : i < p := by omega
    rw [WriteEncodedHashes.encoded, destVals_filter n p _ i l hs hlt (by omega) rfl,
      destRest_filter n p i l hs hlt hi, ih (i + 1) (by omega), List.range'_succ,
      List.map_cons]
    simp only []
    rw [Nat.add_assoc, Nat.add_comm 1 k]

/-- C25 (what `WriteEncodedHashes` encodes): for every sorted list `hashes_`
with all entries below `max_hash` and at least one destination, the values
encoded for destination `i` are strictly increasing and are exactly the
distinct values of `hashes_` in `[range_i.begin, range_i.end)`; every local
fingerprint is encoded for exactly one destination, once; after the last
destination the cursor has consumed the whole list; and the blocks that
`WriteEncodedHashes` writes, when it completes, are the blocks of these
values. -/
theorem C25_encoded_values (hashes_ : List Nat) (num_workers b max_hash space_bound : Nat)
    (hs : List.Sorted (fun x y => x ≤ y) hashes_) (hlt : ∀ x ∈ hashes_, x < max_hash)
    (hp : 0 < num_workers) :
    (WriteEncodedHashes.encoded num_workers max_hash num_workers 0 hashes_).1.length
      = num_workers ∧
    (WriteEncodedHashes.encoded num_workers max_hash num_workers 0 hashes_).2 = [] ∧
    (∀ i < num_workers,
      List.Sorted (fun x y => x < y)
        ((WriteEncodedHashes.encoded num_workers max_hash num_workers 0 hashes_).1.getD i []) ∧
      ∀ x, x ∈ (WriteEncodedHashes.encoded num_workers max_hash num_workers 0
          hashes_).1.getD i [] ↔
        x ∈ hashes_ ∧ (CalculateLocalRange max_hash num_workers i).begin ≤ x ∧
          x < (CalculateLocalRange max_hash num_workers i).end_) ∧
    (∀ x ∈ hashes_, ∃ i < num_workers,
      ((WriteEncodedHashes.encoded num_workers max_hash num_workers 0
        hashes_).1.getD i []).count x = 1 ∧
      ∀ j < num_workers, x ∈ (WriteEncodedHashes.encoded num_workers max_hash num_workers 0
        hashes_).1.getD j [] → j = i) ∧
    (∀ blocks, WriteEncodedHashes hashes_ num_workers b max_hash space_bound = some blocks →
      blocks = (WriteEncodedHashes.encoded num_workers max_hash num_workers 0
        hashes_).1.map (Block.encode b)) := by
  have henc := encoded_eq hashes_ num_workers max_hash hs hlt num_workers 0 (by omega)
  rw [range_begin_zero] at henc
  simp only [Nat.zero_le, decide_True, List.filter_true, Nat.zero_add] at henc
  rw [range_begin_last _ _ hp, ← List.range_eq_range'] at henc
  have hget : ∀ i < num_workers,
      (WriteEncodedHashes.encoded num_workers max_hash num_workers 0 hashes_).1.getD i []
        = distinctIn (CalculateLocalRange max_hash num_workers i) hashes_ := by
    intro i hi
    rw [henc, List.getD_eq_getElem?_getD, List.getElem?_map,
      List.getElem?_range hi]
    rfl
  refine ⟨by rw [henc]; simp, ?_, fun i hi => ?_, fun x hx => ?_, fun blocks hb => ?_⟩
  · rw [henc]
    simp only []
    rw [List.filter_eq_nil_iff]
    intro x hx
    have := hlt x hx
    simp
    omega
  · rw [hget i hi]
    exact ⟨distinctIn_sorted _ _ hs, fun x => mem_distinctIn _ _ x⟩
  · obtain ⟨i, hi, hb, he⟩ := (range_mem_iff max_hash num_workers x hp).1 (hlt x hx)
    refine ⟨i, hi, ?_, fun j hj hxj => ?_⟩
    · rw [hget i hi]
      exact List.count_eq_one_of_mem (distinctIn_sorted _ _ hs).nodup
        ((mem_distinctIn _ _ x).mpr ⟨hx, hb, he⟩)
    · rw [hget j hj, mem_distinctIn] at hxj
      rcases Nat.lt_trichotomy i j with h | h | h
      · exact absurd hxj.2.1 (range_disjoint max_hash num_workers i j x h hj he)
      · exact h.symm
      · exact absurd hb (range_disjoint max_hash num_workers j i x h hi hxj.2.2)
  · exact dests_encoded _ _ _ _ _ _ _ _ hb

theorem C25_encoded_values_witness :
    WriteEncodedHashes.encoded 2 16 2 0 [0, 0, 3, 9, 9, 15] = ([[0, 3], [9, 15]], []) ∧
    (∀ i < 2,
      List.Sorted (fun x y => x < y)
        ((WriteEncodedHashes.encoded 2 16 2 0 [0, 0, 3, 9, 9, 15]).1.getD i []) ∧
      ∀ x, x ∈ (WriteEncodedHashes.encoded 2 16 2 0 [0, 0, 3, 9, 9, 15]).1.getD i [] ↔
        x ∈ [0, 0, 3, 9, 9, 15] ∧ (CalculateLocalRange 16 2 i).begin ≤ x ∧
          x < (CalculateLocalRange 16 2 i).end_) ∧
    WriteEncodedHashes [0, 0, 3, 9, 9, 15] 2 5 16 100
      = some ([[0, 3], [9, 15]].map (Block.encode 5)) :=
  ⟨by decide,
    (C25_encoded_values [0, 0, 3, 9, 9, 15] 2 5 16 100 (by decide) (by decide)
      (by decide)).2.2.1,
    by decide⟩

/-! ## Wire layout of the blocks, value by value -/

theorem encoded_length (p n k i : Nat) (rest : List Nat) :
    (WriteEncodedHashes.encoded p n k i rest).1.length = k := by
  induction k generalizing i rest with
  | zero => rfl
  | succ k ih => simp [WriteEncodedHashes.encoded, ih]

theorem destRest_sorted (e : Nat) (l : List Nat) (hs : List.Sorted (fun x y => x ≤ y) l) :
    List.Sorted (fun x y => x ≤ y) (WriteEncodedHashes.destRest e l) := by
  have hdrop : ∀ t : List Nat, List.Sorted (fun x y => x ≤ y) t →
      List.Sorted (fun x y => x ≤ y) (t.dropWhile (fun x => decide (x < e))) :=
    fun t ht => List.Pairwise.sublist (List.dropWhile_sublist _) ht
  rcases l with _ | ⟨h, t⟩
  · exact hdrop [] hs
  · rcases h with _ | h
    · exact hdrop t (List.sorted_cons.1 hs).2
    · exact hdrop _ hs

theorem encoded_sorted (p n k i : Nat) (rest : List Nat)
    (hs : List.Sorted (fun x y => x ≤ y) rest) :
    ∀ vals ∈ (WriteEncodedHashes.encoded p n k i rest).1,
      List.Sorted (fun x y => x < y) vals := by
  induction k generalizing i rest with
  | zero =>
    intro vals hv
    simp [WriteEncodedHashes.encoded] at hv
  | succ k ih =>
    intro vals hv
    simp only [WriteEncodedHashes.encoded, List.mem_cons] at hv
    rcases hv with h | h
    · rw [h]
      exact destVals_sorted _ rest hs
    · exact ih (i + 1) _ (destRest_sorted _ rest hs) vals h

/-- The block of a strictly increasing list of values, field by field. -/
theorem encode_fields (b : Nat) (vals : List Nat)
    (hv : List.Sorted (fun x y => x < y) vals) :
    (Block.encode b vals).element_count = vals.length ∧
    (deltasFrom 0 vals).length = vals.length ∧
    runningSums 0 (deltasFrom 0 vals) = vals ∧
    (Block.encode b vals).byte_length = ((encodeAll b (deltasFrom 0 vals)).length + 7) / 8 ∧
    (Block.encode b vals).payload = encodeAll b (deltasFrom 0 vals) ++
      List.replicate (8 * (Block.encode b vals).byte_length
        - (encodeAll b (deltasFrom 0 vals)).length) false ∧
    8 * (Block.encode b vals).byte_length - (encodeAll b (deltasFrom 0 vals)).length < 8 ∧
    (Block.encode b vals).payload.length = 8 * (Block.encode b vals).byte_length ∧
    ReadEncodedHashesToVector [Block.encode b vals] [] b = some vals := by
  have hle : List.Sorted (fun x y => x ≤ y) vals := List.Sorted.le_of_lt hv
  refine ⟨rfl, deltasFrom_length 0 vals, ?_, rfl, rfl, ?_, ?_, ?_⟩
  · exact runningSums_deltasFrom vals 0
      (List.sorted_cons.2 ⟨fun _ _ => Nat.zero_le _, hle⟩)
  · simp only [Block.encode]
    omega
  · simp only [Block.encode, List.length_append, List.length_replicate]
    omega
  · rw [read_encode_single b vals [] hle]
    rfl

/-- C11 (wire block format): `WriteEncodedHashes` on a sorted `hashes_` writes
exactly one block per destination, and round 2 writes the duplicate block of
the sorted `hashes_dups` once to each of the `num_workers` writers. The block
of destination `i` is laid out for the values `vals` for which `golomb_in` was
called for that destination, the duplicate block for the values of the
duplicate scan: `element_count` is the number of these calls, one delta per
call, each delta the exact difference to the value before (the first to 0);
`byte_length` is the byte size of the code words of these deltas; the payload
is these code words followed by fewer than 8 zero bits, exactly `byte_length`
bytes; and reading the block gives back exactly `vals`. -/
theorem C11_block_layout (hashes_ : List Nat) (num_workers b max_hash space_bound : Nat)
    (blocks : List Block) (hashes_dups : List Nat) (duplicate_block : Block)
    (hs : List.Sorted (fun x y => x ≤ y) hashes_)
    (hsd : List.Sorted (fun x y => x ≤ y) hashes_dups)
    (hw : WriteEncodedHashes hashes_ num_workers b max_hash space_bound = some blocks)
    (hd : FlushAll.duplicates hashes_dups b space_bound = some duplicate_block) :
    blocks.length = num_workers ∧
    (WriteEncodedHashes.encoded num_workers max_hash num_workers 0 hashes_).1.length
      = num_workers ∧
    (∀ (i : Nat) (vals : List Nat),
      (WriteEncodedHashes.encoded num_workers max_hash num_workers 0 hashes_).1[i]?
        = some vals →
      ∃ block, blocks[i]? = some block ∧
        block.element_count = vals.length ∧
        (deltasFrom 0 vals).length = vals.length ∧
        runningSums 0 (deltasFrom 0 vals) = vals ∧
        block.byte_length = ((encodeAll b (deltasFrom 0 vals)).length + 7) / 8 ∧
        block.payload = encodeAll b (deltasFrom 0 vals) ++
          List.replicate (8 * block.byte_length
            - (encodeAll b (deltasFrom 0 vals)).length) false ∧
        8 * block.byte_length - (encodeAll b (deltasFrom 0 vals)).length < 8 ∧
        block.payload.length = 8 * block.byte_length ∧
        ReadEncodedHashesToVector [block] [] b = some vals) ∧
    (FlushAll.round2 num_workers duplicate_block).length = num_workers ∧
    (∀ block ∈ FlushAll.round2 num_workers duplicate_block, block = duplicate_block) ∧
    duplicate_block.element_count = (FlushAll.dupAll hashes_dups).length ∧
    (deltasFrom 0 (FlushAll.dupAll hashes_dups)).length
      = (FlushAll.dupAll hashes_dups).length ∧
    runningSums 0 (deltasFrom 0 (FlushAll.dupAll hashes_dups))
      = FlushAll.dupAll hashes_dups ∧
    duplicate_block.byte_length
      = ((encodeAll b (deltasFrom 0 (FlushAll.dupAll hashes_dups))).length + 7) / 8 ∧
    duplicate_block.payload = encodeAll b (deltasFrom 0 (FlushAll.dupAll hashes_dups)) ++
      List.replicate (8 * duplicate_block.byte_length
        - (encodeAll b (deltasFrom 0 (FlushAll.dupAll hashes_dups))).length) false ∧
    8 * duplicate_block.byte_length
      - (encodeAll b (deltasFrom 0 (FlushAll.dupAll hashes_dups))).length < 8 ∧
    duplicate_block.payload.length = 8 * duplicate_block.byte_length ∧
    ReadEncodedHashesToVector [duplicate_block] [] b
      = some (FlushAll.dupAll hashes_dups) := by
  have hb := dests_encoded _ _ _ _ _ _ _ _ hw
  have hlen := encoded_length num_workers max_hash num_workers 0 hashes_
  have hsorted := encoded_sorted num_workers max_hash num_workers 0 hashes_ hs
  have hdup := duplicates_some _ _ _ _ hd
  refine ⟨by rw [hb, List.length_map, hlen], hlen, fun i vals hi => ?_,
    by simp [FlushAll.round2], fun block hblock => List.eq_of_mem_replicate hblock, ?_⟩
  · refine ⟨Block.encode b vals, ?_, encode_fields b vals (hsorted vals ?_)⟩
    · rw [hb, List.getElem?_map, hi]
      rfl
    · obtain ⟨hlt, hget⟩ := List.getElem?_eq_some.1 hi
      rw [← hget]
      exact List.getElem_mem hlt
  · rw [hdup]
    exact encode_fields b _ (dupAll_sorted hashes_dups hsd)

/-- Witness of C11: the sorted fingerprints 0, 0, 3, 9, 15 sent to two
destinations with `b = 5`, and the duplicate block of the sorted list
3, 3, 7, 9. For destination 1 `golomb_in` is called for 9 and 15; its block
holds 2 elements in 2 bytes, the code words of the deltas 9 and 6 (12 bits)
and 4 zero bits. -/
theorem C11_block_layout_witness :
    WriteEncodedHashes [0, 0, 3, 9, 15] 2 5 16 100 = some
      [⟨2, 2, [false, false, false, false, false, false, false, true,
          true, false, false, false, false, false, false, false]⟩,
        ⟨2, 2, [false, true, false, false, true, false, false, false,
          true, true, false, false, false, false, false, false]⟩] ∧
    (WriteEncodedHashes.encoded 2 16 2 0 [0, 0, 3, 9, 15]).1 = [[0, 3], [9, 15]] ∧
    deltasFrom 0 [9, 15] = [9, 6] ∧
    ∃ block,
      [(⟨2, 2, [false, false, false, false, false, false, false, true,
          true, false, false, false, false, false, false, false]⟩ : Block),
        ⟨2, 2, [false, true, false, false, true, false, false, false,
          true, true, false, false, false, false, false, false]⟩][1]? = some block ∧
      block.element_count = [9, 15].length ∧
      (deltasFrom 0 [9, 15]).length = [9, 15].length ∧
      runningSums 0 (deltasFrom 0 [9, 15]) = [9, 15] ∧
      block.byte_length = ((encodeAll 5 (deltasFrom 0 [9, 15])).length + 7) / 8 ∧
      block.payload = encodeAll 5 (deltasFrom 0 [9, 15]) ++
        List.replicate (8 * block.byte_length
          - (encodeAll 5 (deltasFrom 0 [9, 15])).length) false ∧
      8 * block.byte_length - (encodeAll 5 (deltasFrom 0 [9, 15])).length < 8 ∧
      block.payload.length = 8 * block.byte_length ∧
      ReadEncodedHashesToVector [block] [] 5 = some [9, 15] :=
  ⟨by decide, by decide, by decide,
    (C11_block_layout [0, 0, 3, 9, 15] 2 5 16 100
      [⟨2, 2, [false, false, false, false, false, false, false, true,
          true, false, false, false, false, false, false, false]⟩,
        ⟨2, 2, [false, true, false, false, true, false, false, false,
          true, true, false, false, false, false, false, false]⟩]
      [3, 3, 7, 9] ⟨1, 1, [false, true, true, false, false, false, false, false]⟩
      (by decide) (by decide) (by decide) (by decide)).2.2.1 1 [9, 15] (by decide)⟩

/-! ## Malformed blocks -/

theorem readUnary_some (l rest : List Bool) (q : Nat)
    (h : readUnary l = some (q, rest)) : rest = l.drop (q + 1) ∧ q + 1 ≤ l.length := by
  induction l generalizing q with
  | nil => exact Option.noConfusion h
  | cons x l ih =>
    cases x with
    | false =>
      simp only [readUnary, Option.some.injEq, Prod.mk.injEq] at h
      obtain ⟨rfl, rfl⟩ := h
      exact ⟨rfl, by simp⟩
    | true =>
      rw [readUnary] at h
      cases hr : readUnary l with
      | none =>
        rw [hr] at h
        exact Option.noConfusion h
      | some res =>
        obtain ⟨q', rest'⟩ := res
        rw [hr] at h
        simp only [Option.some.injEq, Prod.mk.injEq] at h
        obtain ⟨rfl, rfl⟩ := h
        obtain ⟨h1, h2⟩ := ih q' hr
        exact ⟨by rw [h1]; rfl, by simp; omega⟩

theorem golomb_out_some (s s' : DynamicBitset) (d : Nat)
    (h : s.golomb_out = some (d, s')) :
    s'.bits = s.bits ∧ s'.b = s.b ∧ s.pos < s'.pos ∧ s'.pos ≤ s.bits.length := by
  unfold DynamicBitset.golomb_out at h
  cases hr : readUnary (s.bits.drop s.pos) with
  | none =>
    rw [hr] at h
    exact Option.noConfusion h
  | some res =>
    obtain ⟨q, rest⟩ := res
    rw [hr] at h
    simp only [] at h
    obtain ⟨h1, h2⟩ := readUnary_some _ _ _ hr
    by_cases hb : rest.length < s.b
    · rw [if_pos hb] at h
      exact Option.noConfusion h
    · rw [if_neg hb] at h
      simp only [Option.some.injEq, Prod.mk.injEq] at h
      obtain ⟨_, rfl⟩ := h
      rw [h1, List.length_drop, List.length_drop] at hb
      rw [List.length_drop] at h2
      refine ⟨rfl, rfl, ?_, ?_⟩
      · simp only []
        omega
      · simp only []
        omega

theorem read_loop_none (fuel : Nat) (s : DynamicBitset) (n last : Nat) (target_vec : List Nat)
    (hfuel : s.bits.length - s.pos < fuel) (hn : DynamicBitset.decodable fuel s < n) :
    ReadEncodedHashesToVector.loop n s last target_vec = none := by
  induction fuel generalizing s n last target_vec with
  | zero => omega
  | succ fuel ih =>
    obtain ⟨m, rfl⟩ : ∃ m, n = m + 1 := ⟨n - 1, by omega⟩
    rw [ReadEncodedHashesToVector.loop]
    rw [DynamicBitset.decodable] at hn
    cases hout : s.golomb_out with
    | none => rfl
    | some res =>
      obtain ⟨d, s'⟩ := res
      rw [hout] at hn
      simp only [] at hn ⊢
      obtain ⟨h1, _, h3, h4⟩ := golomb_out_some s s' d hout
      exact ih s' m _ _ (by rw [h1]; omega) (by omega)

theorem read_loop_length (fuel : Nat) (s : DynamicBitset) (n last : Nat)
    (target_vec : List Nat) (hn : n ≤ DynamicBitset.decodable fuel s) :
    ∃ values, ReadEncodedHashesToVector.loop n s last target_vec = some (target_vec ++ values) ∧
      values.length = n := by
  induction fuel generalizing s n last target_vec with
  | zero =>
    have h0 : n = 0 := by
      rw [DynamicBitset.decodable] at hn
      omega
    subst h0
    exact ⟨[], by simp [ReadEncodedHashesToVector.loop], rfl⟩
  | succ fuel ih =>
    rcases n with _ | m
    · exact ⟨[], by simp [ReadEncodedHashesToVector.loop], rfl⟩
    · rw [DynamicBitset.decodable] at hn
      rw [ReadEncodedHashesToVector.loop]
      cases hout : s.golomb_out with
      | none =>
        rw [hout] at hn
        simp only [] at hn
        omega
      | some res =>
        obtain ⟨d, s'⟩ := res
        rw [hout] at hn
        simp only [] at hn ⊢
        obtain ⟨values, hv, hl⟩ := ih s' m (d + last) (target_vec ++ [d + last]) (by omega)
        exact ⟨(d + last) :: values, by rw [hv]; simp, by simp [hl]⟩

theorem read_stream_none (pre stream : List Block) (block : Block) (target_vec : List Nat)
    (b : Nat)
    (h : ∀ target, ReadEncodedHashesToVector (block :: stream) target b = none) :
    ReadEncodedHashesToVector (pre ++ block :: stream) target_vec b = none := by
  induction pre generalizing target_vec with
  | nil => exact h target_vec
  | cons first pre ih =>
    rw [List.cons_append, ReadEncodedHashesToVector]
    cases ReadEncodedHashesToVector.loop first.element_count
        ((DynamicBitset.ofData first.payload first.byte_length b).seek 0) 0 target_vec with
    | none => rfl
    | some target' => exact ih target'

theorem loopState_ok_iff (n : Nat) (s : DynamicBitset) (last : Nat)
    (target_vec result : List Nat) :
    ReadEncodedHashesToVector.loopState n s last target_vec = Outcome.ok result ↔
      ReadEncodedHashesToVector.loop n s last target_vec = some result := by
  induction n generalizing s last target_vec with
  | zero =>
    simp only [ReadEncodedHashesToVector.loopState, ReadEncodedHashesToVector.loop,
      Outcome.ok.injEq, Option.some.injEq]
  | succ n ih =>
    rw [ReadEncodedHashesToVector.loopState, ReadEncodedHashesToVector.loop]
    cases hout : s.golomb_out with
    | none => simp
    | some res =>
      obtain ⟨d, s'⟩ := res
      exact ih s' (d + last) (target_vec ++ [d + last])

theorem state_ok_iff (stream : List Block) (target_vec result : List Nat) (b : Nat) :
    ReadEncodedHashesToVector.state stream target_vec b = Outcome.ok result ↔
      ReadEncodedHashesToVector stream target_vec b = some result := by
  induction stream generalizing target_vec with
  | nil =>
    simp only [ReadEncodedHashesToVector.state, ReadEncodedHashesToVector,
      Outcome.ok.injEq, Option.some.injEq]
  | cons block stream ih =>
    rw [ReadEncodedHashesToVector.state, ReadEncodedHashesToVector]
    cases hs : ReadEncodedHashesToVector.loopState block.element_count
        ((DynamicBitset.ofData block.payload block.byte_length b).seek 0) 0 target_vec with
    | ok t =>
      rw [(loopState_ok_iff _ _ _ _ _).mp hs]
      exact ih t
    | error t =>
      cases hl : ReadEncodedHashesToVector.loop block.element_count
          ((DynamicBitset.ofData block.payload block.byte_length b).seek 0) 0 target_vec with
      | none => simp
      | some t' =>
        rw [(loopState_ok_iff _ _ _ _ _).mpr hl] at hs
        exact Outcome.noConfusion hs

theorem loopState_error (fuel : Nat) (s : DynamicBitset) (n last : Nat)
    (target_vec : List Nat)
    (hfuel : s.bits.length - s.pos < fuel) (hn : DynamicBitset.decodable fuel s < n) :
    ∃ values, ReadEncodedHashesToVector.loopState n s last target_vec
        = Outcome.error (target_vec ++ values) ∧
      values.length = DynamicBitset.decodable fuel s := by
  induction fuel generalizing s n last target_vec with
  | zero => omega
  | succ fuel ih =>
    obtain ⟨m, rfl⟩ : ∃ m, n = m + 1 := ⟨n - 1, by omega⟩
    rw [ReadEncodedHashesToVector.loopState]
    rw [DynamicBitset.decodable] at hn ⊢
    cases hout : s.golomb_out with
    | none => exact ⟨[], by simp, rfl⟩
    | some res =>
      obtain ⟨d, s'⟩ := res
      rw [hout] at hn
      simp only [] at hn ⊢
      obtain ⟨h1, _, h3, h4⟩ := golomb_out_some s s' d hout
      obtain ⟨values, hv, hl⟩ := ih s' m (d + last) (target_vec ++ [d + last])
        (by rw [h1]; omega) (by omega)
      exact ⟨(d + last) :: values, by rw [hv]; simp, by simp [hl]; omega⟩

/-- C23 (counterexample to the claim as stated): the block of the single
value 3 is sent with `element_count = 2`. The reader decodes 3, pushes it onto
the target vector, and fails on the second `golomb_out`: when the decode error
is raised the target vector `[7]` has become `[7, 3]`. -/
theorem C23_counterexample :
    Block.encode 5 [3] = ⟨1, 1, [false, true, true, false, false, false, false, false]⟩ ∧
    Block.decodable 5 ⟨1, 2, [false, true, true, false, false, false, false, false]⟩ = 1 ∧
    ReadEncodedHashesToVector
      [⟨1, 2, [false, true, true, false, false, false, false, false]⟩] [7] 5 = none ∧
    ReadEncodedHashesToVector.state
      [⟨1, 2, [false, true, true, false, false, false, false, false]⟩] [7] 5
      = Outcome.error [7, 3] := by
  decide

/-- C23 (as the code has it): a block whose `element_count` is larger than
the number of deltas decodable from its payload makes
`ReadEncodedHashesToVector` fail with the decode error of the codec, wherever
the block stands in the stream: it never returns normally. The values are
pushed one by one, so when the error is raised the target vector has been
extended by the values decoded before it, as many as the payload has decodable
deltas. A block whose `element_count` is within the decodable number is read
to exactly `element_count` values. -/
theorem C23_malformed_block (b : Nat) (block : Block) (pre stream : List Block)
    (target_vec : List Nat) (hbad : block.decodable b < block.element_count) :
    ReadEncodedHashesToVector (block :: stream) target_vec b = none ∧
    ReadEncodedHashesToVector (pre ++ block :: stream) target_vec b = none ∧
    (∃ values, ReadEncodedHashesToVector.state (block :: stream) target_vec b
        = Outcome.error (target_vec ++ values) ∧
      values.length = block.decodable b) ∧
    (∀ (blocks : List Block) (target result : List Nat),
      ReadEncodedHashesToVector.state blocks target b = Outcome.ok result ↔
        ReadEncodedHashesToVector blocks target b = some result) ∧
    (∀ good : Block, good.element_count ≤ good.decodable b →
      ∃ values, ReadEncodedHashesToVector [good] target_vec b = some (target_vec ++ values) ∧
        values.length = good.element_count) := by
  have hfail : ∀ target, ReadEncodedHashesToVector (block :: stream) target b = none := by
    intro target
    rw [ReadEncodedHashesToVector]
    rw [read_loop_none (block.payload.length + 1) _ _ _ _ (by
      simp [DynamicBitset.ofData, DynamicBitset.seek]) hbad]
  refine ⟨hfail target_vec, read_stream_none pre stream block target_vec b hfail, ?_,
    fun blocks target result => state_ok_iff blocks target result b, fun good hgood => ?_⟩
  · obtain ⟨values, hv, hl⟩ := loopState_error (block.payload.length + 1)
      ((DynamicBitset.ofData block.payload block.byte_length b).seek 0) block.element_count 0
      target_vec (by simp [DynamicBitset.ofData, DynamicBitset.seek]) hbad
    refine ⟨values, ?_, hl⟩
    rw [ReadEncodedHashesToVector.state, hv]
  · obtain ⟨values, hv, hl⟩ := read_loop_length (good.payload.length + 1)
      ((DynamicBitset.ofData good.payload good.byte_length b).seek 0) good.element_count 0
      target_vec hgood
    refine ⟨values, ?_, hl⟩
    rw [ReadEncodedHashesToVector]
    rw [hv]
    rfl

theorem C23_malformed_block_witness :
    ReadEncodedHashesToVector
      ([Block.encode 5 [3]] ++
        [⟨2, 3, Block.payload (Block.encode 5 [96])⟩]) [7] 5 = none ∧
    (∃ values, ReadEncodedHashesToVector.state
        [⟨2, 3, Block.payload (Block.encode 5 [96])⟩] [7] 5
        = Outcome.error ([7] ++ values) ∧
      values.length = Block.decodable 5 ⟨2, 3, Block.payload (Block.encode 5 [96])⟩) ∧
    Block.decodable 5 ⟨2, 3, Block.payload (Block.encode 5 [96])⟩ = 2 ∧
    ReadEncodedHashesToVector.state [⟨2, 3, Block.payload (Block.encode 5 [96])⟩] [7] 5
      = Outcome.error [7, 96, 96] :=
  ⟨(C23_malformed_block 5 ⟨2, 3, Block.payload (Block.encode 5 [96])⟩
      [Block.encode 5 [3]] [] [7] (by decide)).2.1,
    (C23_malformed_block 5 ⟨2, 3, Block.payload (Block.encode 5 [96])⟩
      [Block.encode 5 [3]] [] [7] (by decide)).2.2.1,
    by decide, by decide⟩

/-! ## The serializers -/

theorem objectBytes_length (w n : Nat) : (objectBytes w n).length = w := by
  induction w generalizing n with
  | zero => rfl
  | succ w ih => simp [objectBytes, ih]

theorem objectValue_objectBytes (w n : Nat) :
    objectValue (objectBytes w n) = n % 256 ^ w := by
  induction w generalizing n with
  | zero => simp [objectBytes, objectValue, Nat.mod_one]
  | succ w ih =>
    rw [objectBytes, objectValue, ih, Nat.pow_succ', Nat.mod_mul]

theorem objectBytes_objectValue (bytes : Blob) :
    objectBytes bytes.length (objectValue bytes) = bytes := by
  induction bytes with
  | nil => rfl
  | cons c cs ih =>
    rw [List.length_cons, objectValue, objectBytes]
    have hc := c.isLt
    have h1 : (c.val + 256 * objectValue cs) % 256 = c.val := by omega
    have h2 : (c.val + 256 * objectValue cs) / 256 = objectValue cs := by omega
    rw [h2, ih]
    congr 1
    exact Fin.ext h1

theorem objectValue_lt (bytes : Blob) : objectValue bytes < 256 ^ bytes.length := by
  induction bytes with
  | nil => simp [objectValue]
  | cons c cs ih =>
    rw [objectValue, List.length_cons, Nat.pow_succ']
    have hc := c.isLt
    omega

theorem memcpy_to_from (i : Int) (hmin : INT_MIN ≤ i) (hmax : i ≤ INT_MAX) :
    memcpy_to_int (memcpy_from_int i) = i := by
  unfold memcpy_to_int memcpy_from_int sizeof_int
  unfold INT_MIN at hmin
  unfold INT_MAX at hmax
  rw [objectValue_objectBytes]
  have hu : (i % 2 ^ 32).toNat % 256 ^ 4 = (i % 2 ^ 32).toNat := by
    apply Nat.mod_eq_of_lt
    norm_num
    omega
  rw [hu]
  split <;> omega

theorem memcpy_from_to (bytes : Blob) (hlen : bytes.length = sizeof_int) :
    memcpy_from_int (memcpy_to_int bytes) = bytes ∧
    INT_MIN ≤ memcpy_to_int bytes ∧ memcpy_to_int bytes ≤ INT_MAX := by
  have hlt := objectValue_lt bytes
  rw [hlen] at hlt
  unfold sizeof_int at hlt hlen
  have hlt' : objectValue bytes < 4294967296 := by
    norm_num at hlt
    exact hlt
  unfold memcpy_from_int memcpy_to_int INT_MIN INT_MAX sizeof_int
  have hv : ((if objectValue bytes < 2 ^ 31 then (objectValue bytes : Int)
      else (objectValue bytes : Int) - 2 ^ 32) % 2 ^ 32).toNat = objectValue bytes := by
    split <;> omega
  refine ⟨?_, ?_, ?_⟩
  · rw [hv, ← hlen]
    exact objectBytes_objectValue bytes
  · split <;> omega
  · split <;> omega

theorem Serialize_eq (s : Blob) (i : Int) (hlen : sizeof_int + s.length < 2 ^ 64) :
    serializers.Impl_string_int.Serialize (s, i) = memcpy_from_int i ++ s := by
  unfold serializers.Impl_string_int.Serialize
  simp only []
  rw [Nat.mod_eq_of_lt hlen]
  apply List.take_of_length_le
  rw [List.length_append, memcpy_from_int, objectBytes_length]

theorem Deserialize_eq (x : Blob) (hsize : x.length < 2 ^ 64) (hlen : sizeof_int ≤ x.length) :
    serializers.Impl_string_int.Deserialize x
      = Except.ok (x.drop sizeof_int, memcpy_to_int (x.take sizeof_int)) := by
  unfold serializers.Impl_string_int.Deserialize
  simp only []
  rw [if_neg (by omega), if_neg (by omega)]
  have h1 : (x ++ [0]).take sizeof_int = x.take sizeof_int :=
    List.take_append_of_le_length hlen
  have h2 : (x.length + 2 ^ 64 - sizeof_int) % 2 ^ 64 = x.length - sizeof_int := by
    unfold sizeof_int at hlen ⊢
    omega
  rw [h1, h2, List.take_of_length_le (by rw [List.length_drop])]

/-- C28 (round trip of a `(string, int)` pair): for every string `s` (its
size, with `sizeof(int)` added, a `size_t`) and every `int` `i`,
`Deserialize(Serialize((s, i)))` is `(s, i)`; the blob has the length
`sizeof(int) + |s|`, starts with the `sizeof(int)` bytes of the `int` and
continues with the characters of `s`, whatever they are. -/
theorem C28_pair_roundtrip (s : Blob) (i : Int) (hmin : INT_MIN ≤ i) (hmax : i ≤ INT_MAX)
    (hlen : sizeof_int + s.length < 2 ^ 64) :
    Deserialize_string_int (Serialize_string_int (s, i)) = Except.ok (s, i) ∧
    (Serialize_string_int (s, i)).length = sizeof_int + s.length ∧
    (Serialize_string_int (s, i)).take sizeof_int = memcpy_from_int i ∧
    (Serialize_string_int (s, i)).drop sizeof_int = s ∧
    (memcpy_from_int i).length = sizeof_int := by
  have hb : (memcpy_from_int i).length = sizeof_int := objectBytes_length _ _
  have htake : (memcpy_from_int i ++ s).take sizeof_int = memcpy_from_int i := by
    rw [← hb]
    exact List.take_left' rfl
  have hdrop : (memcpy_from_int i ++ s).drop sizeof_int = s := by
    rw [← hb]
    exact List.drop_left' rfl
  unfold Deserialize_string_int Serialize_string_int
  rw [Serialize_eq s i hlen]
  refine ⟨?_, ?_, htake, hdrop, hb⟩
  · rw [Deserialize_eq _ (by rw [List.length_append, hb]; exact hlen)
      (by rw [List.length_append, hb]; omega), htake, hdrop, memcpy_to_from i hmin hmax]
  · rw [List.length_append, hb]

theorem C28_pair_roundtrip_witness :
    Deserialize_string_int (Serialize_string_int ([104, 0, 105], -2))
      = Except.ok ([104, 0, 105], -2) ∧
    Serialize_string_int ([104, 0, 105], -2) = [254, 255, 255, 255, 104, 0, 105] ∧
    Deserialize_string_int (Serialize_string_int ([], INT_MIN)) = Except.ok ([], INT_MIN) :=
  ⟨(C28_pair_roundtrip [104, 0, 105] (-2) (by decide) (by decide) (by decide)).1,
    by rfl,
    (C28_pair_roundtrip [] INT_MIN (by decide) (by decide) (by decide)).1⟩

/-- C30 (which blobs deserialize): for every blob `b` (its size a `size_t`),
`Deserialize` returns a pair exactly if `b` has at least `sizeof(int)`
characters, and then `Serialize` of that pair is `b` again; a shorter blob
gives an error and no pair, although `str_len` has wrapped around to a large
value. -/
theorem C30_deserialize_domain (b : Blob) (hsize : b.length < 2 ^ 64) :
    ((∃ p, Deserialize_string_int b = Except.ok p) ↔ sizeof_int ≤ b.length) ∧
    (sizeof_int ≤ b.length →
      ∃ p, Deserialize_string_int b = Except.ok p ∧ Serialize_string_int p = b ∧
        p.1 = b.drop sizeof_int ∧ INT_MIN ≤ p.2 ∧ p.2 ≤ INT_MAX) ∧
    (b.length < sizeof_int →
      (∃ e, Deserialize_string_int b = Except.error e) ∧
      (b.length + 2 ^ 64 - sizeof_int) % 2 ^ 64 = 2 ^ 64 - (sizeof_int - b.length)) := by
  have hshort : b.length < sizeof_int → ∃ e, Deserialize_string_int b = Except.error e := by
    intro h
    unfold Deserialize_string_int serializers.Impl_string_int.Deserialize
    simp only []
    by_cases h1 : b.length + 1 < sizeof_int
    · rw [if_pos h1]
      exact ⟨_, rfl⟩
    · rw [if_neg h1, if_pos h]
      exact ⟨_, rfl⟩
  have hlong : sizeof_int ≤ b.length →
      ∃ p, Deserialize_string_int b = Except.ok p ∧ Serialize_string_int p = b ∧
        p.1 = b.drop sizeof_int ∧ INT_MIN ≤ p.2 ∧ p.2 ≤ INT_MAX := by
    intro h
    have htl : (b.take sizeof_int).length = sizeof_int := by
      rw [List.length_take]
      omega
    obtain ⟨m1, m2, m3⟩ := memcpy_from_to (b.take sizeof_int) htl
    refine ⟨_, Deserialize_eq b hsize h, ?_, rfl, m2, m3⟩
    unfold Serialize_string_int
    rw [Serialize_eq _ _ (by rw [List.length_drop]; omega)]
    rw [m1, List.take_append_drop]
  refine ⟨⟨fun hp => ?_, fun h => ?_⟩, hlong, fun h => ⟨hshort h, ?_⟩⟩
  · by_contra hc
    obtain ⟨p, hp⟩ := hp
    obtain ⟨e, he⟩ := hshort (by omega)
    rw [hp] at he
    exact Except.noConfusion he
  · obtain ⟨p, hp, _⟩ := hlong h
    exact ⟨p, hp⟩
  · unfold sizeof_int at h ⊢
    omega

theorem C30_deserialize_domain_witness :
    (∃ e, Deserialize_string_int [1, 2, 3] = Except.error e) ∧
    Deserialize_string_int [1, 2, 3] = Except.error DeserializeError.out_of_range ∧
    Deserialize_string_int [1, 2, 3, 128] = Except.ok ([], -2147286527) ∧
    Serialize_string_int ([], -2147286527) = [1, 2, 3, 128] ∧
    Deserialize_string_int [] = Except.error DeserializeError.read_past_end :=
  ⟨((C30_deserialize_domain [1, 2, 3] (by decide)).2.2 (by decide)).1,
    by rfl, by rfl, by rfl, by rfl⟩

theorem digitChar_val (d : Nat) (hd : d < 10) : (digitChar d).val = 48 + d := by
  unfold digitChar
  simp only []
  omega

theorem decimal_spec (fuel n : Nat) (h : n < fuel) :
    decimal fuel n ≠ [] ∧
    (∀ c ∈ decimal fuel n, 48 ≤ c.val ∧ c.val ≤ 57) ∧
    (decimal fuel n).foldl (fun acc c => 10 * acc + (c.val - 48)) 0 = n := by
  induction fuel generalizing n with
  | zero => omega
  | succ fuel ih =>
    rw [decimal]
    by_cases h10 : n < 10
    · rw [if_pos h10]
      have hv := digitChar_val n h10
      refine ⟨by simp, fun c hc => ?_, ?_⟩
      · rw [List.mem_singleton.mp hc, hv]
        omega
      · simp only [List.foldl_cons, List.foldl_nil]
        rw [hv]
        omega
    · rw [if_neg h10]
      obtain ⟨_, h2, h3⟩ := ih (n / 10) (by omega)
      have hv := digitChar_val (n % 10) (Nat.mod_lt _ (by decide))
      refine ⟨by simp, fun c hc => ?_, ?_⟩
      · rcases List.mem_append.mp hc with hc | hc
        · exact h2 c hc
        · rw [List.mem_singleton.mp hc, hv]
          omega
      · rw [List.foldl_append, h3]
        simp only [List.foldl_cons, List.foldl_nil]
        rw [hv]
        omega

theorem digits_head (digits : Blob) (hne : digits ≠ [])
    (hd : ∀ c ∈ digits, 48 ≤ c.val ∧ c.val ≤ 57) :
    digits.takeWhile isdigit = digits ∧ digits.dropWhile isspace = digits ∧
    digits.head? ≠ some 45 ∧ digits.head? ≠ some 43 := by
  obtain ⟨c0, rest, rfl⟩ := List.exists_cons_of_ne_nil hne
  have h0 := hd c0 (List.mem_cons_self _ _)
  have hdig : ∀ c ∈ c0 :: rest, isdigit c = true := by
    intro c hc
    have := hd c hc
    simp [isdigit, this.1, this.2]
  have hsp : ¬ isspace c0 = true := by
    simp [isspace]
    omega
  refine ⟨List.takeWhile_eq_self_iff.mpr hdig, List.dropWhile_cons_of_neg hsp, ?_, ?_⟩
  · intro h
    rw [List.head?_cons, Option.some.injEq] at h
    rw [h] at h0
    exact absurd h0 (by decide)
  · intro h
    rw [List.head?_cons, Option.some.injEq] at h
    rw [h] at h0
    exact absurd h0 (by decide)

/-- What `stoi` makes of a run of digits. -/
theorem stoi_digits (digits : Blob) (hne : digits ≠ [])
    (hd : ∀ c ∈ digits, 48 ≤ c.val ∧ c.val ≤ 57)
    (hmax : ((digits.foldl (fun acc c => 10 * acc + (c.val - 48)) 0 : Nat) : Int) ≤ INT_MAX) :
    stoi digits
      = Except.ok ((digits.foldl (fun acc c => 10 * acc + (c.val - 48)) 0 : Nat) : Int) := by
  obtain ⟨h1, h2, h3, h4⟩ := digits_head digits hne hd
  unfold stoi
  simp only [h2, h3, h4, or_self, if_false, h1, decide_False, Bool.false_eq_true]
  rw [if_neg hne, if_neg]
  unfold INT_MIN INT_MAX at *
  omega

/-- What `stoi` makes of a minus sign followed by a run of digits. -/
theorem stoi_minus_digits (digits : Blob) (hne : digits ≠ [])
    (hd : ∀ c ∈ digits, 48 ≤ c.val ∧ c.val ≤ 57)
    (hmin : INT_MIN
      ≤ -((digits.foldl (fun acc c => 10 * acc + (c.val - 48)) 0 : Nat) : Int)) :
    stoi (45 :: digits)
      = Except.ok (-((digits.foldl (fun acc c => 10 * acc + (c.val - 48)) 0 : Nat) : Int)) := by
  obtain ⟨h1, _, _, _⟩ := digits_head digits hne hd
  unfold stoi
  have hdrop : (45 :: digits).dropWhile isspace = 45 :: digits :=
    List.dropWhile_cons_of_neg (by decide)
  simp only [hdrop, List.head?_cons, true_or, if_true, List.tail_cons, h1, decide_True]
  rw [if_neg hne, if_neg]
  unfold INT_MIN INT_MAX at *
  omega

/-- C29 (round trip of an `int`): for every `int` `x`, `INT_MIN`, 0 and
`INT_MAX` included, `Deserialize<int>(Serialize(x))` is `x`: `std::stoi` reads
back the decimal text that `std::to_string` produces; hence `Serialize<int>`
is injective. -/
theorem C29_int_roundtrip (x : Int) (hmin : INT_MIN ≤ x) (hmax : x ≤ INT_MAX) :
    Deserialize_int (Serialize_int x) = Except.ok x ∧
    (∀ y, INT_MIN ≤ y → y ≤ INT_MAX → Serialize_int x = Serialize_int y → x = y) := by
  have key : ∀ z : Int, INT_MIN ≤ z → z ≤ INT_MAX →
      Deserialize_int (Serialize_int z) = Except.ok z := by
    intro z hzmin hzmax
    obtain ⟨h1, h2, h3⟩ := decimal_spec (z.natAbs + 1) z.natAbs (Nat.lt_succ_self _)
    unfold Deserialize_int Serialize_int serializers.Impl_int.Deserialize
      serializers.Impl_int.Serialize to_string
    by_cases hneg : z < 0
    · rw [if_pos hneg]
      have hval : -((z.natAbs : Nat) : Int) = z := by omega
      rw [stoi_minus_digits _ h1 h2 (by rw [h3, hval]; exact hzmin), h3, hval]
    · rw [if_neg hneg]
      have hval : ((z.natAbs : Nat) : Int) = z := by omega
      rw [stoi_digits _ h1 h2 (by rw [h3, hval]; exact hzmax), h3, hval]
  refine ⟨key x hmin hmax, fun y hymin hymax heq => ?_⟩
  have hx := key x hmin hmax
  have hy := key y hymin hymax
  rw [heq, hy] at hx
  exact (Except.ok.inj hx).symm

theorem C29_int_roundtrip_witness :
    Serialize_int (-2147483648) = [45, 50, 49, 52, 55, 52, 56, 51, 54, 52, 56] ∧
    Deserialize_int (Serialize_int (-2147483648)) = Except.ok (-2147483648) ∧
    Deserialize_int (Serialize_int 0) = Except.ok 0 ∧
    Deserialize_int (Serialize_int 2147483647) = Except.ok 2147483647 :=
  ⟨by rfl,
    (C29_int_roundtrip (-2147483648) (by decide) (by decide)).1,
    (C29_int_roundtrip 0 (by decide) (by decide)).1,
    (C29_int_roundtrip 2147483647 (by decide) (by decide)).1⟩

end Thrill
